import Mathlib

/-!
# SimpleVector over ArrayPtr: a shallow embedding

Source files: `simple-vector/array_ptr.h`, `simple-vector/simple_vector.h`.

Modelling conventions.

* A heap block is the list of the values held by its cells; a pointer to the
  start of a block is `some block`, the null pointer is `none`.  An address
  `p + k` inside a block is the offset `k`; the cursors `begin()`, `end()`
  and `begin() + i` of a vector are therefore the offsets `0`, `size_` and `i`.
* `size_t` is `Nat`; every arithmetic step the source performs on a `size_t`
  is reduced modulo `2 ^ 64` (`wrap`).
* Every operation returns `Res`: the value it produces, or the reason why it
  does not produce one (`Fault`).  A failed `assert`, a thrown exception and a
  read or write outside the block are all faults; nothing is silently ignored.
* The element type enters through the class `Elem`: the value a cell of a
  fresh `new Type[n]` block holds, the state a moved-from object is left in,
  and the largest `n` for which `new Type[n]` succeeds.  Memory availability
  is thus a parameter: an allocation of `n` cells succeeds when `n` is at most
  `max_count` and throws otherwise.
* Two vectors never share a block, so an operation on two vectors takes both
  and returns both; the case `this == &rhs` of an assignment is a definition
  of its own.
* A parameter of type `const Type&` or `Type&&` is a `Ref`: the object it is
  bound to is either outside the block of the vector or one of the cells of
  that block, and it is read where the source reads it.
-/

namespace SimpleVec

/-- Reasons for which an operation produces no result. -/
inductive Fault where
  /-- The allocation `new Type[n]` failed. -/
  | bad_alloc
  /-- The exception `std::out_of_range` of `At`. -/
  | out_of_range
  /-- An `assert(...)` of the source does not hold. -/
  | assert_failed
  /-- A read or a write outside the block the pointer refers to. -/
  | bad_access
  deriving DecidableEq, Repr

/-- Result of running a piece of the source. -/
abbrev Res (α : Type) := Except Fault α

deriving instance DecidableEq for Except

/-- Number of values of `size_t` (64-bit target). -/
def SIZE_RANGE : Nat := 2 ^ 64

/-- Reduction of an arithmetic result to `size_t`. -/
def wrap (n : Nat) : Nat := n % SIZE_RANGE

/-- What the vector needs to know about its element type `Type`.
`dflt` is the value of each cell of a block made by `new Type[n]` (for a class
type, what its default constructor builds), `moved x` is the state in which an object holding `x`
is left once it has been moved from, and `max_count` is the largest `n` for
which `new Type[n]` succeeds; no block has `2 ^ 63` cells or more, whatever the
element type, since an object is at most `PTRDIFF_MAX` bytes long. -/
class Elem (T : Type) where
  dflt : T
  moved : T → T
  max_count : Nat
  max_count_lt : max_count < 2 ^ 63

/-- Largest block length `new Type[n]` can provide. -/
def maxCount (T : Type) [Elem T] : Nat := @Elem.max_count T _

/-! ## Memory cells -/

/-- Reading `p[i]` where `p` points to the start of block `b`. -/
def rd {T : Type} (b : List T) (i : Nat) : Res T :=
  match b[i]? with
  | some x => .ok x
  | none => .error .bad_access

/-- Writing `p[i] = v` (assignment, or construction with placement `new`). -/
def wr {T : Type} (b : List T) (i : Nat) (v : T) : Res (List T) :=
  if i < b.length then .ok (b.set i v) else .error .bad_access

/-! ## The algorithms of `<algorithm>` used by the source

Each loop is driven by the number of iterations `last - first` left. -/

/-- Loop of `std::move(first, last, d_first)` from block `src` into another
block `dst`: `*d_first++ = std::move(*first++)`. -/
def move_loop {T : Type} [Elem T] :
    Nat → List T → Nat → List T → Nat → Res (List T × List T)
  | 0, src, _, dst, _ => .ok (src, dst)
  | n + 1, src, first, dst, d_first => do
      let x ← rd src first
      let dst1 ← wr dst d_first x
      let src1 ← wr src first (Elem.moved x)
      move_loop n src1 (first + 1) dst1 (d_first + 1)

/-- Call `std::move(src + first, src + last, dst + d_first)` between two blocks;
returns both blocks. -/
def std_move {T : Type} [Elem T] (src : List T) (first last : Nat) (dst : List T)
    (d_first : Nat) : Res (List T × List T) :=
  if first ≤ last then move_loop (last - first) src first dst d_first
  else .error .bad_access

/-- Loop of `std::copy(first, last, d_first)` from block `src` into another
block `dst`: `*d_first++ = *first++`. -/
def copy_loop {T : Type} : Nat → List T → Nat → List T → Nat → Res (List T)
  | 0, _, _, dst, _ => .ok dst
  | n + 1, src, first, dst, d_first => do
      let x ← rd src first
      let dst1 ← wr dst d_first x
      copy_loop n src (first + 1) dst1 (d_first + 1)

/-- Call `std::copy(src + first, src + last, dst + d_first)` between two blocks. -/
def std_copy {T : Type} (src : List T) (first last : Nat) (dst : List T)
    (d_first : Nat) : Res (List T) :=
  if first ≤ last then copy_loop (last - first) src first dst d_first
  else .error .bad_access

/-- Loop of `std::move(first, last, d_first)` when source and destination lie
in the same block `b`; the cell read and the cell written differ in every call
the vector makes. -/
def move_loop_in {T : Type} [Elem T] : Nat → List T → Nat → Nat → Res (List T)
  | 0, b, _, _ => .ok b
  | n + 1, b, first, d_first => do
      let x ← rd b first
      let b1 ← wr b d_first x
      let b2 ← wr b1 first (Elem.moved x)
      move_loop_in n b2 (first + 1) (d_first + 1)

/-- Call `std::move(b + first, b + last, b + d_first)` inside one block. -/
def std_move_in {T : Type} [Elem T] (b : List T) (first last d_first : Nat) : Res (List T) :=
  if first ≤ last then move_loop_in (last - first) b first d_first
  else .error .bad_access

/-- Loop of `std::move_backward(first, last, d_last)` inside one block `b`:
`*(--d_last) = std::move(*(--last))`. -/
def move_backward_loop_in {T : Type} [Elem T] : Nat → List T → Nat → Nat → Res (List T)
  | 0, b, _, _ => .ok b
  | n + 1, b, last, d_last =>
      if last = 0 ∨ d_last = 0 then .error .bad_access
      else do
        let x ← rd b (last - 1)
        let b1 ← wr b (d_last - 1) x
        let b2 ← wr b1 (last - 1) (Elem.moved x)
        move_backward_loop_in n b2 (last - 1) (d_last - 1)

/-- Call `std::move_backward(b + first, b + last, b + d_last)` inside one block. -/
def std_move_backward_in {T : Type} [Elem T] (b : List T) (first last d_last : Nat) :
    Res (List T) :=
  if first ≤ last then move_backward_loop_in (last - first) b last d_last
  else .error .bad_access

/-! ## `ArrayPtr` (array_ptr.h) -/

/-- The owning handle: its only member is `raw_ptr_`. -/
structure ArrayPtr (T : Type) where
  raw_ptr_ : Option (List T)
  deriving DecidableEq, Repr

namespace ArrayPtr

/-- Constructor `ArrayPtr() = default`: owns nothing. -/
def ctor_default {T : Type} : ArrayPtr T := ⟨none⟩

/-- Constructor `explicit ArrayPtr(size_t size)`:
`raw_ptr_ = size ? new Type[size] : nullptr`. -/
def ctor_size {T : Type} [Elem T] (size : Nat) : Res (ArrayPtr T) :=
  if size ≠ 0 then
    (if size ≤ maxCount T then .ok ⟨some (List.replicate size Elem.dflt)⟩
     else .error .bad_alloc)
  else .ok ⟨none⟩

/-- Constructor `ArrayPtr(ArrayPtr&& other)`: returns the new handle and
`other` afterwards. -/
def ctor_move {T : Type} (other : ArrayPtr T) : ArrayPtr T × ArrayPtr T :=
  (⟨other.raw_ptr_⟩, ⟨none⟩)

/-- Operator `operator=(ArrayPtr&& other)` for `this != &other`: the block of `this` is
deleted, the pointers are swapped and `other.raw_ptr_` is set to null.  Returns
`this` and `other` afterwards. -/
def move_assign {T : Type} (_this other : ArrayPtr T) : ArrayPtr T × ArrayPtr T :=
  (⟨other.raw_ptr_⟩, ⟨none⟩)

/-- Member `Get()`: the raw pointer. -/
def Get {T : Type} (p : ArrayPtr T) : Option (List T) := p.raw_ptr_

/-- Operator `explicit operator bool()`: `raw_ptr_ != nullptr`. -/
def toBool {T : Type} (p : ArrayPtr T) : Bool := p.raw_ptr_.isSome

/-- Member `swap(ArrayPtr& other)`: returns `this` and `other` afterwards. -/
def swap {T : Type} (this other : ArrayPtr T) : ArrayPtr T × ArrayPtr T :=
  (⟨other.raw_ptr_⟩, ⟨this.raw_ptr_⟩)

/-- The cells reachable through `Get()`: those of the block, none for null. -/
def cells {T : Type} (p : ArrayPtr T) : List T :=
  match p.raw_ptr_ with
  | some b => b
  | none => []

/-- The handle once the cells reachable through `Get()` have been given the
values `b` by writes through the pointer; the pointer itself is unchanged. -/
def put {T : Type} (p : ArrayPtr T) (b : List T) : ArrayPtr T :=
  match p.raw_ptr_ with
  | some _ => ⟨some b⟩
  | none => ⟨none⟩

end ArrayPtr

/-! ## Reference parameters -/

/-- The object a parameter of type `const Type&` or `Type&&` is bound to:
`obj v` is an object holding `v` that is no cell of the block of the vector,
`cell j` is the cell at offset `j` of the block `data_` holds when the call is
made (as in `v.PushBack(v[j])`). -/
inductive Ref (T : Type) where
  | obj (v : T)
  | cell (j : Nat)
  deriving DecidableEq, Repr

namespace Ref

/-- Reading the object the reference is bound to.  `blk` is the block `data_`
held at the call, with the values its cells hold now, or `none` once that
block has been given to `delete[]`: reading one of its cells is then a fault. -/
def load {T : Type} : Ref T → Option (List T) → Res T
  | .obj v, _ => .ok v
  | .cell j, some b => rd b j
  | .cell _, none => .error .bad_access

/-- The object once `Type(std::move(item))` has moved the value `x` out of
it: an outside object holds `moved x`; a cell is given `moved x` in `b`, the
block it belongs to with the values its cells hold now.  Returns the reference
and the block afterwards. -/
def release {T : Type} [Elem T] : Ref T → T → List T → Res (Ref T × List T)
  | .obj _, x, b => .ok (.obj (Elem.moved x), b)
  | .cell j, x, b => do
      let b1 ← wr b j (Elem.moved x)
      pure (.cell j, b1)

end Ref

/-- The reference is bound to an object that exists: any object outside the
vector, or a cell of a block of `n` cells. -/
def Ref.Within {T : Type} : Ref T → Nat → Prop
  | .obj _, _ => True
  | .cell j, n => j < n

instance {T : Type} (r : Ref T) (n : Nat) : Decidable (r.Within n) := by
  cases r <;> unfold Ref.Within <;> infer_instance

/-! ## `ReserveProxyObj` and `SimpleVector` (simple_vector.h) -/

/-- The class `ReserveProxyObj`: it carries the capacity to reserve. -/
structure ReserveProxyObj where
  reserve_capacity : Nat
  deriving DecidableEq, Repr

/-- Member `ReserveProxyObj::GetCapacity()`. -/
def ReserveProxyObj.GetCapacity (r : ReserveProxyObj) : Nat := r.reserve_capacity

/-- The free function `Reserve(size_t capacity_to_reserve)`. -/
def Reserve (capacity_to_reserve : Nat) : ReserveProxyObj := ⟨capacity_to_reserve⟩

/-- The three members of `SimpleVector<Type>`. -/
structure SimpleVector (T : Type) where
  size_ : Nat
  capacity_ : Nat
  data_ : ArrayPtr T
  deriving DecidableEq, Repr

namespace SimpleVector

/-- Constructor `SimpleVector() noexcept : size_(0), capacity_(0), data_()`. -/
def ctor_default {T : Type} : SimpleVector T := ⟨0, 0, ArrayPtr.ctor_default⟩

/-- Constructor `explicit SimpleVector(size_t size)`. -/
def ctor_size {T : Type} [Elem T] (size : Nat) : Res (SimpleVector T) := do
  let data ← ArrayPtr.ctor_size size
  pure ⟨size, size, data⟩

/-- Constructor `SimpleVector(size_t size, const Type& value)
: size_(size), capacity_(size), data_(size) {}`; the body is empty. -/
def ctor_fill {T : Type} [Elem T] (size : Nat) (_value : T) : Res (SimpleVector T) := do
  let data ← ArrayPtr.ctor_size size
  pure ⟨size, size, data⟩

/-- Constructor `SimpleVector(std::initializer_list<Type> init)`; the elements of an
initializer list are `const`, so `std::move` copies them. -/
def ctor_init {T : Type} [Elem T] (init : List T) : Res (SimpleVector T) := do
  let data ← ArrayPtr.ctor_size init.length
  let b ← std_copy init 0 init.length data.cells 0
  pure ⟨init.length, init.length, data.put b⟩

/-- Constructor `SimpleVector(const SimpleVector& other)`. -/
def ctor_copy {T : Type} [Elem T] (other : SimpleVector T) : Res (SimpleVector T) := do
  let data ← ArrayPtr.ctor_size other.capacity_
  let b ← std_copy other.data_.cells 0 other.size_ data.cells 0
  pure ⟨other.size_, other.capacity_, data.put b⟩

/-- Constructor `SimpleVector(SimpleVector&& other) noexcept`: returns the new vector and
`other` afterwards. -/
def ctor_move {T : Type} (other : SimpleVector T) : SimpleVector T × SimpleVector T :=
  let d := ArrayPtr.ctor_move other.data_
  (⟨other.size_, other.capacity_, d.1⟩, ⟨0, 0, d.2⟩)

/-- Constructor `SimpleVector(const ReserveProxyObj& reserve_obj)`. -/
def ctor_reserve {T : Type} [Elem T] (reserve_obj : ReserveProxyObj) : Res (SimpleVector T) := do
  let data ← ArrayPtr.ctor_size reserve_obj.GetCapacity
  pure ⟨0, reserve_obj.GetCapacity, data⟩

/-- Member `GetSize()`. -/
def GetSize {T : Type} (s : SimpleVector T) : Nat := s.size_

/-- Member `GetCapacity()`. -/
def GetCapacity {T : Type} (s : SimpleVector T) : Nat := s.capacity_

/-- Member `IsEmpty()`. -/
def IsEmpty {T : Type} (s : SimpleVector T) : Bool := s.size_ == 0

/-- Member `swap(SimpleVector& other)`: returns `this` and `other` afterwards. -/
def swap {T : Type} (this other : SimpleVector T) : SimpleVector T × SimpleVector T :=
  let d := ArrayPtr.swap this.data_ other.data_
  (⟨other.size_, other.capacity_, d.1⟩, ⟨this.size_, this.capacity_, d.2⟩)

/-- Operator `operator=(const SimpleVector& rhs)` for `this != &rhs`: a copy `temp` of
`rhs` is made and swapped with `this`; `temp` is then destroyed. -/
def copy_assign {T : Type} [Elem T] (this rhs : SimpleVector T) : Res (SimpleVector T) := do
  let temp ← ctor_copy rhs
  pure (swap this temp).1

/-- Operator `operator=(const SimpleVector& rhs)` for `this == &rhs`: nothing is done. -/
def copy_assign_self {T : Type} (this : SimpleVector T) : SimpleVector T := this

/-- Operator `operator=(SimpleVector&& rhs)` for `this != &rhs`: returns `this` and
`rhs` afterwards. -/
def move_assign {T : Type} (this rhs : SimpleVector T) : SimpleVector T × SimpleVector T :=
  let d := ArrayPtr.move_assign this.data_ rhs.data_
  (⟨rhs.size_, rhs.capacity_, d.1⟩, ⟨0, 0, d.2⟩)

/-- Operator `operator=(SimpleVector&& rhs)` for `this == &rhs`: nothing is done. -/
def move_assign_self {T : Type} (this : SimpleVector T) : SimpleVector T := this

/-- The four statements that `PushBack` (lines 83-86 and 95-98), `Resize`
(207-210) and `Reserve` (217-220) all contain:
`ArrayPtr<Type> new_data(new_capacity);
std::move(data_.Get(), data_.Get() + size_, new_data.Get());
data_.swap(new_data); capacity_ = new_capacity;`
after which `new_data`, holding the old block, is destroyed. -/
def reallocate {T : Type} [Elem T] (s : SimpleVector T) (new_capacity : Nat) :
    Res (SimpleVector T) := do
  let new_data ← ArrayPtr.ctor_size new_capacity
  let r ← std_move s.data_.cells 0 s.size_ new_data.cells 0
  let d := ArrayPtr.swap (s.data_.put r.1) (new_data.put r.2)
  pure { s with data_ := d.1, capacity_ := new_capacity }

/-- Member `PushBack(const Type& item)`.  `new_data` is local to the `if`: at
its closing brace (line 99) the destructor gives the old block to `delete[]`,
so that `item` is read (line 100) from a deleted block when it refers to a
cell of the vector and the vector was full. -/
def PushBack {T : Type} [Elem T] (s : SimpleVector T) (item : Ref T) : Res (SimpleVector T) := do
  let r ← (if s.size_ = s.capacity_ then do
      let s1 ← reallocate s (if s.capacity_ = 0 then 1 else wrap (s.capacity_ * 2))
      pure (s1, (none : Option (List T)))
    else pure (s, some s.data_.cells))
  let x ← item.load r.2
  let b ← wr r.1.data_.cells r.1.size_ x
  pure { r.1 with data_ := r.1.data_.put b, size_ := wrap (r.1.size_ + 1) }

/-- Member `PushBack(Type&& item)`: the same statements, the new element being
move-constructed from `item` (line 88), which is left moved-from; a cell that
could be read is a cell of the block the vector still holds.  Returns the
vector and the reference afterwards. -/
def PushBack_rv {T : Type} [Elem T] (s : SimpleVector T) (item : Ref T) :
    Res (SimpleVector T × Ref T) := do
  let r ← (if s.size_ = s.capacity_ then do
      let s1 ← reallocate s (if s.capacity_ = 0 then 1 else wrap (s.capacity_ * 2))
      pure (s1, (none : Option (List T)))
    else pure (s, some s.data_.cells))
  let x ← item.load r.2
  let b ← wr r.1.data_.cells r.1.size_ x
  let m ← item.release x b
  pure ({ r.1 with data_ := r.1.data_.put m.2, size_ := wrap (r.1.size_ + 1) }, m.1)

/-- Member `PopBack()`. -/
def PopBack {T : Type} (s : SimpleVector T) : Res (SimpleVector T) :=
  if 0 < s.size_ then .ok { s with size_ := s.size_ - 1 }
  else .error .assert_failed

/-- Member `Insert(ConstIterator pos, const Type& value)`; `pos` is the offset
of the cursor from `begin()`, so that `pos >= begin()` holds by construction
and the `assert` comes down to `pos <= end()`.  `value` is read where the
source reads it: after the prefix has been moved out of the old block (line
136), or after the tail has been shifted (line 142).  Returns the vector and
the returned cursor. -/
def Insert {T : Type} [Elem T] (s : SimpleVector T) (pos : Nat) (value : Ref T) :
    Res (SimpleVector T × Nat) :=
  if pos ≤ s.size_ then do
    let index := pos
    let s1 ← (if s.size_ = s.capacity_ then do
        let new_capacity := if s.capacity_ = 0 then 1 else wrap (s.capacity_ * 2)
        let new_data ← ArrayPtr.ctor_size new_capacity
        let r1 ← std_move s.data_.cells 0 index new_data.cells 0
        let x ← value.load (some r1.1)
        let nb ← wr r1.2 index x
        let r2 ← std_move r1.1 index s.size_ nb (index + 1)
        let d := ArrayPtr.swap (s.data_.put r2.1) (new_data.put r2.2)
        pure { s with data_ := d.1, capacity_ := new_capacity }
      else do
        let b1 ← std_move_backward_in s.data_.cells index s.size_ (s.size_ + 1)
        let x ← value.load (some b1)
        let b2 ← wr b1 index x
        pure { s with data_ := s.data_.put b2 })
    pure ({ s1 with size_ := wrap (s1.size_ + 1) }, index)
  else .error .assert_failed

/-- Member `Insert(ConstIterator pos, Type&& value)`: the same steps, the new
element being move-constructed from `value` (lines 117 and 123), which is left
moved-from before the rest of the old block is moved (line 118); also returns
the reference afterwards. -/
def Insert_rv {T : Type} [Elem T] (s : SimpleVector T) (pos : Nat) (value : Ref T) :
    Res ((SimpleVector T × Nat) × Ref T) :=
  if pos ≤ s.size_ then do
    let index := pos
    let r ← (if s.size_ = s.capacity_ then do
        let new_capacity := if s.capacity_ = 0 then 1 else wrap (s.capacity_ * 2)
        let new_data ← ArrayPtr.ctor_size new_capacity
        let r1 ← std_move s.data_.cells 0 index new_data.cells 0
        let x ← value.load (some r1.1)
        let nb ← wr r1.2 index x
        let m ← value.release x r1.1
        let r2 ← std_move m.2 index s.size_ nb (index + 1)
        let d := ArrayPtr.swap (s.data_.put r2.1) (new_data.put r2.2)
        pure ({ s with data_ := d.1, capacity_ := new_capacity }, m.1)
      else do
        let b1 ← std_move_backward_in s.data_.cells index s.size_ (s.size_ + 1)
        let x ← value.load (some b1)
        let b2 ← wr b1 index x
        let m ← value.release x b2
        pure ({ s with data_ := s.data_.put m.2 }, m.1))
    pure (({ r.1 with size_ := wrap (r.1.size_ + 1) }, index), r.2)
  else .error .assert_failed

/-- Member `Erase(ConstIterator pos)`; `pos` is the offset of the cursor from
`begin()`.  Returns the vector and the returned cursor. -/
def Erase {T : Type} [Elem T] (s : SimpleVector T) (pos : Nat) : Res (SimpleVector T × Nat) :=
  if pos < s.size_ then do
    let index := pos
    let b ← std_move_in s.data_.cells (index + 1) s.size_ index
    pure ({ s with data_ := s.data_.put b, size_ := s.size_ - 1 }, index)
  else .error .assert_failed

/-- Operator `operator[](size_t index)`: `assert(index < size_); return data_[index];`. -/
def op_index {T : Type} (s : SimpleVector T) (index : Nat) : Res T :=
  if index < s.size_ then rd s.data_.cells index else .error .assert_failed

/-- Member `At(size_t index)`. -/
def At {T : Type} (s : SimpleVector T) (index : Nat) : Res T :=
  if index ≥ s.size_ then .error .out_of_range else rd s.data_.cells index

/-- Member `Clear()`. -/
def Clear {T : Type} (s : SimpleVector T) : SimpleVector T := { s with size_ := 0 }

/-- Member `Resize(size_t new_size)`. -/
def Resize {T : Type} [Elem T] (s : SimpleVector T) (new_size : Nat) : Res (SimpleVector T) := do
  let s1 ← (if new_size > s.capacity_ then
      reallocate s (max new_size (wrap (s.capacity_ * 2)))
    else pure s)
  pure { s1 with size_ := new_size }

/-- Member `Reserve(size_t new_capacity)`. -/
def Reserve {T : Type} [Elem T] (s : SimpleVector T) (new_capacity : Nat) :
    Res (SimpleVector T) :=
  if new_capacity > s.capacity_ then reallocate s new_capacity else pure s

/-- The live elements: the values of the cells `[begin(), end())`. -/
def elems {T : Type} (s : SimpleVector T) : List T := s.data_.cells.take s.size_

/-- Representation invariant: the size does not exceed the capacity, the
block has exactly `capacity_` cells, and such a block can exist. -/
def Inv {T : Type} [Elem T] (s : SimpleVector T) : Prop :=
  s.size_ ≤ s.capacity_ ∧ s.data_.cells.length = s.capacity_ ∧ s.capacity_ ≤ maxCount T

instance {T : Type} [Elem T] (s : SimpleVector T) : Decidable (Inv s) := by
  unfold Inv; infer_instance

/-- Consecutive `PushBack` calls, one for each value of the list in order,
each value being held by an object outside the vector. -/
def push_all {T : Type} [Elem T] : List T → SimpleVector T → Res (SimpleVector T)
  | [], s => .ok s
  | v :: vs, s => do
      let s1 ← PushBack s (.obj v)
      push_all vs s1

/-- Consecutive `PushBack` calls, one for each reference of the list in
order. -/
def push_refs {T : Type} [Elem T] : List (Ref T) → SimpleVector T → Res (SimpleVector T)
  | [], s => .ok s
  | r :: rs, s => do
      let s1 ← PushBack s r
      push_refs rs s1

/-- The vectors a program can hold: those made by a constructor, and those
left behind by an operation that returned (its `assert`, if any, held) when
run on such vectors. -/
inductive Reachable {T : Type} [Elem T] : SimpleVector T → Prop
  | by_default : Reachable ctor_default
  | by_size (n : Nat) (s : SimpleVector T) : ctor_size n = .ok s → Reachable s
  | by_fill (n : Nat) (v : T) (s : SimpleVector T) : ctor_fill n v = .ok s → Reachable s
  | by_init (l : List T) (s : SimpleVector T) : ctor_init l = .ok s → Reachable s
  | by_copy (o s : SimpleVector T) : Reachable o → ctor_copy o = .ok s → Reachable s
  | by_move (o : SimpleVector T) : Reachable o → Reachable (ctor_move o).1
  | moved_from (o : SimpleVector T) : Reachable o → Reachable (ctor_move o).2
  | by_reserve (r : ReserveProxyObj) (s : SimpleVector T) :
      ctor_reserve r = .ok s → Reachable s
  | push_back (s : SimpleVector T) (v : Ref T) (s1 : SimpleVector T) :
      Reachable s → PushBack s v = .ok s1 → Reachable s1
  | push_back_rv (s : SimpleVector T) (v : Ref T) (r : SimpleVector T × Ref T) :
      Reachable s → PushBack_rv s v = .ok r → Reachable r.1
  | pop_back (s s1 : SimpleVector T) : Reachable s → PopBack s = .ok s1 → Reachable s1
  | insert (s : SimpleVector T) (pos : Nat) (v : Ref T) (r : SimpleVector T × Nat) :
      Reachable s → Insert s pos v = .ok r → Reachable r.1
  | insert_rv (s : SimpleVector T) (pos : Nat) (v : Ref T)
      (r : (SimpleVector T × Nat) × Ref T) :
      Reachable s → Insert_rv s pos v = .ok r → Reachable r.1.1
  | erase (s : SimpleVector T) (pos : Nat) (r : SimpleVector T × Nat) :
      Reachable s → Erase s pos = .ok r → Reachable r.1
  | clear (s : SimpleVector T) : Reachable s → Reachable (Clear s)
  | resize (s : SimpleVector T) (n : Nat) (s1 : SimpleVector T) :
      Reachable s → Resize s n = .ok s1 → Reachable s1
  | reserve (s : SimpleVector T) (n : Nat) (s1 : SimpleVector T) :
      Reachable s → Reserve s n = .ok s1 → Reachable s1
  | swap_this (a b : SimpleVector T) : Reachable a → Reachable b → Reachable (swap a b).1
  | swap_other (a b : SimpleVector T) : Reachable a → Reachable b → Reachable (swap a b).2
  | copy_assigned (a b s1 : SimpleVector T) :
      Reachable a → Reachable b → copy_assign a b = .ok s1 → Reachable s1
  | copy_assigned_self (a : SimpleVector T) : Reachable a → Reachable (copy_assign_self a)
  | move_assigned (a b : SimpleVector T) :
      Reachable a → Reachable b → Reachable (move_assign a b).1
  | move_assigned_from (a b : SimpleVector T) :
      Reachable a → Reachable b → Reachable (move_assign a b).2
  | move_assigned_self (a : SimpleVector T) : Reachable a → Reachable (move_assign_self a)

end SimpleVector

/-- The comparisons of the element type `Type`: `eq x y` is `x == y` and
`lt x y` is `x < y`. -/
class ElemOrd (T : Type) where
  eq : T → T → Bool
  lt : T → T → Bool

/-- Loop of `std::equal(first1, last1, first2)`:
`if (!(*first1 == *first2)) return false;` for each position, then `true`. -/
def equal_loop {T : Type} [ElemOrd T] : Nat → List T → Nat → List T → Nat → Res Bool
  | 0, _, _, _, _ => .ok true
  | n + 1, b1, first1, b2, first2 => do
      let x ← rd b1 first1
      let y ← rd b2 first2
      if ElemOrd.eq x y then equal_loop n b1 (first1 + 1) b2 (first2 + 1) else pure false

/-- Call `std::equal(b1 + first1, b1 + last1, b2 + first2)`. -/
def std_equal {T : Type} [ElemOrd T] (b1 : List T) (first1 last1 : Nat) (b2 : List T)
    (first2 : Nat) : Res Bool :=
  if first1 ≤ last1 then equal_loop (last1 - first1) b1 first1 b2 first2
  else .error .bad_access

/-- Loop of `std::lexicographical_compare(first1, last1, first2, last2)`, driven
by the lengths `last1 - first1` and `last2 - first2` left:
`if (*first1 < *first2) return true; if (*first2 < *first1) return false;`
while both ranges last, then `first1 == last1 && first2 != last2`. -/
def lexicographical_compare_loop {T : Type} [ElemOrd T] :
    Nat → Nat → List T → Nat → List T → Nat → Res Bool
  | 0, n2, _, _, _, _ => .ok (decide (n2 ≠ 0))
  | _ + 1, 0, _, _, _, _ => .ok false
  | n1 + 1, n2 + 1, b1, first1, b2, first2 => do
      let x ← rd b1 first1
      let y ← rd b2 first2
      if ElemOrd.lt x y then pure true
      else if ElemOrd.lt y x then pure false
      else lexicographical_compare_loop n1 n2 b1 (first1 + 1) b2 (first2 + 1)

/-- Call `std::lexicographical_compare(b1 + first1, b1 + last1, b2 + first2,
b2 + last2)`. -/
def std_lexicographical_compare {T : Type} [ElemOrd T] (b1 : List T) (first1 last1 : Nat)
    (b2 : List T) (first2 last2 : Nat) : Res Bool :=
  if first1 ≤ last1 ∧ first2 ≤ last2 then
    lexicographical_compare_loop (last1 - first1) (last2 - first2) b1 first1 b2 first2
  else .error .bad_access

namespace SimpleVector

/-- Operator `operator==(const SimpleVector& rhs)`:
`size_ == rhs.size_ && std::equal(begin(), end(), rhs.begin())`. -/
def op_eq {T : Type} [ElemOrd T] (this rhs : SimpleVector T) : Res Bool :=
  if this.size_ = rhs.size_ then
    std_equal this.data_.cells 0 this.size_ rhs.data_.cells 0
  else pure false

/-- Operator `operator!=(const SimpleVector& rhs)`: `!(*this == rhs)`. -/
def op_ne {T : Type} [ElemOrd T] (this rhs : SimpleVector T) : Res Bool := do
  let r ← op_eq this rhs
  pure (!r)

/-- Operator `operator<(const SimpleVector& rhs)`:
`std::lexicographical_compare(begin(), end(), rhs.begin(), rhs.end())`. -/
def op_lt {T : Type} [ElemOrd T] (this rhs : SimpleVector T) : Res Bool :=
  std_lexicographical_compare this.data_.cells 0 this.size_ rhs.data_.cells 0 rhs.size_

/-- Operator `operator<=(const SimpleVector& rhs)`: `!(rhs < *this)`. -/
def op_le {T : Type} [ElemOrd T] (this rhs : SimpleVector T) : Res Bool := do
  let r ← op_lt rhs this
  pure (!r)

/-- Operator `operator>(const SimpleVector& rhs)`: `rhs < *this`. -/
def op_gt {T : Type} [ElemOrd T] (this rhs : SimpleVector T) : Res Bool :=
  op_lt rhs this

/-- Operator `operator>=(const SimpleVector& rhs)`: `!(*this < rhs)`. -/
def op_ge {T : Type} [ElemOrd T] (this rhs : SimpleVector T) : Res Bool := do
  let r ← op_lt this rhs
  pure (!r)

end SimpleVector

/-- Element-wise equality of two lists: same length and `==` at each index. -/
def listEq {T : Type} [ElemOrd T] : List T → List T → Bool
  | [], [] => true
  | x :: xs, y :: ys => ElemOrd.eq x y && listEq xs ys
  | _, _ => false

/-- Lexicographic comparison of two lists under the `<` of the elements. -/
def lexLt {T : Type} [ElemOrd T] : List T → List T → Bool
  | [], [] => false
  | [], _ :: _ => true
  | _ :: _, [] => false
  | x :: xs, y :: ys =>
      if ElemOrd.lt x y then true else if ElemOrd.lt y x then false else lexLt xs ys

/-- Three-way lexicographic comparison of two lists. -/
def lexCmp {T : Type} [ElemOrd T] : List T → List T → Ordering
  | [], [] => .eq
  | [], _ :: _ => .lt
  | _ :: _, [] => .gt
  | x :: xs, y :: ys =>
      if ElemOrd.lt x y then .lt else if ElemOrd.lt y x then .gt else lexCmp xs ys

/-- The `==` of the element type holds exactly between the values that `<`
leaves unordered. -/
def EqConsistent (T : Type) [ElemOrd T] : Prop :=
  ∀ x y : T, ElemOrd.eq x y = true ↔ (ElemOrd.lt x y = false ∧ ElemOrd.lt y x = false)

/-- The `<` of the element type is a strict order whose unordered pairs are
the pairs that compare `==`, and `==` is transitive: a strict total order up
to `==`, in particular a strict total order when `==` is equality. -/
def StrictOrdered (T : Type) [ElemOrd T] : Prop :=
  (∀ x : T, ElemOrd.lt x x = false) ∧
  (∀ x y z : T, ElemOrd.lt x y = true → ElemOrd.lt y z = true → ElemOrd.lt x z = true) ∧
  EqConsistent T ∧
  (∀ x y z : T, ElemOrd.eq x y = true → ElemOrd.eq y z = true → ElemOrd.eq x z = true)

/-- A comparison that returned `true`. -/
def holds (r : Res Bool) : Prop := r = .ok true

/-- The comparisons of `Nat`, for concrete runs. -/
instance natOrd : ElemOrd Nat := ⟨fun x y => decide (x = y), fun x y => decide (x < y)⟩

/-! ## The same source over a free store

In the definitions above a block is a value, so two objects cannot refer to
one block.  Ownership is about which block a pointer designates: here the free
store is explicit, a pointer is an address (`0` is the null pointer), and
`new[]`, `delete[]` and every access go through the store. -/

namespace Mem

/-- The free store: `blocks[k]` is the block of address `k + 1`, `none` once it
has been given to `delete[]`; `deleted` lists the addresses given to `delete[]`,
oldest first. -/
structure Heap (T : Type) where
  blocks : List (Option (List T))
  deleted : List Nat
  deriving DecidableEq, Repr

namespace Heap

/-- The live block a pointer designates, if any. -/
def block {T : Type} (h : Heap T) : Nat → Option (List T)
  | 0 => none
  | k + 1 => (h.blocks[k]?).join

/-- Expression `new Type[n]`: a fresh block of `n` default-initialised cells at
an address never used before, or `bad_alloc`. -/
def new_array {T : Type} [Elem T] (h : Heap T) (n : Nat) : Res (Heap T × Nat) :=
  if n ≤ maxCount T then
    .ok (⟨h.blocks ++ [some (List.replicate n Elem.dflt)], h.deleted⟩, h.blocks.length + 1)
  else .error .bad_alloc

/-- Statement `delete[] p`: nothing for the null pointer; the block is gone
afterwards; a pointer that designates no live block is a fault. -/
def delete_array {T : Type} (h : Heap T) : Nat → Res (Heap T)
  | 0 => .ok h
  | k + 1 =>
      match h.block (k + 1) with
      | some _ => .ok ⟨h.blocks.set k none, h.deleted ++ [k + 1]⟩
      | none => .error .bad_access

/-- Reading `p[i]`. -/
def read {T : Type} (h : Heap T) (p i : Nat) : Res T :=
  match h.block p with
  | some b => rd b i
  | none => .error .bad_access

/-- Writing `p[i] = v` (assignment, or construction with placement `new`). -/
def write {T : Type} (h : Heap T) : Nat → Nat → T → Res (Heap T)
  | 0, _, _ => .error .bad_access
  | k + 1, i, v =>
      match h.block (k + 1) with
      | some b => do
          let b1 ← wr b i v
          pure ⟨h.blocks.set k (some b1), h.deleted⟩
      | none => .error .bad_access

/-- Loop of `std::move(first, last, d_first)` with `first = p + f` and
`d_first = q + d`: `*d_first++ = std::move(*first++)`. -/
def move_loop {T : Type} [Elem T] : Nat → Heap T → Nat → Nat → Nat → Nat → Res (Heap T)
  | 0, h, _, _, _, _ => .ok h
  | n + 1, h, p, f, q, d => do
      let x ← h.read p f
      let h1 ← h.write q d x
      let h2 ← h1.write p f (Elem.moved x)
      move_loop n h2 p (f + 1) q (d + 1)

/-- Call `std::move(p + first, p + last, q + d_first)`. -/
def std_move {T : Type} [Elem T] (h : Heap T) (p first last q d_first : Nat) : Res (Heap T) :=
  if first ≤ last then move_loop (last - first) h p first q d_first
  else .error .bad_access

/-- Loop of `std::copy(first, last, d_first)`: `*d_first++ = *first++`. -/
def copy_loop {T : Type} : Nat → Heap T → Nat → Nat → Nat → Nat → Res (Heap T)
  | 0, h, _, _, _, _ => .ok h
  | n + 1, h, p, f, q, d => do
      let x ← h.read p f
      let h1 ← h.write q d x
      copy_loop n h1 p (f + 1) q (d + 1)

/-- Call `std::copy(p + first, p + last, q + d_first)`. -/
def std_copy {T : Type} (h : Heap T) (p first last q d_first : Nat) : Res (Heap T) :=
  if first ≤ last then copy_loop (last - first) h p first q d_first
  else .error .bad_access

/-- Loop of `std::move_backward(first, last, d_last)` with `last = p + l` and
`d_last = q + dl`: `*(--d_last) = std::move(*(--last))`. -/
def move_backward_loop {T : Type} [Elem T] :
    Nat → Heap T → Nat → Nat → Nat → Nat → Res (Heap T)
  | 0, h, _, _, _, _ => .ok h
  | n + 1, h, p, l, q, dl =>
      if l = 0 ∨ dl = 0 then .error .bad_access
      else do
        let x ← h.read p (l - 1)
        let h1 ← h.write q (dl - 1) x
        let h2 ← h1.write p (l - 1) (Elem.moved x)
        move_backward_loop n h2 p (l - 1) q (dl - 1)

/-- Call `std::move_backward(p + first, p + last, q + d_last)`. -/
def std_move_backward {T : Type} [Elem T] (h : Heap T) (p first last q d_last : Nat) :
    Res (Heap T) :=
  if first ≤ last then move_backward_loop (last - first) h p last q d_last
  else .error .bad_access

end Heap

/-- The owning handle of array_ptr.h: its only member is the pointer
`raw_ptr_`. -/
structure ArrayPtr where
  raw_ptr_ : Nat
  deriving DecidableEq, Repr

namespace ArrayPtr

/-- Constructor `ArrayPtr() = default`. -/
def ctor_default : ArrayPtr := ⟨0⟩

/-- Constructor `explicit ArrayPtr(size_t size)`:
`raw_ptr_ = size ? new Type[size] : nullptr`. -/
def ctor_size {T : Type} [Elem T] (h : Heap T) (size : Nat) : Res (Heap T × ArrayPtr) :=
  if size ≠ 0 then do
    let r ← h.new_array size
    pure (r.1, ⟨r.2⟩)
  else pure (h, ⟨0⟩)

/-- Constructor `explicit ArrayPtr(Type* raw_ptr)`: the pointer is stored. -/
def ctor_raw (raw_ptr : Nat) : ArrayPtr := ⟨raw_ptr⟩

/-- Constructor `ArrayPtr(ArrayPtr&& other)`:
`raw_ptr_(std::exchange(other.raw_ptr_, nullptr))`; returns the new handle
and `other` afterwards. -/
def ctor_move (other : ArrayPtr) : ArrayPtr × ArrayPtr := (⟨other.raw_ptr_⟩, ⟨0⟩)

/-- Operator `operator=(ArrayPtr&& other)` inside `if (this != &other)`:
`delete[] raw_ptr_; std::swap(raw_ptr_, other.raw_ptr_); other.raw_ptr_ = nullptr;`
returns the store, `this` and `other` afterwards. -/
def move_assign {T : Type} (h : Heap T) (this other : ArrayPtr) :
    Res (Heap T × ArrayPtr × ArrayPtr) := do
  let h1 ← h.delete_array this.raw_ptr_
  let swapped : ArrayPtr × ArrayPtr := (⟨other.raw_ptr_⟩, ⟨this.raw_ptr_⟩)
  pure (h1, swapped.1, { swapped.2 with raw_ptr_ := 0 })

/-- Destructor `~ArrayPtr()`: `delete[] raw_ptr_`. -/
def dtor {T : Type} (h : Heap T) (this : ArrayPtr) : Res (Heap T) :=
  h.delete_array this.raw_ptr_

/-- Member `Release()`: returns the handle afterwards and the pointer. -/
def Release (this : ArrayPtr) : ArrayPtr × Nat := (⟨0⟩, this.raw_ptr_)

/-- Operator `explicit operator bool()`: `raw_ptr_ != nullptr`. -/
def toBool (this : ArrayPtr) : Bool := this.raw_ptr_ != 0

/-- Member `Get()`. -/
def Get (this : ArrayPtr) : Nat := this.raw_ptr_

/-- Member `swap(ArrayPtr& other)`: returns `this` and `other` afterwards. -/
def swap (this other : ArrayPtr) : ArrayPtr × ArrayPtr :=
  (⟨other.raw_ptr_⟩, ⟨this.raw_ptr_⟩)

end ArrayPtr

/-- The handle objects of a program, each known by its position, over the
free store.  Two positions are two objects: `this != &other` is the
inequality of the positions. -/
structure World (T : Type) where
  heap : Heap T
  handles : List ArrayPtr
  deriving DecidableEq, Repr

namespace World

/-- No handle, nothing allocated. -/
def start {T : Type} : World T := ⟨⟨[], []⟩, []⟩

/-- A new handle made by `ArrayPtr()`. -/
def create_empty {T : Type} (w : World T) : World T :=
  { w with handles := w.handles ++ [ArrayPtr.ctor_default] }

/-- A new handle made by `ArrayPtr(size)`. -/
def allocate {T : Type} [Elem T] (w : World T) (size : Nat) : Res (World T) := do
  let r ← ArrayPtr.ctor_size w.heap size
  pure ⟨r.1, w.handles ++ [r.2]⟩

/-- A new handle made by `ArrayPtr(raw_ptr)`. -/
def adopt {T : Type} (w : World T) (raw_ptr : Nat) : World T :=
  { w with handles := w.handles ++ [ArrayPtr.ctor_raw raw_ptr] }

/-- A new handle made by `ArrayPtr(std::move(other))`, `other` being the
handle at position `s`. -/
def move_construct {T : Type} (w : World T) (s : Nat) : Res (World T) :=
  match w.handles[s]? with
  | some other =>
      let r := ArrayPtr.ctor_move other
      .ok { w with handles := w.handles.set s r.2 ++ [r.1] }
  | none => .error .bad_access

/-- The assignment `d = std::move(s)` between the handles at positions `d`
and `s`: `if (this != &other) { ... } return *this;`. -/
def move_assign {T : Type} (w : World T) (d s : Nat) : Res (World T) :=
  match w.handles[d]?, w.handles[s]? with
  | some this, some other =>
      if d ≠ s then do
        let r ← ArrayPtr.move_assign w.heap this other
        pure ⟨r.1, (w.handles.set d r.2.1).set s r.2.2⟩
      else pure w
  | _, _ => .error .bad_access

/-- The call `a.swap(b)` between the handles at positions `a` and `b`. -/
def swap {T : Type} (w : World T) (a b : Nat) : Res (World T) :=
  match w.handles[a]?, w.handles[b]? with
  | some this, some other =>
      let r := ArrayPtr.swap this other
      .ok { w with handles := (w.handles.set a r.1).set b r.2 }
  | _, _ => .error .bad_access

/-- The call `Release()` on the handle at position `i`: the world afterwards
and the pointer returned. -/
def Release {T : Type} (w : World T) (i : Nat) : Res (World T × Nat) :=
  match w.handles[i]? with
  | some this =>
      let r := ArrayPtr.Release this
      .ok ({ w with handles := w.handles.set i r.1 }, r.2)
  | none => .error .bad_access

/-- The call `Get()` on the handle at position `i`. -/
def Get {T : Type} (w : World T) (i : Nat) : Res Nat :=
  match w.handles[i]? with
  | some this => .ok this.Get
  | none => .error .bad_access

/-- The conversion to `bool` of the handle at position `i`. -/
def toBool {T : Type} (w : World T) (i : Nat) : Res Bool :=
  match w.handles[i]? with
  | some this => .ok this.toBool
  | none => .error .bad_access

/-- The handle at position `i` owns the block of address `p`. -/
def owns {T : Type} (w : World T) (i p : Nat) : Prop :=
  p ≠ 0 ∧ w.handles[i]? = some ⟨p⟩

/-- Exclusive ownership: no two distinct handles hold the same block. -/
def Exclusive {T : Type} (w : World T) : Prop :=
  ∀ i j p, i ≠ j → w.owns i p → ¬ w.owns j p

/-- Ownership is exclusive and every owned address has been allocated. -/
def Good {T : Type} (w : World T) : Prop :=
  w.Exclusive ∧ ∀ i p, w.owns i p → p ≤ w.heap.blocks.length

/-- The worlds reached from no handle by the operations of the handle, any
pointer being adopted. -/
inductive Reachable {T : Type} [Elem T] : World T → Prop
  | start : Reachable start
  | create_empty (w : World T) : Reachable w → Reachable w.create_empty
  | allocate (w : World T) (size : Nat) (w1 : World T) :
      Reachable w → w.allocate size = .ok w1 → Reachable w1
  | adopt (w : World T) (raw_ptr : Nat) : Reachable w → Reachable (w.adopt raw_ptr)
  | move_construct (w : World T) (s : Nat) (w1 : World T) :
      Reachable w → w.move_construct s = .ok w1 → Reachable w1
  | move_assign (w : World T) (d s : Nat) (w1 : World T) :
      Reachable w → w.move_assign d s = .ok w1 → Reachable w1
  | swap (w : World T) (a b : Nat) (w1 : World T) :
      Reachable w → w.swap a b = .ok w1 → Reachable w1
  | release (w : World T) (i : Nat) (r : World T × Nat) :
      Reachable w → w.Release i = .ok r → Reachable r.1

/-- The worlds reached from no handle by the operations of the handle when a
pointer is adopted only if it is null or designates a live block that no
handle holds (a block given back by `Release`). -/
inductive ReachableOwned {T : Type} [Elem T] : World T → Prop
  | start : ReachableOwned start
  | create_empty (w : World T) : ReachableOwned w → ReachableOwned w.create_empty
  | allocate (w : World T) (size : Nat) (w1 : World T) :
      ReachableOwned w → w.allocate size = .ok w1 → ReachableOwned w1
  | adopt (w : World T) (raw_ptr : Nat) : ReachableOwned w →
      (raw_ptr = 0 ∨ ((w.heap.block raw_ptr).isSome = true ∧ ∀ i, ¬ w.owns i raw_ptr)) →
      ReachableOwned (w.adopt raw_ptr)
  | move_construct (w : World T) (s : Nat) (w1 : World T) :
      ReachableOwned w → w.move_construct s = .ok w1 → ReachableOwned w1
  | move_assign (w : World T) (d s : Nat) (w1 : World T) :
      ReachableOwned w → w.move_assign d s = .ok w1 → ReachableOwned w1
  | swap (w : World T) (a b : Nat) (w1 : World T) :
      ReachableOwned w → w.swap a b = .ok w1 → ReachableOwned w1
  | release (w : World T) (i : Nat) (r : World T × Nat) :
      ReachableOwned w → w.Release i = .ok r → ReachableOwned r.1

end World

end Mem

namespace Mem

/-- The blocks of the addresses up to `base`, except the one of address `own`,
are the same in `h1` as in `h`, and no address of `h` is lost. -/
def Heap.Frame {T : Type} (base own : Nat) (h h1 : Heap T) : Prop :=
  h.blocks.length ≤ h1.blocks.length ∧
    ∀ r, r ≤ base → r ≠ own → h1.block r = h.block r

/-- A pointer an operation on the owner of `own` may write through or delete:
null, `own` itself, or an address allocated after `base`. -/
def Heap.Mine (base own p : Nat) : Prop := p = 0 ∨ p = own ∨ base < p

/-- The object a parameter of type `const Type&` is bound to: `obj v` is an
object holding `v` outside the free store, `cell p k` is the cell at offset `k`
of the block of address `p`. -/
inductive Ref (T : Type) where
  | obj (v : T)
  | cell (p k : Nat)
  deriving DecidableEq, Repr

/-- Reading the object a reference is bound to, in the store as it is now. -/
def Ref.load {T : Type} (h : Heap T) : Ref T → Res T
  | .obj v => .ok v
  | .cell p k => h.read p k

/-- The three members of `SimpleVector<Type>`, `data_` being a handle on the
free store. -/
structure SimpleVector where
  size_ : Nat
  capacity_ : Nat
  data_ : ArrayPtr
  deriving DecidableEq, Repr

namespace SimpleVector

/-- Constructor `SimpleVector(const SimpleVector& other)`: returns the store
afterwards and the new vector. -/
def ctor_copy {T : Type} [Elem T] (h : Heap T) (other : SimpleVector) :
    Res (Heap T × SimpleVector) := do
  let r ← ArrayPtr.ctor_size h other.capacity_
  let h1 ← Heap.std_copy r.1 other.data_.Get 0 other.size_ r.2.Get 0
  pure (h1, ⟨other.size_, other.capacity_, r.2⟩)

/-- Constructor `SimpleVector(SimpleVector&& other) noexcept`: returns the new
vector and `other` afterwards; the store is not used. -/
def ctor_move (other : SimpleVector) : SimpleVector × SimpleVector :=
  let d := ArrayPtr.ctor_move other.data_
  (⟨other.size_, other.capacity_, d.1⟩, ⟨0, 0, d.2⟩)

/-- Member `swap(SimpleVector& other)`: returns `this` and `other` afterwards;
the store is not used. -/
def swap (this other : SimpleVector) : SimpleVector × SimpleVector :=
  let d := ArrayPtr.swap this.data_ other.data_
  (⟨other.size_, other.capacity_, d.1⟩, ⟨this.size_, this.capacity_, d.2⟩)

/-- Member `GetSize()`. -/
def GetSize (s : SimpleVector) : Nat := s.size_

/-- Member `GetCapacity()`. -/
def GetCapacity (s : SimpleVector) : Nat := s.capacity_

/-- Member `IsEmpty()`. -/
def IsEmpty (s : SimpleVector) : Bool := s.size_ == 0

/-- The four statements shared by `PushBack`, `Resize` and `Reserve`, and the
destruction of `new_data`, which holds the old block after the swap. -/
def reallocate {T : Type} [Elem T] (h : Heap T) (s : SimpleVector) (new_capacity : Nat) :
    Res (Heap T × SimpleVector) := do
  let r ← ArrayPtr.ctor_size h new_capacity
  let h1 ← Heap.std_move r.1 s.data_.Get 0 s.size_ r.2.Get 0
  let d := ArrayPtr.swap s.data_ r.2
  let h2 ← ArrayPtr.dtor h1 d.2
  pure (h2, { s with data_ := d.1, capacity_ := new_capacity })

/-- Member `PushBack(const Type& item)`; `item` is read (line 100) once
`new_data`, holding the old block, has been destroyed (line 99). -/
def PushBack {T : Type} [Elem T] (h : Heap T) (s : SimpleVector) (item : Ref T) :
    Res (Heap T × SimpleVector) := do
  let r ← (if s.size_ = s.capacity_ then
      reallocate h s (if s.capacity_ = 0 then 1 else wrap (s.capacity_ * 2))
    else pure (h, s))
  let x ← item.load r.1
  let h1 ← r.1.write r.2.data_.Get r.2.size_ x
  pure (h1, { r.2 with size_ := wrap (r.2.size_ + 1) })

/-- Member `Insert(ConstIterator pos, const Type& value)`, `pos` being the
offset of the cursor from `begin()`; `value` is read where the source reads it
(lines 136 and 142).  Returns the store, the vector and the returned cursor. -/
def Insert {T : Type} [Elem T] (h : Heap T) (s : SimpleVector) (pos : Nat) (value : Ref T) :
    Res (Heap T × SimpleVector × Nat) :=
  if pos ≤ s.size_ then do
    let index := pos
    let r ← (if s.size_ = s.capacity_ then do
        let new_capacity := if s.capacity_ = 0 then 1 else wrap (s.capacity_ * 2)
        let nd ← ArrayPtr.ctor_size h new_capacity
        let h1 ← Heap.std_move nd.1 s.data_.Get 0 index nd.2.Get 0
        let x ← value.load h1
        let h2 ← h1.write nd.2.Get index x
        let h3 ← Heap.std_move h2 s.data_.Get index s.size_ nd.2.Get (index + 1)
        let d := ArrayPtr.swap s.data_ nd.2
        let h4 ← ArrayPtr.dtor h3 d.2
        pure (h4, { s with data_ := d.1, capacity_ := new_capacity })
      else do
        let h1 ← Heap.std_move_backward h s.data_.Get index s.size_ s.data_.Get (s.size_ + 1)
        let x ← value.load h1
        let h2 ← h1.write s.data_.Get index x
        pure (h2, s))
    pure (r.1, { r.2 with size_ := wrap (r.2.size_ + 1) }, index)
  else .error .assert_failed

/-- Member `Erase(ConstIterator pos)`. -/
def Erase {T : Type} [Elem T] (h : Heap T) (s : SimpleVector) (pos : Nat) :
    Res (Heap T × SimpleVector × Nat) :=
  if pos < s.size_ then do
    let index := pos
    let h1 ← Heap.std_move h s.data_.Get (index + 1) s.size_ s.data_.Get index
    pure (h1, { s with size_ := s.size_ - 1 }, index)
  else .error .assert_failed

/-- Operator `operator[](size_t index)`, read. -/
def op_index {T : Type} (h : Heap T) (s : SimpleVector) (index : Nat) : Res T :=
  if index < s.size_ then h.read s.data_.Get index else .error .assert_failed

/-- The assignment `v[index] = value` through the reference that
`operator[](size_t index)` returns. -/
def assign_index {T : Type} (h : Heap T) (s : SimpleVector) (index : Nat) (value : T) :
    Res (Heap T) :=
  if index < s.size_ then h.write s.data_.Get index value else .error .assert_failed

/-- Member `Clear()`. -/
def Clear (s : SimpleVector) : SimpleVector := { s with size_ := 0 }

/-- Member `Resize(size_t new_size)`. -/
def Resize {T : Type} [Elem T] (h : Heap T) (s : SimpleVector) (new_size : Nat) :
    Res (Heap T × SimpleVector) := do
  let r ← (if new_size > s.capacity_ then
      reallocate h s (max new_size (wrap (s.capacity_ * 2)))
    else pure (h, s))
  pure (r.1, { r.2 with size_ := new_size })

/-- The vector as the definitions over block values see it: its two counters
and the block its pointer designates in the store. -/
def view {T : Type} (h : Heap T) (s : SimpleVector) : SimpleVec.SimpleVector T :=
  ⟨s.size_, s.capacity_, ⟨h.block s.data_.raw_ptr_⟩⟩

/-- The live elements, read in the store. -/
def elems {T : Type} (h : Heap T) (s : SimpleVector) : List T :=
  SimpleVec.SimpleVector.elems (view h s)

/-- Representation invariant over the store: that of the view, and a pointer
that is null or designates a live block. -/
def Inv {T : Type} [Elem T] (h : Heap T) (s : SimpleVector) : Prop :=
  SimpleVec.SimpleVector.Inv (view h s) ∧
    (s.data_.raw_ptr_ = 0 ∨ (h.block s.data_.raw_ptr_).isSome = true)

/-- The store and the vector `c` after any number of mutations of `c`:
assignments through `operator[]`, `PushBack`, `Insert`, `Erase`, `Resize` and
`Clear` calls that returned. -/
inductive Mutated {T : Type} [Elem T] (h0 : Heap T) (c0 : SimpleVector) :
    Heap T → SimpleVector → Prop
  | same : Mutated h0 c0 h0 c0
  | assign (h : Heap T) (c : SimpleVector) (index : Nat) (value : T) (h1 : Heap T) :
      Mutated h0 c0 h c → assign_index h c index value = .ok h1 → Mutated h0 c0 h1 c
  | push_back (h : Heap T) (c : SimpleVector) (item : Ref T) (r : Heap T × SimpleVector) :
      Mutated h0 c0 h c → PushBack h c item = .ok r → Mutated h0 c0 r.1 r.2
  | insert (h : Heap T) (c : SimpleVector) (pos : Nat) (value : Ref T)
      (r : Heap T × SimpleVector × Nat) :
      Mutated h0 c0 h c → Insert h c pos value = .ok r → Mutated h0 c0 r.1 r.2.1
  | erase (h : Heap T) (c : SimpleVector) (pos : Nat) (r : Heap T × SimpleVector × Nat) :
      Mutated h0 c0 h c → Erase h c pos = .ok r → Mutated h0 c0 r.1 r.2.1
  | resize (h : Heap T) (c : SimpleVector) (new_size : Nat) (r : Heap T × SimpleVector) :
      Mutated h0 c0 h c → Resize h c new_size = .ok r → Mutated h0 c0 r.1 r.2
  | clear (h : Heap T) (c : SimpleVector) : Mutated h0 c0 h c → Mutated h0 c0 h (Clear c)

end SimpleVector

end Mem

/-- An element type for concrete runs: the default constructor gives `0`, a
moved-from object holds `0`, and blocks of up to `2 ^ 63 - 1` cells exist. -/
instance natElem : Elem Nat := ⟨0, fun _ => 0, 2 ^ 63 - 1, by norm_num⟩

/-- The element type `int`, for concrete runs: a moved-from `int` keeps its
value; the cells of a fresh block are taken to hold `0`. -/
instance intElem : Elem Int := ⟨0, fun x => x, 2 ^ 63 - 1, by norm_num⟩

/-- An element type whose `<` and `==` do not agree: a record with a key and
a tag, `a < b` comparing the keys and `a == b` comparing both members. -/
structure Keyed where
  key : Nat
  tag : Nat
  deriving DecidableEq, Repr

/-- The records as elements: a moved-from record keeps its members. -/
instance keyedElem : Elem Keyed := ⟨⟨0, 0⟩, fun x => x, 2 ^ 63 - 1, by norm_num⟩

/-- The comparisons of the records: `==` memberwise, `<` on the key. -/
instance keyedOrd : ElemOrd Keyed :=
  ⟨fun x y => decide (x = y), fun x y => decide (x.key < y.key)⟩

/-! ## Cells and loops: what they compute -/

theorem rd_ok {T : Type} (b : List T) (i : Nat) (h : i < b.length) :
    rd b i = .ok b[i] := by
  simp [rd, List.getElem?_eq_getElem h]

theorem wr_ok {T : Type} (b : List T) (i : Nat) (v : T) (h : i < b.length) :
    wr b i v = .ok (b.set i v) := by
  simp [wr, h]

theorem move_loop_spec {T : Type} [Elem T] (n : Nat) :
    ∀ (src : List T) (f : Nat) (dst : List T) (d : Nat),
      f + n ≤ src.length → d + n ≤ dst.length →
      ∃ r, move_loop n src f dst d = .ok r ∧ r.1.length = src.length ∧
        r.2.length = dst.length ∧
        (∀ k, r.2[k]? = if d ≤ k ∧ k < d + n then src[f + (k - d)]? else dst[k]?) ∧
        (∀ k, r.1[k]? = if f ≤ k ∧ k < f + n then (src[k]?).map Elem.moved else src[k]?) := by
  induction n with
  | zero =>
    intro src f dst d _ _
    refine ⟨(src, dst), rfl, rfl, rfl, ?_, ?_⟩
    · intro k
      have h : ¬ (d ≤ k ∧ k < d + 0) := by omega
      simp only [h, if_false]
    · intro k
      have h : ¬ (f ≤ k ∧ k < f + 0) := by omega
      simp only [h, if_false]
  | succ n ih =>
    intro src f dst d hs hd
    have hf : f < src.length := by omega
    have hdl : d < dst.length := by omega
    obtain ⟨r, hr, hl1, hl2, hp2, hp1⟩ :=
      ih (src.set f (Elem.moved src[f])) (f + 1) (dst.set d src[f]) (d + 1)
        (by rw [List.length_set]; omega) (by rw [List.length_set]; omega)
    refine ⟨r, ?_, by simpa using hl1, by simpa using hl2, ?_, ?_⟩
    · simp [move_loop, rd_ok _ _ hf, wr_ok _ _ _ hdl, wr_ok _ _ _ hf, bind, Except.bind, hr]
    · intro k
      rw [hp2 k]
      by_cases h1 : d + 1 ≤ k ∧ k < d + 1 + n
      · have h2 : d ≤ k ∧ k < d + (n + 1) := by omega
        have h3 : f + 1 + (k - (d + 1)) = f + (k - d) := by omega
        have h4 : f ≠ f + (k - d) := by omega
        simp [h1, h2, h3, List.getElem?_set, h4]
      · by_cases h5 : k = d
        · subst h5
          simp [List.getElem?_set, hdl, List.getElem?_eq_getElem hf]
        · have h2 : ¬ (d ≤ k ∧ k < d + (n + 1)) := by omega
          have h6 : d ≠ k := fun h => h5 h.symm
          simp [h1, h2, List.getElem?_set, h6]
    · intro k
      rw [hp1 k]
      by_cases h1 : f + 1 ≤ k ∧ k < f + 1 + n
      · have h2 : f ≤ k ∧ k < f + (n + 1) := by omega
        have h4 : f ≠ k := by omega
        simp [h1, h2, List.getElem?_set, h4]
      · by_cases h5 : k = f
        · subst h5
          simp [List.getElem?_set, hf, List.getElem?_eq_getElem hf]
        · have h2 : ¬ (f ≤ k ∧ k < f + (n + 1)) := by omega
          have h6 : f ≠ k := fun h => h5 h.symm
          simp [h1, h2, List.getElem?_set, h6]

theorem copy_loop_spec {T : Type} (n : Nat) :
    ∀ (src : List T) (f : Nat) (dst : List T) (d : Nat),
      f + n ≤ src.length → d + n ≤ dst.length →
      ∃ r, copy_loop n src f dst d = .ok r ∧ r.length = dst.length ∧
        (∀ k, r[k]? = if d ≤ k ∧ k < d + n then src[f + (k - d)]? else dst[k]?) := by
  induction n with
  | zero =>
    intro src f dst d _ _
    refine ⟨dst, rfl, rfl, ?_⟩
    intro k
    have h : ¬ (d ≤ k ∧ k < d + 0) := by omega
    simp only [h, if_false]
  | succ n ih =>
    intro src f dst d hs hd
    have hf : f < src.length := by omega
    have hdl : d < dst.length := by omega
    obtain ⟨r, hr, hl, hp⟩ := ih src (f + 1) (dst.set d src[f]) (d + 1)
      (by omega) (by rw [List.length_set]; omega)
    refine ⟨r, ?_, by simpa using hl, ?_⟩
    · simp [copy_loop, rd_ok _ _ hf, wr_ok _ _ _ hdl, bind, Except.bind, hr]
    · intro k
      rw [hp k]
      by_cases h1 : d + 1 ≤ k ∧ k < d + 1 + n
      · have h2 : d ≤ k ∧ k < d + (n + 1) := by omega
        have h3 : f + 1 + (k - (d + 1)) = f + (k - d) := by omega
        simp [h1, h2, h3]
      · by_cases h5 : k = d
        · subst h5
          simp [List.getElem?_set, hdl, List.getElem?_eq_getElem hf]
        · have h2 : ¬ (d ≤ k ∧ k < d + (n + 1)) := by omega
          have h6 : d ≠ k := fun h => h5 h.symm
          simp [h1, h2, List.getElem?_set, h6]

/-- Moving `[d + 1, d + 1 + n)` one cell to the left inside a block. -/
theorem move_loop_in_spec {T : Type} [Elem T] (n : Nat) :
    ∀ (b : List T) (d : Nat), d + 1 + n ≤ b.length →
      ∃ r, move_loop_in n b (d + 1) d = .ok r ∧ r.length = b.length ∧
        (∀ k, k < d → r[k]? = b[k]?) ∧
        (∀ k, d ≤ k → k < d + n → r[k]? = b[k + 1]?) ∧
        (∀ k, d + n < k → r[k]? = b[k]?) := by
  induction n with
  | zero =>
    intro b d _
    exact ⟨b, rfl, rfl, fun _ _ => rfl, fun k h1 h2 => absurd h2 (by omega), fun _ _ => rfl⟩
  | succ n ih =>
    intro b d hb
    have hf : d + 1 < b.length := by omega
    have hd : d < b.length := by omega
    have hf1 : d + 1 < (b.set d b[d + 1]).length := by rw [List.length_set]; exact hf
    obtain ⟨r, hr, hl, hlo, hmid, hhi⟩ :=
      ih ((b.set d b[d + 1]).set (d + 1) (Elem.moved b[d + 1])) (d + 1)
        (by rw [List.length_set, List.length_set]; omega)
    refine ⟨r, ?_, by simpa using hl, ?_, ?_, ?_⟩
    · simp [move_loop_in, rd_ok _ _ hf, wr_ok _ _ _ hd, wr_ok _ _ _ hf1, bind, Except.bind, hr]
    · intro k hk
      rw [hlo k (by omega)]
      have h1 : d + 1 ≠ k := by omega
      have h2 : d ≠ k := by omega
      simp [List.getElem?_set, h1, h2]
    · intro k hk1 hk2
      by_cases h : k = d
      · subst h
        rw [hlo k (by omega)]
        simp [List.getElem?_set, hd, List.getElem?_eq_getElem hf]
      · rw [hmid k (by omega) (by omega)]
        have h1 : d + 1 ≠ k + 1 := by omega
        have h2 : d ≠ k + 1 := by omega
        simp [List.getElem?_set, h1, h2]
    · intro k hk
      rw [hhi k (by omega)]
      have h1 : d + 1 ≠ k := by omega
      have h2 : d ≠ k := by omega
      simp [List.getElem?_set, h1, h2]

/-- Moving `[l - n, l)` one cell to the right inside a block. -/
theorem move_backward_loop_in_spec {T : Type} [Elem T] (n : Nat) :
    ∀ (b : List T) (l : Nat), n ≤ l → l < b.length →
      ∃ r, move_backward_loop_in n b l (l + 1) = .ok r ∧ r.length = b.length ∧
        (∀ k, k + n < l → r[k]? = b[k]?) ∧
        (∀ k, l < k + n → k ≤ l → r[k]? = b[k - 1]?) ∧
        (∀ k, l < k → r[k]? = b[k]?) := by
  induction n with
  | zero =>
    intro b l _ _
    exact ⟨b, rfl, rfl, fun _ _ => rfl, fun k h1 h2 => absurd h2 (by omega), fun _ _ => rfl⟩
  | succ n ih =>
    intro b l hn hl
    have hl0 : l ≠ 0 := by omega
    have hr1 : l - 1 < b.length := by omega
    have hw1 : l - 1 < (b.set l b[l - 1]).length := by rw [List.length_set]; exact hr1
    obtain ⟨r, hr, hlen, hlo, hmid, hhi⟩ :=
      ih ((b.set l b[l - 1]).set (l - 1) (Elem.moved b[l - 1])) (l - 1) (by omega)
        (by rw [List.length_set, List.length_set]; omega)
    have hl1 : l - 1 + 1 = l := by omega
    rw [hl1] at hr
    refine ⟨r, ?_, by simpa using hlen, ?_, ?_, ?_⟩
    · simp [move_backward_loop_in, hl0, rd_ok _ _ hr1, wr_ok _ _ _ hl, wr_ok _ _ _ hw1, bind,
        Except.bind, hr]
    · intro k hk
      rw [hlo k (by omega)]
      have h1 : l - 1 ≠ k := by omega
      have h2 : l ≠ k := by omega
      simp [List.getElem?_set, h1, h2]
    · intro k hk1 hk2
      by_cases h : k = l
      · subst h
        rw [hhi k (by omega)]
        have h1 : k - 1 ≠ k := by omega
        simp [List.getElem?_set, h1, hl, List.getElem?_eq_getElem hr1]
      · rw [hmid k (by omega) (by omega)]
        have h1 : l - 1 ≠ k - 1 := by omega
        have h2 : l ≠ k - 1 := by omega
        simp [List.getElem?_set, h1, h2]
    · intro k hk
      rw [hhi k (by omega)]
      have h1 : l - 1 ≠ k := by omega
      have h2 : l ≠ k := by omega
      simp [List.getElem?_set, h1, h2]

/-! ## Handles, reallocation and the invariant -/

theorem maxCount_lt (T : Type) [Elem T] : maxCount T < 2 ^ 63 := Elem.max_count_lt

theorem wrap_eq (n : Nat) (h : n < 2 ^ 64) : wrap n = n := by
  unfold wrap SIZE_RANGE
  exact Nat.mod_eq_of_lt h

theorem ArrayPtr.cells_put {T : Type} (p : ArrayPtr T) (b : List T)
    (h : b.length = p.cells.length) : (p.put b).cells = b := by
  cases p with
  | mk raw =>
    cases raw with
    | none =>
      have hb : b = [] := List.eq_nil_of_length_eq_zero (by simpa [ArrayPtr.cells] using h)
      simp [ArrayPtr.put, ArrayPtr.cells, hb]
    | some c => simp [ArrayPtr.put, ArrayPtr.cells]

theorem ArrayPtr.ctor_size_ok {T : Type} [Elem T] (n : Nat) (h : n ≤ maxCount T) :
    ∃ p : ArrayPtr T, ArrayPtr.ctor_size n = .ok p ∧ p.cells = List.replicate n Elem.dflt := by
  by_cases h0 : n = 0
  · subst h0
    exact ⟨⟨none⟩, by simp [ArrayPtr.ctor_size], by simp [ArrayPtr.cells]⟩
  · exact ⟨⟨some (List.replicate n Elem.dflt)⟩, by simp [ArrayPtr.ctor_size, h0, h],
      by simp [ArrayPtr.cells]⟩

theorem ArrayPtr.ctor_size_fails {T : Type} [Elem T] (n : Nat) (h : maxCount T < n) :
    (ArrayPtr.ctor_size n : Res (ArrayPtr T)) = .error .bad_alloc := by
  have h0 : n ≠ 0 := by omega
  have h1 : ¬ n ≤ maxCount T := by omega
  simp [ArrayPtr.ctor_size, h0, h1]

/-- Reallocation to `c` cells keeps the first `size_` values and leaves
default-constructed objects in the other cells. -/
theorem SimpleVector.reallocate_spec {T : Type} [Elem T] (s : SimpleVector T) (c : Nat)
    (h0 : s.size_ ≤ s.data_.cells.length) (h1 : s.size_ ≤ c) (h2 : c ≤ maxCount T) :
    ∃ s', SimpleVector.reallocate s c = .ok s' ∧ s'.size_ = s.size_ ∧ s'.capacity_ = c ∧
      s'.data_.cells.length = c ∧
      (∀ k, k < s.size_ → s'.data_.cells[k]? = s.data_.cells[k]?) ∧
      (∀ k, s.size_ ≤ k → k < c → s'.data_.cells[k]? = some Elem.dflt) := by
  obtain ⟨p, hp, hpc⟩ := ArrayPtr.ctor_size_ok (T := T) c h2
  obtain ⟨r, hr, hl1, hl2, hq2, _⟩ :=
    move_loop_spec s.size_ s.data_.cells 0 p.cells 0 (by omega) (by simp [hpc]; omega)
  have hput : (p.put r.2).cells = r.2 := ArrayPtr.cells_put p r.2 hl2
  refine ⟨{ s with data_ := p.put r.2, capacity_ := c }, ?_, rfl, rfl, ?_, ?_, ?_⟩
  · simp [SimpleVector.reallocate, hp, std_move, hr, bind, Except.bind, pure, Except.pure,
      ArrayPtr.swap]
  · simp [hput, hl2, hpc]
  · intro k hk
    have hc : 0 ≤ k ∧ k < 0 + s.size_ := by omega
    show (p.put r.2).cells[k]? = _
    rw [hput, hq2 k, if_pos hc]
    simp
  · intro k hk1 hk2
    have hc : ¬ (0 ≤ k ∧ k < 0 + s.size_) := by omega
    show (p.put r.2).cells[k]? = _
    rw [hput, hq2 k, if_neg hc, hpc]
    simp [hk2]

/-- The first `n + 1` cells once cell `n` has been given the value `v`. -/
theorem take_succ_set {T : Type} (c1 c0 : List T) (n : Nat) (v : T) (h1 : n < c1.length)
    (h2 : n ≤ c0.length) (h : ∀ k, k < n → c1[k]? = c0[k]?) :
    (c1.set n v).take (n + 1) = c0.take n ++ [v] := by
  apply List.ext_getElem?
  intro k
  rcases Nat.lt_trichotomy k n with hk | hk | hk
  · have hn : n ≠ k := by omega
    rw [List.getElem?_take_of_lt (by omega), List.getElem?_set_ne hn, h k hk,
      List.getElem?_append_left (by simp; omega), List.getElem?_take_of_lt hk]
  · subst hk
    rw [List.getElem?_take_of_lt (by omega), List.getElem?_append_right (by simp)]
    simp [h1, Nat.min_eq_left h2]
  · rw [List.getElem?_eq_none (by simp; omega), List.getElem?_eq_none (by simp; omega)]

/-- Value of `operator[]` in terms of the live elements. -/
theorem SimpleVector.op_index_eq {T : Type} (s : SimpleVector T) (i : Nat)
    (hlen : s.size_ ≤ s.data_.cells.length) :
    SimpleVector.op_index s i =
      match (SimpleVector.elems s)[i]? with
      | some x => .ok x
      | none => .error .assert_failed := by
  by_cases hi : i < s.size_
  · have h : i < s.data_.cells.length := by omega
    simp [SimpleVector.op_index, SimpleVector.elems, hi, rd, List.getElem?_take_of_lt hi,
      List.getElem?_eq_getElem h]
  · have h : (SimpleVector.elems s)[i]? = none :=
      List.getElem?_eq_none (by simp [SimpleVector.elems]; omega)
    simp [SimpleVector.op_index, hi, h]

/-- Value of `At` in terms of the live elements. -/
theorem SimpleVector.At_eq {T : Type} (s : SimpleVector T) (i : Nat)
    (hlen : s.size_ ≤ s.data_.cells.length) :
    SimpleVector.At s i =
      match (SimpleVector.elems s)[i]? with
      | some x => .ok x
      | none => .error .out_of_range := by
  by_cases hi : i < s.size_
  · have h : i < s.data_.cells.length := by omega
    have hge : ¬ i ≥ s.size_ := by omega
    simp [SimpleVector.At, SimpleVector.elems, hge, rd, List.getElem?_take_of_lt hi,
      List.getElem?_eq_getElem h]
  · have h : (SimpleVector.elems s)[i]? = none :=
      List.getElem?_eq_none (by simp [SimpleVector.elems]; omega)
    have hge : i ≥ s.size_ := by omega
    simp [SimpleVector.At, hge, h]

theorem SimpleVector.elems_length {T : Type} (s : SimpleVector T)
    (hlen : s.size_ ≤ s.data_.cells.length) : (SimpleVector.elems s).length = s.size_ := by
  simp [SimpleVector.elems, Nat.min_eq_left hlen]

theorem SimpleVector.reallocate_fails {T : Type} [Elem T] (s : SimpleVector T) (c : Nat)
    (h : maxCount T < c) : SimpleVector.reallocate s c = .error .bad_alloc := by
  simp [SimpleVector.reallocate, ArrayPtr.ctor_size_fails c h, bind, Except.bind]

/-! ## Reference parameters: what the calls come down to -/

/-- `PushBack` of an object outside the vector. -/
theorem SimpleVector.PushBack_obj {T : Type} [Elem T] (s : SimpleVector T) (v : T) :
    SimpleVector.PushBack s (.obj v) = (do
      let s1 ← (if s.size_ = s.capacity_ then
          SimpleVector.reallocate s (if s.capacity_ = 0 then 1 else wrap (s.capacity_ * 2))
        else pure s)
      let b ← wr s1.data_.cells s1.size_ v
      pure { s1 with data_ := s1.data_.put b, size_ := wrap (s1.size_ + 1) }) := by
  unfold SimpleVector.PushBack
  by_cases he : s.size_ = s.capacity_
  · simp only [if_pos he, bind, Except.bind, pure, Except.pure]
    cases SimpleVector.reallocate s (if s.capacity_ = 0 then 1 else wrap (s.capacity_ * 2)) <;> rfl
  · simp only [if_neg he, bind, Except.bind, pure, Except.pure, Ref.load]

/-- `PushBack(Type&&)` of an object outside the vector: the vector `PushBack`
gives, the object being left moved-from. -/
theorem SimpleVector.PushBack_rv_eq {T : Type} [Elem T] (s : SimpleVector T) (v : T) :
    SimpleVector.PushBack_rv s (.obj v)
      = (SimpleVector.PushBack s (.obj v)).map (fun s1 => (s1, Ref.obj (Elem.moved v))) := by
  unfold SimpleVector.PushBack_rv SimpleVector.PushBack
  by_cases he : s.size_ = s.capacity_
  · simp only [if_pos he, bind, Except.bind, pure, Except.pure]
    cases SimpleVector.reallocate s (if s.capacity_ = 0 then 1 else wrap (s.capacity_ * 2)) with
    | error e => rfl
    | ok s1 =>
      simp only [Ref.load, Ref.release]
      cases wr s1.data_.cells s1.size_ v <;> rfl
  · simp only [if_neg he, bind, Except.bind, pure, Except.pure, Ref.load, Ref.release]
    cases wr s.data_.cells s.size_ v <;> rfl

/-- `Insert` of an object outside the vector. -/
theorem SimpleVector.Insert_obj {T : Type} [Elem T] (s : SimpleVector T) (pos : Nat) (v : T) :
    SimpleVector.Insert s pos (.obj v) =
      if pos ≤ s.size_ then do
        let s1 ← (if s.size_ = s.capacity_ then do
            let new_capacity := if s.capacity_ = 0 then 1 else wrap (s.capacity_ * 2)
            let new_data ← ArrayPtr.ctor_size new_capacity
            let r1 ← std_move s.data_.cells 0 pos new_data.cells 0
            let nb ← wr r1.2 pos v
            let r2 ← std_move r1.1 pos s.size_ nb (pos + 1)
            let d := ArrayPtr.swap (s.data_.put r2.1) (new_data.put r2.2)
            pure { s with data_ := d.1, capacity_ := new_capacity }
          else do
            let b1 ← std_move_backward_in s.data_.cells pos s.size_ (s.size_ + 1)
            let b2 ← wr b1 pos v
            pure { s with data_ := s.data_.put b2 })
        pure ({ s1 with size_ := wrap (s1.size_ + 1) }, pos)
      else .error .assert_failed := by
  unfold SimpleVector.Insert
  simp only [Ref.load, bind, Except.bind, pure, Except.pure]

/-- `Insert(Type&&)` of an object outside the vector: what `Insert` gives, the
object being left moved-from. -/
theorem SimpleVector.Insert_rv_eq {T : Type} [Elem T] (s : SimpleVector T) (pos : Nat) (v : T) :
    SimpleVector.Insert_rv s pos (.obj v)
      = (SimpleVector.Insert s pos (.obj v)).map (fun r => (r, Ref.obj (Elem.moved v))) := by
  unfold SimpleVector.Insert_rv SimpleVector.Insert
  by_cases hi : pos ≤ s.size_
  · simp only [if_pos hi, bind, Except.bind, pure, Except.pure, Ref.load, Ref.release]
    by_cases he : s.size_ = s.capacity_
    · simp only [if_pos he]
      cases (ArrayPtr.ctor_size (if s.capacity_ = 0 then 1 else wrap (s.capacity_ * 2)) :
          Res (ArrayPtr T)) with
      | error e => rfl
      | ok nd =>
        simp only []
        cases std_move s.data_.cells 0 pos nd.cells 0 with
        | error e => rfl
        | ok r1 =>
          simp only []
          cases wr r1.2 pos v with
          | error e => rfl
          | ok nb =>
            simp only []
            cases std_move r1.1 pos s.size_ nb (pos + 1) <;> rfl
    · simp only [if_neg he]
      cases std_move_backward_in s.data_.cells pos s.size_ (s.size_ + 1) with
      | error e => rfl
      | ok b1 =>
        simp only []
        cases wr b1 pos v <;> rfl
  · simp only [if_neg hi]; rfl

theorem wr_length {T : Type} (b : List T) (i : Nat) (v : T) (b1 : List T)
    (h : wr b i v = .ok b1) : b1.length = b.length := by
  unfold wr at h
  split_ifs at h
  cases h
  simp

theorem move_loop_length {T : Type} [Elem T] (n : Nat) :
    ∀ (src : List T) (f : Nat) (dst : List T) (d : Nat) (r : List T × List T),
      move_loop n src f dst d = .ok r → r.1.length = src.length ∧ r.2.length = dst.length := by
  induction n with
  | zero =>
    intro src f dst d r h
    cases h
    exact ⟨rfl, rfl⟩
  | succ n ih =>
    intro src f dst d r h
    simp only [move_loop, bind, Except.bind] at h
    cases hx : rd src f with
    | error e => rw [hx] at h; cases h
    | ok x =>
      rw [hx] at h
      simp only [] at h
      cases hd : wr dst d x with
      | error e => rw [hd] at h; cases h
      | ok dst1 =>
        rw [hd] at h
        simp only [] at h
        cases hs : wr src f (Elem.moved x) with
        | error e => rw [hs] at h; cases h
        | ok src1 =>
          rw [hs] at h
          simp only [] at h
          obtain ⟨h1, h2⟩ := ih src1 (f + 1) dst1 (d + 1) r h
          rw [h1, h2, wr_length _ _ _ _ hs, wr_length _ _ _ _ hd]
          exact ⟨rfl, rfl⟩

theorem std_move_length {T : Type} [Elem T] (src : List T) (first last : Nat) (dst : List T)
    (d : Nat) (r : List T × List T) (h : std_move src first last dst d = .ok r) :
    r.1.length = src.length ∧ r.2.length = dst.length := by
  unfold std_move at h
  split_ifs at h
  exact move_loop_length _ _ _ _ _ _ h

theorem move_backward_loop_in_length {T : Type} [Elem T] (n : Nat) :
    ∀ (b : List T) (l dl : Nat) (r : List T),
      move_backward_loop_in n b l dl = .ok r → r.length = b.length := by
  induction n with
  | zero =>
    intro b l dl r h
    cases h
    rfl
  | succ n ih =>
    intro b l dl r h
    simp only [move_backward_loop_in, bind, Except.bind] at h
    split_ifs at h
    cases hx : rd b (l - 1) with
    | error e => rw [hx] at h; cases h
    | ok x =>
      rw [hx] at h
      simp only [] at h
      cases hd : wr b (dl - 1) x with
      | error e => rw [hd] at h; cases h
      | ok b1 =>
        rw [hd] at h
        simp only [] at h
        cases hs : wr b1 (l - 1) (Elem.moved x) with
        | error e => rw [hs] at h; cases h
        | ok b2 =>
          rw [hs] at h
          simp only [] at h
          rw [ih b2 (l - 1) (dl - 1) r h, wr_length _ _ _ _ hs, wr_length _ _ _ _ hd]

theorem std_move_backward_in_length {T : Type} [Elem T] (b : List T) (first last d_last : Nat)
    (r : List T) (h : std_move_backward_in b first last d_last = .ok r) :
    r.length = b.length := by
  unfold std_move_backward_in at h
  split_ifs at h
  exact move_backward_loop_in_length _ _ _ _ _ h

theorem ArrayPtr.ctor_size_cells {T : Type} [Elem T] (n : Nat) (p : ArrayPtr T)
    (h : ArrayPtr.ctor_size n = .ok p) : p.cells.length = n := by
  unfold ArrayPtr.ctor_size at h
  split_ifs at h with h0 h1
  · cases h; simp [ArrayPtr.cells]
  · cases h
    have : n = 0 := by omega
    simp [ArrayPtr.cells, this]

/-- A `PushBack` that returned is the `PushBack` of the value it read. -/
theorem SimpleVector.PushBack_of_ref {T : Type} [Elem T] (s : SimpleVector T) (r : Ref T)
    (s1 : SimpleVector T) (h : SimpleVector.PushBack s r = .ok s1) :
    ∃ x, SimpleVector.PushBack s (.obj x) = .ok s1 := by
  cases r with
  | obj v => exact ⟨v, h⟩
  | cell j =>
    unfold SimpleVector.PushBack at h
    by_cases he : s.size_ = s.capacity_
    · simp only [if_pos he, bind, Except.bind, pure, Except.pure] at h
      cases hr : SimpleVector.reallocate s
          (if s.capacity_ = 0 then 1 else wrap (s.capacity_ * 2)) with
      | error e => rw [hr] at h; cases h
      | ok s2 => rw [hr] at h; simp [Ref.load] at h
    · simp only [if_neg he, bind, Except.bind, pure, Except.pure, Ref.load] at h
      cases hx : rd s.data_.cells j with
      | error e => rw [hx] at h; cases h
      | ok x =>
        refine ⟨x, ?_⟩
        rw [hx] at h
        unfold SimpleVector.PushBack
        simp only [if_neg he, bind, Except.bind, pure, Except.pure, Ref.load]
        exact h

/-- On a full vector, `PushBack` of one of its own cells does not return: the
cell is read in the block that has just been deleted. -/
theorem SimpleVector.PushBack_cell_full {T : Type} [Elem T] (s : SimpleVector T) (j : Nat)
    (he : s.size_ = s.capacity_) :
    (∀ s1, SimpleVector.PushBack s (.cell j) ≠ .ok s1) ∧
    (∀ q, SimpleVector.PushBack_rv s (.cell j) ≠ .ok q) := by
  constructor
  · intro s1 h
    unfold SimpleVector.PushBack at h
    simp only [if_pos he, bind, Except.bind, pure, Except.pure] at h
    cases hr : SimpleVector.reallocate s
        (if s.capacity_ = 0 then 1 else wrap (s.capacity_ * 2)) with
    | error e => rw [hr] at h; cases h
    | ok s2 => rw [hr] at h; simp [Ref.load] at h
  · intro q h
    unfold SimpleVector.PushBack_rv at h
    simp only [if_pos he, bind, Except.bind, pure, Except.pure] at h
    cases hr : SimpleVector.reallocate s
        (if s.capacity_ = 0 then 1 else wrap (s.capacity_ * 2)) with
    | error e => rw [hr] at h; cases h
    | ok s2 => rw [hr] at h; simp [Ref.load] at h

/-- With room left, `PushBack` of one of the cells of the vector is the
`PushBack` of the value the cell holds. -/
theorem SimpleVector.PushBack_cell_room {T : Type} [Elem T] (s : SimpleVector T) (j : Nat)
    (x : T) (he : s.size_ ≠ s.capacity_) (hx : s.data_.cells[j]? = some x) :
    SimpleVector.PushBack s (.cell j) = SimpleVector.PushBack s (.obj x) := by
  unfold SimpleVector.PushBack
  simp only [if_neg he, bind, Except.bind, pure, Except.pure, Ref.load, rd, hx]

/-- An `Insert` that returned is the `Insert` of the value it read. -/
theorem SimpleVector.Insert_of_ref {T : Type} [Elem T] (s : SimpleVector T) (pos : Nat)
    (r : Ref T) (q : SimpleVector T × Nat) (h : SimpleVector.Insert s pos r = .ok q) :
    ∃ x, SimpleVector.Insert s pos (.obj x) = .ok q := by
  cases r with
  | obj v => exact ⟨v, h⟩
  | cell j =>
    unfold SimpleVector.Insert at h
    by_cases hi : pos ≤ s.size_
    · simp only [if_pos hi, bind, Except.bind, pure, Except.pure, Ref.load] at h
      by_cases he : s.size_ = s.capacity_
      · simp only [if_pos he] at h
        cases hnd : (ArrayPtr.ctor_size (if s.capacity_ = 0 then 1 else wrap (s.capacity_ * 2)) :
            Res (ArrayPtr T)) with
        | error e => rw [hnd] at h; cases h
        | ok nd =>
          rw [hnd] at h
          simp only [] at h
          cases hr1 : std_move s.data_.cells 0 pos nd.cells 0 with
          | error e => rw [hr1] at h; cases h
          | ok r1 =>
            rw [hr1] at h
            simp only [] at h
            cases hx : rd r1.1 j with
            | error e => rw [hx] at h; cases h
            | ok x =>
              rw [hx] at h
              refine ⟨x, ?_⟩
              unfold SimpleVector.Insert
              simp only [if_pos hi, if_pos he, bind, Except.bind, pure, Except.pure, Ref.load,
                hnd, hr1]
              exact h
      · simp only [if_neg he] at h
        cases hb1 : std_move_backward_in s.data_.cells pos s.size_ (s.size_ + 1) with
        | error e => rw [hb1] at h; cases h
        | ok b1 =>
          rw [hb1] at h
          simp only [] at h
          cases hx : rd b1 j with
          | error e => rw [hx] at h; cases h
          | ok x =>
            rw [hx] at h
            refine ⟨x, ?_⟩
            unfold SimpleVector.Insert
            simp only [if_pos hi, if_neg he, bind, Except.bind, pure, Except.pure, Ref.load,
              hb1]
            exact h
    · simp only [if_neg hi] at h
      cases h

/-- What `PushBack` does on a vector satisfying the invariant when the block
it may need can be allocated. -/
theorem SimpleVector.PushBack_spec {T : Type} [Elem T] (s : SimpleVector T) (v : T)
    (hinv : SimpleVector.Inv s)
    (hmem : s.size_ = s.capacity_ →
      (if s.capacity_ = 0 then 1 else 2 * s.capacity_) ≤ maxCount T) :
    ∃ s', SimpleVector.PushBack s (.obj v) = .ok s' ∧
      SimpleVector.PushBack_rv s (.obj v) = .ok (s', .obj (Elem.moved v)) ∧
      s'.size_ = s.size_ + 1 ∧
      s'.capacity_ = (if s.size_ = s.capacity_ then
        (if s.capacity_ = 0 then 1 else 2 * s.capacity_) else s.capacity_) ∧
      SimpleVector.Inv s' ∧
      SimpleVector.elems s' = SimpleVector.elems s ++ [v] := by
  obtain ⟨hsc, hlen, hcap⟩ := hinv
  have hmax := maxCount_lt T
  -- the vector after the optional reallocation
  have hstep : ∃ s1, (if s.size_ = s.capacity_ then
        SimpleVector.reallocate s (if s.capacity_ = 0 then 1 else wrap (s.capacity_ * 2))
      else pure s) = Except.ok s1 ∧ s1.size_ = s.size_ ∧ s.size_ < s1.data_.cells.length ∧
      (∀ k, k < s.size_ → s1.data_.cells[k]? = s.data_.cells[k]?) ∧
      s1.capacity_ = (if s.size_ = s.capacity_ then
        (if s.capacity_ = 0 then 1 else 2 * s.capacity_) else s.capacity_) ∧
      s1.data_.cells.length = s1.capacity_ ∧ s1.capacity_ ≤ maxCount T := by
    by_cases he : s.size_ = s.capacity_
    · have hw : wrap (s.capacity_ * 2) = 2 * s.capacity_ := by
        rw [wrap_eq _ (by omega)]; omega
      have hm := hmem he
      obtain ⟨s1, h1, h2, h3, h4, h5, _⟩ := SimpleVector.reallocate_spec s
        (if s.capacity_ = 0 then 1 else wrap (s.capacity_ * 2)) (by omega)
        (by rw [hw]; split_ifs <;> omega) (by rw [hw]; exact hm)
      rw [hw] at h3 h4
      refine ⟨s1, by simp [he, h1], h2, ?_, h5, by simp [he, h3], by rw [h4, h3],
        by rw [h3]; exact hm⟩
      rw [h4]; split_ifs <;> omega
    · exact ⟨s, by simp [he, pure, Except.pure], rfl, by omega, fun _ _ => rfl, by simp [he],
        hlen, hcap⟩
  obtain ⟨s1, h1, hsz, hlt, hpre, hc1, hl1, hm1⟩ := hstep
  simp only [pure, Except.pure] at h1
  have hwr : wr s1.data_.cells s1.size_ v = .ok (s1.data_.cells.set s.size_ v) := by
    rw [hsz]; exact wr_ok _ _ _ hlt
  have hput : (s1.data_.put (s1.data_.cells.set s.size_ v)).cells
      = s1.data_.cells.set s.size_ v := ArrayPtr.cells_put _ _ (by simp)
  have hwsz : wrap (s1.size_ + 1) = s.size_ + 1 := by rw [hsz, wrap_eq _ (by omega)]
  have hpb : SimpleVector.PushBack s (.obj v)
      = .ok { s1 with data_ := s1.data_.put (s1.data_.cells.set s.size_ v),
                      size_ := s.size_ + 1 } := by
    rw [SimpleVector.PushBack_obj]
    simp only [h1, hwr, hwsz, bind, Except.bind, pure, Except.pure]
  refine ⟨{ s1 with data_ := s1.data_.put (s1.data_.cells.set s.size_ v),
                    size_ := s.size_ + 1 }, hpb, ?_, rfl, hc1, ⟨?_, ?_, hm1⟩, ?_⟩
  · rw [SimpleVector.PushBack_rv_eq, hpb]; rfl
  · show s.size_ + 1 ≤ s1.capacity_
    omega
  · show (s1.data_.put (s1.data_.cells.set s.size_ v)).cells.length = s1.capacity_
    rw [hput, List.length_set, hl1]
  · simp only [SimpleVector.elems, hput]
    exact take_succ_set _ _ _ _ hlt (by omega) hpre

/-- A `PushBack` that returns had the memory it needed. -/
theorem SimpleVector.PushBack_mem {T : Type} [Elem T] (s : SimpleVector T) (v : T)
    (hinv : SimpleVector.Inv s) (s' : SimpleVector T)
    (h : SimpleVector.PushBack s (.obj v) = .ok s') :
    s.size_ = s.capacity_ → (if s.capacity_ = 0 then 1 else 2 * s.capacity_) ≤ maxCount T := by
  intro he
  by_contra hc
  obtain ⟨_, _, hcap⟩ := hinv
  have hmax := maxCount_lt T
  have hw : wrap (s.capacity_ * 2) = 2 * s.capacity_ := by
    rw [wrap_eq _ (by omega)]; omega
  have hf := SimpleVector.reallocate_fails s
    (if s.capacity_ = 0 then 1 else wrap (s.capacity_ * 2)) (by rw [hw]; omega)
  rw [SimpleVector.PushBack_obj, if_pos he, hf] at h
  simp [bind, Except.bind] at h

/-- The first `n + 1` cells once the cells from `i` on have moved one place
to the right and cell `i` holds `v`. -/
theorem take_insert {T : Type} (c2 c0 : List T) (n i : Nat) (v : T) (hi : i ≤ n)
    (_h2 : n < c2.length) (h0 : n ≤ c0.length)
    (hlo : ∀ k, k < i → c2[k]? = c0[k]?) (hv : c2[i]? = some v)
    (hhi : ∀ k, i < k → k ≤ n → c2[k]? = c0[k - 1]?) :
    c2.take (n + 1) = (c0.take n).take i ++ v :: (c0.take n).drop i := by
  have hlen : ((c0.take n).take i).length = i := by
    simp [List.length_take]; omega
  apply List.ext_getElem?
  intro k
  rcases Nat.lt_trichotomy k i with hk | hk | hk
  · rw [List.getElem?_take_of_lt (by omega), hlo k hk,
      List.getElem?_append_left (by rw [hlen]; exact hk), List.getElem?_take_of_lt hk,
      List.getElem?_take_of_lt (by omega)]
  · subst hk
    rw [List.getElem?_take_of_lt (by omega), hv,
      List.getElem?_append_right (by rw [hlen]), hlen]
    simp
  · by_cases hkn : k ≤ n
    · have hk1 : k - i = (k - i - 1) + 1 := by omega
      rw [List.getElem?_take_of_lt (by omega), hhi k hk hkn,
        List.getElem?_append_right (by rw [hlen]; omega), hlen, hk1, List.getElem?_cons_succ,
        List.getElem?_drop, List.getElem?_take_of_lt (by omega)]
      congr 1
      omega
    · rw [List.getElem?_eq_none (by simp; omega), List.getElem?_eq_none]
      simp [List.length_take]
      omega

/-- The first `n - 1` cells once the cells after `i` have moved one place to
the left. -/
theorem take_erase {T : Type} (c2 c0 : List T) (n i : Nat) (hi : i < n)
    (_h2 : n ≤ c2.length) (h0 : n ≤ c0.length)
    (hlo : ∀ k, k < i → c2[k]? = c0[k]?)
    (hhi : ∀ k, i ≤ k → k < i + (n - (i + 1)) → c2[k]? = c0[k + 1]?) :
    c2.take (n - 1) = (c0.take n).take i ++ (c0.take n).drop (i + 1) := by
  have hlen : ((c0.take n).take i).length = i := by
    simp [List.length_take]; omega
  apply List.ext_getElem?
  intro k
  by_cases hk : k < i
  · rw [List.getElem?_take_of_lt (by omega), hlo k hk,
      List.getElem?_append_left (by rw [hlen]; exact hk), List.getElem?_take_of_lt hk,
      List.getElem?_take_of_lt (by omega)]
  · by_cases hkn : k < n - 1
    · have hk1 : i + 1 + (k - i) = k + 1 := by omega
      rw [List.getElem?_take_of_lt hkn, hhi k (by omega) (by omega),
        List.getElem?_append_right (by rw [hlen]; omega), hlen,
        List.getElem?_drop, hk1, List.getElem?_take_of_lt (by omega)]
    · rw [List.getElem?_eq_none (by simp; omega), List.getElem?_eq_none]
      simp [List.length_take]
      omega

/-- What `Insert` does on a vector satisfying the invariant, at a cursor in
`[begin(), end()]`, when the block it may need can be allocated. -/
theorem SimpleVector.Insert_spec {T : Type} [Elem T] (s : SimpleVector T) (i : Nat) (v : T)
    (hinv : SimpleVector.Inv s) (hi : i ≤ s.size_)
    (hmem : s.size_ = s.capacity_ →
      (if s.capacity_ = 0 then 1 else 2 * s.capacity_) ≤ maxCount T) :
    ∃ s', SimpleVector.Insert s i (.obj v) = .ok (s', i) ∧
      SimpleVector.Insert_rv s i (.obj v) = .ok ((s', i), .obj (Elem.moved v)) ∧
      s'.size_ = s.size_ + 1 ∧
      s'.capacity_ = (if s.size_ = s.capacity_ then
        (if s.capacity_ = 0 then 1 else 2 * s.capacity_) else s.capacity_) ∧
      SimpleVector.Inv s' ∧
      SimpleVector.elems s'
        = (SimpleVector.elems s).take i ++ v :: (SimpleVector.elems s).drop i := by
  obtain ⟨hsc, hlen, hcap⟩ := hinv
  have hmax := maxCount_lt T
  have hwsz : wrap (s.size_ + 1) = s.size_ + 1 := wrap_eq _ (by omega)
  -- the vector before `++size_`
  have hstep : ∃ s1, (if s.size_ = s.capacity_ then do
        let new_capacity := if s.capacity_ = 0 then 1 else wrap (s.capacity_ * 2)
        let new_data ← ArrayPtr.ctor_size new_capacity
        let r1 ← std_move s.data_.cells 0 i new_data.cells 0
        let nb ← wr r1.2 i v
        let r2 ← std_move r1.1 i s.size_ nb (i + 1)
        let d := ArrayPtr.swap (s.data_.put r2.1) (new_data.put r2.2)
        pure { s with data_ := d.1, capacity_ := new_capacity }
      else do
        let b1 ← std_move_backward_in s.data_.cells i s.size_ (s.size_ + 1)
        let b2 ← wr b1 i v
        pure { s with data_ := s.data_.put b2 }) = Except.ok s1 ∧
      s1.size_ = s.size_ ∧
      s1.capacity_ = (if s.size_ = s.capacity_ then
        (if s.capacity_ = 0 then 1 else 2 * s.capacity_) else s.capacity_) ∧
      s1.data_.cells.length = s1.capacity_ ∧ s1.capacity_ ≤ maxCount T ∧
      s.size_ < s1.capacity_ ∧
      (∀ k, k < i → s1.data_.cells[k]? = s.data_.cells[k]?) ∧
      s1.data_.cells[i]? = some v ∧
      (∀ k, i < k → k ≤ s.size_ → s1.data_.cells[k]? = s.data_.cells[k - 1]?) := by
    by_cases he : s.size_ = s.capacity_
    · have hw : wrap (s.capacity_ * 2) = 2 * s.capacity_ := by
        rw [wrap_eq _ (by omega)]; omega
      have hm := hmem he
      generalize hc : (if s.capacity_ = 0 then 1 else 2 * s.capacity_) = c at hm
      have hcs : s.size_ < c := by rw [← hc]; split_ifs <;> omega
      obtain ⟨p, hp, hpc⟩ := ArrayPtr.ctor_size_ok (T := T) c hm
      have hpl : p.cells.length = c := by simp [hpc]
      obtain ⟨r1, hr1, hl11, hl12, hq12, hq11⟩ :=
        move_loop_spec i s.data_.cells 0 p.cells 0 (by omega) (by omega)
      have hwr : wr r1.2 i v = .ok (r1.2.set i v) := wr_ok _ _ _ (by omega)
      obtain ⟨r2, hr2, hl21, hl22, hq22, _⟩ :=
        move_loop_spec (s.size_ - i) r1.1 i (r1.2.set i v) (i + 1) (by omega)
          (by rw [List.length_set]; omega)
      have hput : (p.put r2.2).cells = r2.2 :=
        ArrayPtr.cells_put p r2.2 (by rw [hl22, List.length_set, hl12])
      refine ⟨{ s with data_ := p.put r2.2, capacity_ := c }, ?_, rfl, by simp [he, hc], ?_,
        hm, hcs, ?_, ?_, ?_⟩
      · rw [if_pos he]
        simp only [hw, hc, hp, std_move, hi, Nat.zero_le, if_true, Nat.sub_zero, hr1, hwr, hr2,
          bind, Except.bind, pure, Except.pure, ArrayPtr.swap]
      · show (p.put r2.2).cells.length = c
        rw [hput, hl22, List.length_set, hl12, hpl]
      · intro k hk
        show (p.put r2.2).cells[k]? = _
        have hc1 : ¬ (i + 1 ≤ k ∧ k < i + 1 + (s.size_ - i)) := by omega
        have hc2 : 0 ≤ k ∧ k < 0 + i := by omega
        have hne : i ≠ k := by omega
        rw [hput, hq22 k, if_neg hc1, List.getElem?_set_ne hne, hq12 k, if_pos hc2]
        simp
      · show (p.put r2.2).cells[i]? = _
        have hc1 : ¬ (i + 1 ≤ i ∧ i < i + 1 + (s.size_ - i)) := by omega
        rw [hput, hq22 i, if_neg hc1]
        simp [List.getElem?_set]
        omega
      · intro k hk1 hk2
        show (p.put r2.2).cells[k]? = _
        have hc1 : i + 1 ≤ k ∧ k < i + 1 + (s.size_ - i) := by omega
        have hc2 : ¬ (0 ≤ i + (k - (i + 1)) ∧ i + (k - (i + 1)) < 0 + i) := by omega
        have hk3 : i + (k - (i + 1)) = k - 1 := by omega
        rw [hput, hq22 k, if_pos hc1, hq11, if_neg hc2, hk3]
    · have hlt : s.size_ < s.data_.cells.length := by omega
      obtain ⟨b1, hb1, hbl, hlo, hmid, _⟩ :=
        move_backward_loop_in_spec (s.size_ - i) s.data_.cells s.size_ (by omega) hlt
      have hwr : wr b1 i v = .ok (b1.set i v) := wr_ok _ _ _ (by omega)
      have hput : (s.data_.put (b1.set i v)).cells = b1.set i v :=
        ArrayPtr.cells_put _ _ (by rw [List.length_set, hbl])
      have hlt2 : s.size_ < s.capacity_ := by omega
      refine ⟨{ s with data_ := s.data_.put (b1.set i v) }, ?_, rfl, by simp [he], ?_, hcap,
        hlt2, ?_, ?_, ?_⟩
      · rw [if_neg he]
        simp only [std_move_backward_in, hi, if_true, hb1, hwr, bind, Except.bind, pure,
          Except.pure]
      · show (s.data_.put (b1.set i v)).cells.length = s.capacity_
        rw [hput, List.length_set, hbl, hlen]
      · intro k hk
        show (s.data_.put (b1.set i v)).cells[k]? = _
        have hne : i ≠ k := by omega
        rw [hput, List.getElem?_set_ne hne, hlo k (by omega)]
      · show (s.data_.put (b1.set i v)).cells[i]? = _
        rw [hput]
        simp [List.getElem?_set]
        omega
      · intro k hk1 hk2
        show (s.data_.put (b1.set i v)).cells[k]? = _
        have hne : i ≠ k := by omega
        rw [hput, List.getElem?_set_ne hne, hmid k (by omega) hk2]
  obtain ⟨s1, h1, hsz, hc1, hl1, hm1, hlt1, hlo, hv, hhi⟩ := hstep
  have hins : SimpleVector.Insert s i (.obj v) = .ok ({ s1 with size_ := s.size_ + 1 }, i) := by
    rw [SimpleVector.Insert_obj]
    rw [if_pos hi]
    simp only [bind, Except.bind, pure, Except.pure] at h1 ⊢
    rw [h1]
    simp only [hsz, hwsz]
  refine ⟨{ s1 with size_ := s.size_ + 1 }, hins, ?_, rfl, hc1, ⟨?_, hl1, hm1⟩, ?_⟩
  · rw [SimpleVector.Insert_rv_eq, hins]; rfl
  · show s.size_ + 1 ≤ s1.capacity_
    omega
  · show s1.data_.cells.take (s.size_ + 1) = _
    exact take_insert _ _ _ _ _ hi (by omega) (by omega) hlo hv hhi

/-- What `Erase` does on a vector satisfying the invariant, at a cursor in
`[begin(), end())`. -/
theorem SimpleVector.Erase_spec {T : Type} [Elem T] (s : SimpleVector T) (i : Nat)
    (hinv : SimpleVector.Inv s) (hi : i < s.size_) :
    ∃ s', SimpleVector.Erase s i = .ok (s', i) ∧
      s'.size_ = s.size_ - 1 ∧ s'.capacity_ = s.capacity_ ∧
      SimpleVector.Inv s' ∧
      SimpleVector.elems s'
        = (SimpleVector.elems s).take i ++ (SimpleVector.elems s).drop (i + 1) := by
  obtain ⟨hsc, hlen, hcap⟩ := hinv
  obtain ⟨b, hb, hbl, hlo, hmid, _⟩ :=
    move_loop_in_spec (s.size_ - (i + 1)) s.data_.cells i (by omega)
  have hput : (s.data_.put b).cells = b := ArrayPtr.cells_put _ _ hbl
  have hle : i + 1 ≤ s.size_ := hi
  refine ⟨{ s with data_ := s.data_.put b, size_ := s.size_ - 1 }, ?_, rfl, rfl,
    ⟨?_, ?_, hcap⟩, ?_⟩
  · simp only [SimpleVector.Erase, hi, if_true, std_move_in, hle, hb, bind, Except.bind, pure,
      Except.pure]
  · show s.size_ - 1 ≤ s.capacity_
    omega
  · show (s.data_.put b).cells.length = s.capacity_
    rw [hput, hbl, hlen]
  · show (s.data_.put b).cells.take (s.size_ - 1) = _
    rw [hput]
    exact take_erase _ _ _ _ hi (by omega) (by omega) hlo hmid

/-- What `Resize` does on a vector satisfying the invariant when the block it
may need can be allocated. -/
theorem SimpleVector.Resize_spec {T : Type} [Elem T] (s : SimpleVector T) (n : Nat)
    (hinv : SimpleVector.Inv s)
    (hmem : s.capacity_ < n → max n (2 * s.capacity_) ≤ maxCount T) :
    ∃ s', SimpleVector.Resize s n = .ok s' ∧ s'.size_ = n ∧
      s'.capacity_ = (if s.capacity_ < n then max n (2 * s.capacity_) else s.capacity_) ∧
      SimpleVector.Inv s' ∧
      (∀ k, k < s.size_ → s'.data_.cells[k]? = s.data_.cells[k]?) ∧
      (s.capacity_ < n → ∀ k, s.size_ ≤ k → k < n → s'.data_.cells[k]? = some Elem.dflt) ∧
      (n ≤ s.capacity_ → s'.data_ = s.data_) := by
  obtain ⟨hsc, hlen, hcap⟩ := hinv
  have hmax := maxCount_lt T
  have hw : wrap (s.capacity_ * 2) = 2 * s.capacity_ := by
    rw [wrap_eq _ (by omega)]; omega
  by_cases hn : s.capacity_ < n
  · have hm := hmem hn
    obtain ⟨s1, h1, h2, h3, h4, h5, h6⟩ := SimpleVector.reallocate_spec s
      (max n (2 * s.capacity_)) (by omega) (by omega) hm
    refine ⟨{ s1 with size_ := n }, ?_, rfl, by simp [hn, h3], ⟨?_, ?_, ?_⟩, h5, ?_, ?_⟩
    · have hgt : n > s.capacity_ := hn
      simp only [SimpleVector.Resize, hgt, if_true, hw, h1, bind, Except.bind, pure,
        Except.pure]
    · show n ≤ s1.capacity_
      rw [h3]; omega
    · show s1.data_.cells.length = s1.capacity_
      rw [h4, h3]
    · show s1.capacity_ ≤ maxCount T
      rw [h3]; exact hm
    · intro _ k hk1 hk2
      exact h6 k hk1 (by omega)
    · intro hle
      omega
  · refine ⟨{ s with size_ := n }, ?_, rfl, by simp [hn], ⟨?_, hlen, hcap⟩, fun _ _ => rfl,
      fun h => absurd h hn, fun _ => rfl⟩
    · have hgt : ¬ n > s.capacity_ := hn
      simp only [SimpleVector.Resize, hgt, if_false, bind, Except.bind, pure, Except.pure]
    · show n ≤ s.capacity_
      omega

/-- What `Reserve` does on a vector satisfying the invariant when the block
it may need can be allocated. -/
theorem SimpleVector.Reserve_spec {T : Type} [Elem T] (s : SimpleVector T) (n : Nat)
    (hinv : SimpleVector.Inv s) (hmem : s.capacity_ < n → n ≤ maxCount T) :
    ∃ s', SimpleVector.Reserve s n = .ok s' ∧ s'.size_ = s.size_ ∧
      s'.capacity_ = (if s.capacity_ < n then n else s.capacity_) ∧
      SimpleVector.Inv s' ∧ SimpleVector.elems s' = SimpleVector.elems s := by
  obtain ⟨hsc, hlen, hcap⟩ := hinv
  by_cases hn : s.capacity_ < n
  · have hm := hmem hn
    obtain ⟨s1, h1, h2, h3, h4, h5, _⟩ := SimpleVector.reallocate_spec s n (by omega)
      (by omega) hm
    refine ⟨s1, ?_, h2, by simp [hn, h3], ⟨by omega, by rw [h4, h3], by rw [h3]; exact hm⟩, ?_⟩
    · have hgt : n > s.capacity_ := hn
      simp only [SimpleVector.Reserve, hgt, if_true, h1]
    · apply List.ext_getElem?
      intro k
      by_cases hk : k < s.size_
      · simp only [SimpleVector.elems]
        rw [h2, List.getElem?_take_of_lt hk, List.getElem?_take_of_lt hk, h5 k hk]
      · rw [List.getElem?_eq_none (by simp [SimpleVector.elems]; omega),
          List.getElem?_eq_none (by simp [SimpleVector.elems]; omega)]
  · refine ⟨s, ?_, rfl, by simp [hn], ⟨hsc, hlen, hcap⟩, rfl⟩
    have hgt : ¬ n > s.capacity_ := hn
    simp only [SimpleVector.Reserve, hgt, if_false, pure, Except.pure]

/-! ## Constructors -/

theorem SimpleVector.ctor_size_spec {T : Type} [Elem T] (n : Nat) (h : n ≤ maxCount T) :
    ∃ s : SimpleVector T, SimpleVector.ctor_size n = .ok s ∧ s.size_ = n ∧ s.capacity_ = n ∧
      SimpleVector.Inv s ∧ SimpleVector.elems s = List.replicate n Elem.dflt := by
  obtain ⟨p, hp, hpc⟩ := ArrayPtr.ctor_size_ok (T := T) n h
  refine ⟨⟨n, n, p⟩, ?_, rfl, rfl, ⟨Nat.le_refl n, ?_, h⟩, ?_⟩
  · simp only [SimpleVector.ctor_size, hp, bind, Except.bind, pure, Except.pure]
  · show p.cells.length = n
    simp [hpc]
  · show p.cells.take n = _
    simp [hpc]

theorem SimpleVector.ctor_fill_spec {T : Type} [Elem T] (n : Nat) (v : T)
    (h : n ≤ maxCount T) :
    ∃ s : SimpleVector T, SimpleVector.ctor_fill n v = .ok s ∧ s.size_ = n ∧ s.capacity_ = n ∧
      SimpleVector.Inv s ∧ SimpleVector.elems s = List.replicate n Elem.dflt := by
  obtain ⟨s, h1, h2⟩ := SimpleVector.ctor_size_spec (T := T) n h
  exact ⟨s, h1, h2⟩

theorem SimpleVector.ctor_reserve_spec {T : Type} [Elem T] (n : Nat) (h : n ≤ maxCount T) :
    ∃ s : SimpleVector T, SimpleVector.ctor_reserve (SimpleVec.Reserve n) = .ok s ∧ s.size_ = 0 ∧
      s.capacity_ = n ∧ SimpleVector.Inv s ∧ SimpleVector.elems s = [] := by
  obtain ⟨p, hp, hpc⟩ := ArrayPtr.ctor_size_ok (T := T) n h
  refine ⟨⟨0, n, p⟩, ?_, rfl, rfl, ⟨Nat.zero_le n, ?_, h⟩, ?_⟩
  · simp only [SimpleVector.ctor_reserve, SimpleVec.Reserve, ReserveProxyObj.GetCapacity, hp, bind,
      Except.bind, pure, Except.pure]
  · show p.cells.length = n
    simp [hpc]
  · show p.cells.take 0 = _
    simp

theorem SimpleVector.ctor_init_spec {T : Type} [Elem T] (l : List T)
    (h : l.length ≤ maxCount T) :
    ∃ s : SimpleVector T, SimpleVector.ctor_init l = .ok s ∧ s.size_ = l.length ∧
      s.capacity_ = l.length ∧ SimpleVector.Inv s ∧ SimpleVector.elems s = l := by
  obtain ⟨p, hp, hpc⟩ := ArrayPtr.ctor_size_ok (T := T) l.length h
  have hpl : p.cells.length = l.length := by simp [hpc]
  obtain ⟨r, hr, hl, hq⟩ := copy_loop_spec l.length l 0 p.cells 0 (by omega) (by omega)
  have hput : (p.put r).cells = r := ArrayPtr.cells_put p r hl
  refine ⟨⟨l.length, l.length, p.put r⟩, ?_, rfl, rfl, ⟨Nat.le_refl _, ?_, h⟩, ?_⟩
  · simp only [SimpleVector.ctor_init, hp, std_copy, Nat.zero_le, if_true, Nat.sub_zero, hr,
      bind, Except.bind, pure, Except.pure]
  · show (p.put r).cells.length = l.length
    rw [hput, hl, hpl]
  · show (p.put r).cells.take l.length = l
    rw [hput]
    apply List.ext_getElem?
    intro k
    by_cases hk : k < l.length
    · have hc : 0 ≤ k ∧ k < 0 + l.length := by omega
      rw [List.getElem?_take_of_lt hk, hq k, if_pos hc]
      simp
    · rw [List.getElem?_eq_none (by simp; omega), List.getElem?_eq_none (by omega)]

theorem SimpleVector.ctor_copy_spec {T : Type} [Elem T] (o : SimpleVector T)
    (hinv : SimpleVector.Inv o) :
    ∃ s : SimpleVector T, SimpleVector.ctor_copy o = .ok s ∧ s.size_ = o.size_ ∧
      s.capacity_ = o.capacity_ ∧ SimpleVector.Inv s ∧
      SimpleVector.elems s = SimpleVector.elems o := by
  obtain ⟨hsc, hlen, hcap⟩ := hinv
  obtain ⟨p, hp, hpc⟩ := ArrayPtr.ctor_size_ok (T := T) o.capacity_ hcap
  have hpl : p.cells.length = o.capacity_ := by simp [hpc]
  obtain ⟨r, hr, hl, hq⟩ :=
    copy_loop_spec o.size_ o.data_.cells 0 p.cells 0 (by omega) (by omega)
  have hput : (p.put r).cells = r := ArrayPtr.cells_put p r hl
  refine ⟨⟨o.size_, o.capacity_, p.put r⟩, ?_, rfl, rfl, ⟨hsc, ?_, hcap⟩, ?_⟩
  · simp only [SimpleVector.ctor_copy, hp, std_copy, Nat.zero_le, if_true, Nat.sub_zero, hr,
      bind, Except.bind, pure, Except.pure]
  · show (p.put r).cells.length = o.capacity_
    rw [hput, hl, hpl]
  · show (p.put r).cells.take o.size_ = o.data_.cells.take o.size_
    rw [hput]
    apply List.ext_getElem?
    intro k
    by_cases hk : k < o.size_
    · have hc : 0 ≤ k ∧ k < 0 + o.size_ := by omega
      rw [List.getElem?_take_of_lt hk, List.getElem?_take_of_lt hk, hq k, if_pos hc]
      simp
    · rw [List.getElem?_eq_none (by simp; omega), List.getElem?_eq_none (by simp; omega)]

/-! ## Every operation that returns keeps the invariant -/

theorem ArrayPtr.ctor_size_le {T : Type} [Elem T] (n : Nat) (p : ArrayPtr T)
    (h : ArrayPtr.ctor_size n = .ok p) : n ≤ maxCount T := by
  by_contra hc
  rw [ArrayPtr.ctor_size_fails n (by omega)] at h
  cases h

theorem SimpleVector.ctor_size_inv {T : Type} [Elem T] (n : Nat) (s : SimpleVector T)
    (h : SimpleVector.ctor_size n = .ok s) : SimpleVector.Inv s := by
  have hle : n ≤ maxCount T := by
    by_contra hc
    simp [SimpleVector.ctor_size, ArrayPtr.ctor_size_fails (T := T) n (by omega), bind, Except.bind] at h
  obtain ⟨s1, h1, _, _, hinv, _⟩ := SimpleVector.ctor_size_spec (T := T) n hle
  rw [h1] at h
  cases h
  exact hinv

theorem SimpleVector.ctor_fill_inv {T : Type} [Elem T] (n : Nat) (v : T) (s : SimpleVector T)
    (h : SimpleVector.ctor_fill n v = .ok s) : SimpleVector.Inv s :=
  SimpleVector.ctor_size_inv n s h

theorem SimpleVector.ctor_reserve_inv {T : Type} [Elem T] (r : ReserveProxyObj)
    (s : SimpleVector T) (h : SimpleVector.ctor_reserve r = .ok s) : SimpleVector.Inv s := by
  cases r with
  | mk n =>
    have hle : n ≤ maxCount T := by
      by_contra hc
      simp [SimpleVector.ctor_reserve, ReserveProxyObj.GetCapacity,
        ArrayPtr.ctor_size_fails (T := T) n (by omega), bind, Except.bind] at h
    obtain ⟨s1, h1, _, _, hinv, _⟩ := SimpleVector.ctor_reserve_spec (T := T) n hle
    rw [show SimpleVec.Reserve n = ReserveProxyObj.mk n from rfl] at h1
    rw [h1] at h
    cases h
    exact hinv

theorem SimpleVector.ctor_init_inv {T : Type} [Elem T] (l : List T) (s : SimpleVector T)
    (h : SimpleVector.ctor_init l = .ok s) : SimpleVector.Inv s := by
  have hle : l.length ≤ maxCount T := by
    by_contra hc
    simp [SimpleVector.ctor_init, ArrayPtr.ctor_size_fails (T := T) l.length (by omega), bind,
      Except.bind] at h
  obtain ⟨s1, h1, _, _, hinv, _⟩ := SimpleVector.ctor_init_spec l hle
  rw [h1] at h
  cases h
  exact hinv

theorem SimpleVector.ctor_copy_inv {T : Type} [Elem T] (o s : SimpleVector T)
    (hinv : SimpleVector.Inv o) (h : SimpleVector.ctor_copy o = .ok s) :
    SimpleVector.Inv s := by
  obtain ⟨s1, h1, _, _, hinv1, _⟩ := SimpleVector.ctor_copy_spec o hinv
  rw [h1] at h
  cases h
  exact hinv1

theorem SimpleVector.PushBack_inv {T : Type} [Elem T] (s : SimpleVector T) (v : Ref T)
    (s1 : SimpleVector T) (hinv : SimpleVector.Inv s)
    (h : SimpleVector.PushBack s v = .ok s1) : SimpleVector.Inv s1 := by
  obtain ⟨x, hx⟩ := SimpleVector.PushBack_of_ref s v s1 h
  obtain ⟨s2, h2, _, _, _, hinv2, _⟩ :=
    SimpleVector.PushBack_spec s x hinv (SimpleVector.PushBack_mem s x hinv s1 hx)
  rw [h2] at hx
  cases hx
  exact hinv2

theorem SimpleVector.PushBack_rv_inv {T : Type} [Elem T] (s : SimpleVector T) (v : Ref T)
    (r : SimpleVector T × Ref T) (hinv : SimpleVector.Inv s)
    (h : SimpleVector.PushBack_rv s v = .ok r) : SimpleVector.Inv r.1 := by
  cases v with
  | obj x =>
    rw [SimpleVector.PushBack_rv_eq] at h
    cases hp : SimpleVector.PushBack s (.obj x) with
    | error e => rw [hp] at h; cases h
    | ok s1 =>
      rw [hp] at h
      cases h
      exact SimpleVector.PushBack_inv s (.obj x) s1 hinv hp
  | cell j =>
    by_cases he : s.size_ = s.capacity_
    · exact absurd h ((SimpleVector.PushBack_cell_full s j he).2 r)
    · obtain ⟨hsc, hlen, hcap⟩ := hinv
      have hmax := maxCount_lt T
      unfold SimpleVector.PushBack_rv at h
      simp only [if_neg he, bind, Except.bind, pure, Except.pure, Ref.load, Ref.release] at h
      cases hx : rd s.data_.cells j with
      | error e => rw [hx] at h; cases h
      | ok x =>
        rw [hx] at h
        simp only [] at h
        cases hb : wr s.data_.cells s.size_ x with
        | error e => rw [hb] at h; cases h
        | ok b =>
          rw [hb] at h
          simp only [] at h
          cases hm : wr b j (Elem.moved x) with
          | error e => rw [hm] at h; cases h
          | ok b1 =>
            rw [hm] at h
            cases h
            have hl : b1.length = s.data_.cells.length := by
              rw [wr_length _ _ _ _ hm, wr_length _ _ _ _ hb]
            refine ⟨?_, ?_, hcap⟩
            · show wrap (s.size_ + 1) ≤ s.capacity_
              rw [wrap_eq _ (by omega)]; omega
            · show (s.data_.put b1).cells.length = s.capacity_
              rw [ArrayPtr.cells_put _ _ hl, hl, hlen]

theorem SimpleVector.PopBack_inv {T : Type} [Elem T] (s s1 : SimpleVector T)
    (hinv : SimpleVector.Inv s) (h : SimpleVector.PopBack s = .ok s1) :
    SimpleVector.Inv s1 := by
  obtain ⟨hsc, hlen, hcap⟩ := hinv
  unfold SimpleVector.PopBack at h
  split at h
  · cases h
    exact ⟨by show s.size_ - 1 ≤ s.capacity_; omega, hlen, hcap⟩
  · cases h

theorem SimpleVector.Insert_pre {T : Type} [Elem T] (s : SimpleVector T) (i : Nat) (v : T)
    (hinv : SimpleVector.Inv s) (r : SimpleVector T × Nat)
    (h : SimpleVector.Insert s i (.obj v) = .ok r) :
    i ≤ s.size_ ∧ (s.size_ = s.capacity_ →
      (if s.capacity_ = 0 then 1 else 2 * s.capacity_) ≤ maxCount T) := by
  have hi : i ≤ s.size_ := by
    by_contra hc
    simp [SimpleVector.Insert, hc] at h
  refine ⟨hi, ?_⟩
  intro he
  by_contra hc
  obtain ⟨_, _, hcap⟩ := hinv
  have hmax := maxCount_lt T
  have hw : wrap (s.capacity_ * 2) = 2 * s.capacity_ := by
    rw [wrap_eq _ (by omega)]; omega
  have hf := ArrayPtr.ctor_size_fails (T := T)
    (if s.capacity_ = 0 then 1 else wrap (s.capacity_ * 2)) (by rw [hw]; omega)
  rw [SimpleVector.Insert_obj] at h
  rw [if_pos hi] at h
  simp only [if_pos he, hf, bind, Except.bind] at h
  cases h

theorem SimpleVector.Insert_inv {T : Type} [Elem T] (s : SimpleVector T) (i : Nat) (v : Ref T)
    (r : SimpleVector T × Nat) (hinv : SimpleVector.Inv s)
    (h : SimpleVector.Insert s i v = .ok r) : SimpleVector.Inv r.1 := by
  obtain ⟨x, hx⟩ := SimpleVector.Insert_of_ref s i v r h
  obtain ⟨hi, hmem⟩ := SimpleVector.Insert_pre s i x hinv r hx
  obtain ⟨s2, h2, _, _, _, hinv2, _⟩ := SimpleVector.Insert_spec s i x hinv hi hmem
  rw [h2] at hx
  cases hx
  exact hinv2

theorem SimpleVector.Insert_rv_inv {T : Type} [Elem T] (s : SimpleVector T) (i : Nat)
    (v : Ref T) (r : (SimpleVector T × Nat) × Ref T) (hinv : SimpleVector.Inv s)
    (h : SimpleVector.Insert_rv s i v = .ok r) : SimpleVector.Inv r.1.1 := by
  cases v with
  | obj x =>
    rw [SimpleVector.Insert_rv_eq] at h
    cases hp : SimpleVector.Insert s i (.obj x) with
    | error e => rw [hp] at h; cases h
    | ok r1 =>
      rw [hp] at h
      cases h
      exact SimpleVector.Insert_inv s i (.obj x) r1 hinv hp
  | cell j =>
    obtain ⟨hsc, hlen, hcap⟩ := hinv
    have hmax := maxCount_lt T
    unfold SimpleVector.Insert_rv at h
    by_cases hi : i ≤ s.size_
    · simp only [if_pos hi, bind, Except.bind, pure, Except.pure, Ref.load, Ref.release] at h
      by_cases he : s.size_ = s.capacity_
      · simp only [if_pos he] at h
        have hw : wrap (s.capacity_ * 2) = 2 * s.capacity_ := by
          rw [wrap_eq _ (by omega)]; omega
        cases hnd : (ArrayPtr.ctor_size (if s.capacity_ = 0 then 1 else wrap (s.capacity_ * 2)) :
            Res (ArrayPtr T)) with
        | error e => rw [hnd] at h; cases h
        | ok nd =>
          rw [hnd] at h
          simp only [] at h
          have hndl := ArrayPtr.ctor_size_cells _ nd hnd
          have hndm := ArrayPtr.ctor_size_le _ nd hnd
          cases hr1 : std_move s.data_.cells 0 i nd.cells 0 with
          | error e => rw [hr1] at h; cases h
          | ok r1 =>
            rw [hr1] at h
            simp only [] at h
            obtain ⟨_, hl12⟩ := std_move_length _ _ _ _ _ _ hr1
            cases hx : rd r1.1 j with
            | error e => rw [hx] at h; cases h
            | ok x =>
              rw [hx] at h
              simp only [] at h
              cases hnb : wr r1.2 i x with
              | error e => rw [hnb] at h; cases h
              | ok nb =>
                rw [hnb] at h
                simp only [] at h
                cases hm : wr r1.1 j (Elem.moved x) with
                | error e => rw [hm] at h; cases h
                | ok old1 =>
                  rw [hm] at h
                  simp only [] at h
                  cases hr2 : std_move old1 i s.size_ nb (i + 1) with
                  | error e => rw [hr2] at h; cases h
                  | ok r2 =>
                    rw [hr2] at h
                    cases h
                    obtain ⟨_, hl22⟩ := std_move_length _ _ _ _ _ _ hr2
                    have hl : r2.2.length = nd.cells.length := by
                      rw [hl22, wr_length _ _ _ _ hnb, hl12]
                    refine ⟨?_, ?_, ?_⟩
                    · show wrap (s.size_ + 1) ≤ (if s.capacity_ = 0 then 1
                        else wrap (s.capacity_ * 2))
                      rw [wrap_eq _ (by omega), hw]
                      split_ifs <;> omega
                    · show ((ArrayPtr.swap (s.data_.put r2.1) (nd.put r2.2)).1).cells.length
                        = (if s.capacity_ = 0 then 1 else wrap (s.capacity_ * 2))
                      have hsw : (ArrayPtr.swap (s.data_.put r2.1) (nd.put r2.2)).1
                          = nd.put r2.2 := rfl
                      rw [hsw, ArrayPtr.cells_put _ _ hl, hl, hndl]
                    · exact hndm
      · simp only [if_neg he] at h
        cases hb1 : std_move_backward_in s.data_.cells i s.size_ (s.size_ + 1) with
        | error e => rw [hb1] at h; cases h
        | ok b1 =>
          rw [hb1] at h
          simp only [] at h
          have hl1 := std_move_backward_in_length _ _ _ _ _ hb1
          cases hx : rd b1 j with
          | error e => rw [hx] at h; cases h
          | ok x =>
            rw [hx] at h
            simp only [] at h
            cases hb2 : wr b1 i x with
            | error e => rw [hb2] at h; cases h
            | ok b2 =>
              rw [hb2] at h
              simp only [] at h
              cases hm : wr b2 j (Elem.moved x) with
              | error e => rw [hm] at h; cases h
              | ok b3 =>
                rw [hm] at h
                cases h
                have hl : b3.length = s.data_.cells.length := by
                  rw [wr_length _ _ _ _ hm, wr_length _ _ _ _ hb2, hl1]
                refine ⟨?_, ?_, hcap⟩
                · show wrap (s.size_ + 1) ≤ s.capacity_
                  rw [wrap_eq _ (by omega)]; omega
                · show (s.data_.put b3).cells.length = s.capacity_
                  rw [ArrayPtr.cells_put _ _ hl, hl, hlen]
    · simp only [if_neg hi] at h
      cases h

theorem SimpleVector.Erase_pre {T : Type} [Elem T] (s : SimpleVector T) (i : Nat)
    (r : SimpleVector T × Nat) (h : SimpleVector.Erase s i = .ok r) : i < s.size_ := by
  by_contra hc
  simp [SimpleVector.Erase, hc] at h

theorem SimpleVector.Erase_inv {T : Type} [Elem T] (s : SimpleVector T) (i : Nat)
    (r : SimpleVector T × Nat) (hinv : SimpleVector.Inv s)
    (h : SimpleVector.Erase s i = .ok r) : SimpleVector.Inv r.1 := by
  obtain ⟨s2, h2, _, _, hinv2, _⟩ :=
    SimpleVector.Erase_spec s i hinv (SimpleVector.Erase_pre s i r h)
  rw [h2] at h
  cases h
  exact hinv2

theorem SimpleVector.Resize_mem {T : Type} [Elem T] (s : SimpleVector T) (n : Nat)
    (hinv : SimpleVector.Inv s) (s1 : SimpleVector T)
    (h : SimpleVector.Resize s n = .ok s1) :
    s.capacity_ < n → max n (2 * s.capacity_) ≤ maxCount T := by
  intro hn
  by_contra hc
  obtain ⟨_, _, hcap⟩ := hinv
  have hmax := maxCount_lt T
  have hw : wrap (s.capacity_ * 2) = 2 * s.capacity_ := by
    rw [wrap_eq _ (by omega)]; omega
  have hf := SimpleVector.reallocate_fails s (max n (wrap (s.capacity_ * 2)))
    (by rw [hw]; omega)
  have hgt : n > s.capacity_ := hn
  unfold SimpleVector.Resize at h
  rw [if_pos hgt, hf] at h
  simp [bind, Except.bind] at h

theorem SimpleVector.Resize_inv {T : Type} [Elem T] (s : SimpleVector T) (n : Nat)
    (s1 : SimpleVector T) (hinv : SimpleVector.Inv s)
    (h : SimpleVector.Resize s n = .ok s1) : SimpleVector.Inv s1 := by
  obtain ⟨s2, h2, _, _, hinv2, _⟩ :=
    SimpleVector.Resize_spec s n hinv (SimpleVector.Resize_mem s n hinv s1 h)
  rw [h2] at h
  cases h
  exact hinv2

theorem SimpleVector.Reserve_mem {T : Type} [Elem T] (s : SimpleVector T) (n : Nat)
    (s1 : SimpleVector T) (h : SimpleVector.Reserve s n = .ok s1) :
    s.capacity_ < n → n ≤ maxCount T := by
  intro hn
  by_contra hc
  have hf := SimpleVector.reallocate_fails s n (by omega)
  have hgt : n > s.capacity_ := hn
  unfold SimpleVector.Reserve at h
  rw [if_pos hgt, hf] at h
  cases h

theorem SimpleVector.Reserve_inv {T : Type} [Elem T] (s : SimpleVector T) (n : Nat)
    (s1 : SimpleVector T) (hinv : SimpleVector.Inv s)
    (h : SimpleVector.Reserve s n = .ok s1) : SimpleVector.Inv s1 := by
  obtain ⟨s2, h2, _, _, hinv2, _⟩ :=
    SimpleVector.Reserve_spec s n hinv (SimpleVector.Reserve_mem s n s1 h)
  rw [h2] at h
  cases h
  exact hinv2

theorem SimpleVector.default_inv {T : Type} [Elem T] :
    SimpleVector.Inv (SimpleVector.ctor_default : SimpleVector T) :=
  ⟨Nat.le_refl 0, rfl, Nat.zero_le _⟩

theorem SimpleVector.copy_assign_inv {T : Type} [Elem T] (a b s1 : SimpleVector T)
    (hb : SimpleVector.Inv b) (h : SimpleVector.copy_assign a b = .ok s1) :
    SimpleVector.Inv s1 := by
  unfold SimpleVector.copy_assign at h
  cases hp : SimpleVector.ctor_copy b with
  | error e => rw [hp] at h; cases h
  | ok t =>
    rw [hp] at h
    cases h
    exact SimpleVector.ctor_copy_inv b t hb hp

/-- Every reachable vector satisfies the representation invariant. -/
theorem SimpleVector.Reachable.inv {T : Type} [Elem T] {s : SimpleVector T}
    (h : SimpleVector.Reachable s) : SimpleVector.Inv s := by
  induction h with
  | by_default => exact SimpleVector.default_inv
  | by_size n s h => exact SimpleVector.ctor_size_inv n s h
  | by_fill n v s h => exact SimpleVector.ctor_fill_inv n v s h
  | by_init l s h => exact SimpleVector.ctor_init_inv l s h
  | by_copy o s _ h ih => exact SimpleVector.ctor_copy_inv o s ih h
  | by_move o _ ih => exact ih
  | moved_from o _ _ => exact SimpleVector.default_inv
  | by_reserve r s h => exact SimpleVector.ctor_reserve_inv r s h
  | push_back s v s1 _ h ih => exact SimpleVector.PushBack_inv s v s1 ih h
  | push_back_rv s v r _ h ih => exact SimpleVector.PushBack_rv_inv s v r ih h
  | pop_back s s1 _ h ih => exact SimpleVector.PopBack_inv s s1 ih h
  | insert s pos v r _ h ih => exact SimpleVector.Insert_inv s pos v r ih h
  | insert_rv s pos v r _ h ih => exact SimpleVector.Insert_rv_inv s pos v r ih h
  | erase s pos r _ h ih => exact SimpleVector.Erase_inv s pos r ih h
  | clear s _ ih => exact ⟨Nat.zero_le _, ih.2.1, ih.2.2⟩
  | resize s n s1 _ h ih => exact SimpleVector.Resize_inv s n s1 ih h
  | reserve s n s1 _ h ih => exact SimpleVector.Reserve_inv s n s1 ih h
  | swap_this a b _ _ _ ihb => exact ihb
  | swap_other a b _ _ iha _ => exact iha
  | copy_assigned a b s1 _ _ h _ ihb => exact SimpleVector.copy_assign_inv a b s1 ihb h
  | copy_assigned_self a _ ih => exact ih
  | move_assigned a b _ _ _ ihb => exact ihb
  | move_assigned_from a b _ _ _ _ => exact SimpleVector.default_inv
  | move_assigned_self a _ ih => exact ih

/-! ## The claims -/

/-- `PushBack` of an object outside the vector.  On a vector satisfying the
representation invariant (in particular size <= capacity), and provided the
block of the new capacity can be allocated when size == capacity, both
`PushBack` overloads return the same vector: its size is the old size plus
one, the element at index old size is the pushed value, the elements at the
indices below the old size are the old ones in the same order, so that the
live elements are the old ones followed by the value. -/
theorem SimpleVector.PushBack_appends {T : Type} [Elem T] (s : SimpleVector T) (v : T)
    (hinv : SimpleVector.Inv s)
    (hmem : s.size_ = s.capacity_ →
      (if s.capacity_ = 0 then 1 else 2 * s.capacity_) ≤ maxCount T) :
    ∃ s', SimpleVector.PushBack s (.obj v) = .ok s' ∧
      SimpleVector.PushBack_rv s (.obj v) = .ok (s', .obj (Elem.moved v)) ∧
      s'.GetSize = s.GetSize + 1 ∧
      SimpleVector.op_index s' s.GetSize = .ok v ∧
      (∀ i, i < s.GetSize → SimpleVector.op_index s' i = SimpleVector.op_index s i) ∧
      SimpleVector.elems s' = SimpleVector.elems s ++ [v] := by
  obtain ⟨s', h1, h2, h3, _, hinv', h6⟩ := SimpleVector.PushBack_spec s v hinv hmem
  have hl : s.size_ ≤ s.data_.cells.length := by rw [hinv.2.1]; exact hinv.1
  have hl' : s'.size_ ≤ s'.data_.cells.length := by rw [hinv'.2.1]; exact hinv'.1
  have hlen := SimpleVector.elems_length s hl
  refine ⟨s', h1, h2, h3, ?_, ?_, h6⟩
  · rw [SimpleVector.op_index_eq s' _ hl', h6]
    simp [SimpleVector.GetSize, ← hlen]
  · intro i hi
    have hi2 : i < (SimpleVector.elems s).length := by rw [hlen]; exact hi
    rw [SimpleVector.op_index_eq s' _ hl', SimpleVector.op_index_eq s _ hl, h6,
      List.getElem?_append_left hi2]

/-- Both branches of `PushBack` on concrete vectors: a full one (the new
block has twice the cells, the unused ones default-constructed) and one with
a free cell (the cells after it keep their old values). -/
theorem PushBack_runs :
    SimpleVector.PushBack (⟨2, 2, ⟨some [1, 2]⟩⟩ : SimpleVector Nat) (.obj 3)
      = .ok ⟨3, 4, ⟨some [1, 2, 3, 0]⟩⟩ ∧
    SimpleVector.PushBack (⟨2, 4, ⟨some [1, 2, 7, 7]⟩⟩ : SimpleVector Nat) (.obj 3)
      = .ok ⟨3, 4, ⟨some [1, 2, 3, 7]⟩⟩ := by
  decide

/-- C1, `SimpleVector<int> v{1, 2}; v.PushBack(v[0]);`.  The vector is full
(size 2, capacity 2): `PushBack` moves the elements to a block of 4 cells, the
old block is deleted at the closing brace of the `if`, and `item`, which refers
to the first cell of the old block, is read afterwards.  Neither overload
returns a vector of size 3 ending with 1; the read is a fault, over block values
and over the free store alike (the block of address 1 is the old block).  With
a free cell (size 2, capacity 4) the same call does append the value of
`v[0]`. -/
theorem C1_PushBack_reads_deleted_block :
    SimpleVector.ctor_init ([1, 2] : List Int) = .ok ⟨2, 2, ⟨some [1, 2]⟩⟩ ∧
    SimpleVector.PushBack (⟨2, 2, ⟨some [1, 2]⟩⟩ : SimpleVector Int) (.cell 0)
      = .error .bad_access ∧
    SimpleVector.PushBack_rv (⟨2, 2, ⟨some [1, 2]⟩⟩ : SimpleVector Int) (.cell 0)
      = .error .bad_access ∧
    Mem.SimpleVector.PushBack (⟨[some [1, 2]], []⟩ : Mem.Heap Int) ⟨2, 2, ⟨1⟩⟩ (.cell 1 0)
      = .error .bad_access ∧
    SimpleVector.PushBack (⟨2, 4, ⟨some [1, 2, 7, 7]⟩⟩ : SimpleVector Int) (.cell 0)
      = .ok ⟨3, 4, ⟨some [1, 2, 1, 7]⟩⟩ := by
  decide

/-- C2. Every vector a program can hold, that is every vector made by one of
the seven constructors or left by `PushBack`, `PopBack`, `Insert`, `Erase`,
`Clear`, `Resize`, `Reserve`, `swap`, copy assignment or move assignment run
on such vectors within their preconditions, has `GetCapacity() >= GetSize()`. -/
theorem C2_capacity_ge_size {T : Type} [Elem T] (s : SimpleVector T)
    (h : SimpleVector.Reachable s) : s.GetCapacity ≥ s.GetSize :=
  (SimpleVector.Reachable.inv h).1

/-- C2 at the vector obtained from the initializer list `[1, 2, 3]` by
`PushBack(4)` and then `Erase(begin())`. -/
theorem C2_capacity_ge_size_witness :
    (⟨3, 6, ⟨some [2, 3, 4, 0, 0, 0]⟩⟩ : SimpleVector Nat).GetCapacity
      ≥ (⟨3, 6, ⟨some [2, 3, 4, 0, 0, 0]⟩⟩ : SimpleVector Nat).GetSize :=
  C2_capacity_ge_size _
    (SimpleVector.Reachable.erase ⟨4, 6, ⟨some [1, 2, 3, 4, 0, 0]⟩⟩ 0
      (⟨3, 6, ⟨some [2, 3, 4, 0, 0, 0]⟩⟩, 0)
      (SimpleVector.Reachable.push_back ⟨3, 3, ⟨some [1, 2, 3]⟩⟩ (.obj 4) _
        (SimpleVector.Reachable.by_init [1, 2, 3] _ (by decide)) (by decide))
      (by decide))

theorem SimpleVector.push_all_spec {T : Type} [Elem T] (vs : List T) :
    ∀ s : SimpleVector T, SimpleVector.Inv s →
      (s.capacity_ = 0 ∨ ∃ k, s.capacity_ = 2 ^ k ∧ 2 ^ k < 2 * s.size_) →
      (∀ k, 2 ^ k < 2 * (s.size_ + vs.length) → 2 ^ k ≤ maxCount T) →
      ∃ s', SimpleVector.push_all vs s = .ok s' ∧ SimpleVector.Inv s' ∧
        s'.size_ = s.size_ + vs.length ∧
        (s'.capacity_ = 0 ∨ ∃ k, s'.capacity_ = 2 ^ k ∧ 2 ^ k < 2 * s'.size_) := by
  induction vs with
  | nil =>
    intro s hinv hg _
    exact ⟨s, rfl, hinv, rfl, hg⟩
  | cons v vs ih =>
    intro s hinv hg hmem
    have hsc := hinv.1
    have hlen : (v :: vs).length = vs.length + 1 := rfl
    rw [hlen] at hmem
    have hm : s.size_ = s.capacity_ →
        (if s.capacity_ = 0 then 1 else 2 * s.capacity_) ≤ maxCount T := by
      intro he
      by_cases h0 : s.capacity_ = 0
      · have := hmem 0 (by omega)
        simpa [h0] using this
      · rcases hg with hg | ⟨k, hk1, _⟩
        · exact absurd hg h0
        · have := hmem (k + 1) (by rw [pow_succ]; omega)
          rw [pow_succ] at this
          simp only [h0, if_false]
          omega
    obtain ⟨s1, h1, _, hs1, hc1, hinv1, _⟩ := SimpleVector.PushBack_spec s v hinv hm
    have hg1 : s1.capacity_ = 0 ∨ ∃ k, s1.capacity_ = 2 ^ k ∧ 2 ^ k < 2 * s1.size_ := by
      right
      by_cases he : s.size_ = s.capacity_
      · by_cases h0 : s.capacity_ = 0
        · exact ⟨0, by simp [hc1, he, h0], by omega⟩
        · rcases hg with hg | ⟨k, hk1, _⟩
          · exact absurd hg h0
          · refine ⟨k + 1, ?_, ?_⟩
            · rw [hc1, pow_succ]; simp only [he, h0, if_true, if_false]; omega
            · rw [pow_succ]; omega
      · rcases hg with hg | ⟨k, hk1, hk2⟩
        · omega
        · exact ⟨k, by rw [hc1]; simp only [he, if_false]; exact hk1, by omega⟩
    obtain ⟨s2, h2, hinv2, hs2, hg2⟩ := ih s1 hinv1 hg1
      (by intro k hk; exact hmem k (by omega))
    refine ⟨s2, ?_, hinv2, by rw [hs2, hs1, hlen]; omega, hg2⟩
    simp only [SimpleVector.push_all, h1, h2, bind, Except.bind]

/-- One `PushBack` that returns keeps the invariant and the shape of the
capacity: 0, or a power of two below twice the size. -/
theorem SimpleVector.PushBack_growth {T : Type} [Elem T] (s : SimpleVector T) (r : Ref T)
    (s1 : SimpleVector T) (hinv : SimpleVector.Inv s)
    (hg : s.capacity_ = 0 ∨ ∃ k, s.capacity_ = 2 ^ k ∧ 2 ^ k < 2 * s.size_)
    (h : SimpleVector.PushBack s r = .ok s1) :
    SimpleVector.Inv s1 ∧ s1.size_ = s.size_ + 1 ∧
      (s1.capacity_ = 0 ∨ ∃ k, s1.capacity_ = 2 ^ k ∧ 2 ^ k < 2 * s1.size_) := by
  have hsc := hinv.1
  obtain ⟨x, hx⟩ := SimpleVector.PushBack_of_ref s r s1 h
  obtain ⟨s2, h2, _, hs1, hc1, hinv1, _⟩ :=
    SimpleVector.PushBack_spec s x hinv (SimpleVector.PushBack_mem s x hinv s1 hx)
  rw [h2] at hx
  cases hx
  refine ⟨hinv1, hs1, ?_⟩
  right
  by_cases he : s.size_ = s.capacity_
  · by_cases h0 : s.capacity_ = 0
    · exact ⟨0, by simp [hc1, he, h0], by omega⟩
    · rcases hg with hg | ⟨k, hk1, _⟩
      · exact absurd hg h0
      · refine ⟨k + 1, ?_, ?_⟩
        · rw [hc1, pow_succ]; simp only [he, h0, if_true, if_false]; omega
        · rw [pow_succ]; omega
  · rcases hg with hg | ⟨k, hk1, hk2⟩
    · omega
    · exact ⟨k, by rw [hc1]; simp only [he, if_false]; exact hk1, by omega⟩

theorem SimpleVector.push_refs_law {T : Type} [Elem T] (rs : List (Ref T)) :
    ∀ s s' : SimpleVector T, SimpleVector.Inv s →
      (s.capacity_ = 0 ∨ ∃ k, s.capacity_ = 2 ^ k ∧ 2 ^ k < 2 * s.size_) →
      SimpleVector.push_refs rs s = .ok s' →
      SimpleVector.Inv s' ∧ s'.size_ = s.size_ + rs.length ∧
        (s'.capacity_ = 0 ∨ ∃ k, s'.capacity_ = 2 ^ k ∧ 2 ^ k < 2 * s'.size_) := by
  induction rs with
  | nil =>
    intro s s' hinv hg h
    cases h
    exact ⟨hinv, rfl, hg⟩
  | cons r rs ih =>
    intro s s' hinv hg h
    simp only [SimpleVector.push_refs, bind, Except.bind] at h
    cases hp : SimpleVector.PushBack s r with
    | error e => rw [hp] at h; cases h
    | ok s1 =>
      rw [hp] at h
      simp only [] at h
      obtain ⟨hinv1, hs1, hg1⟩ := SimpleVector.PushBack_growth s r s1 hinv hg hp
      obtain ⟨hinv2, hs2, hg2⟩ := ih s1 s' hinv1 hg1 h
      refine ⟨hinv2, ?_, hg2⟩
      rw [hs2, hs1, List.length_cons]
      omega

/-- The capacity of a vector of size `n` whose capacity is 0 or a power of
two below `2 n`: 0 when `n = 0`, else the least power of two that is at least
`n`. -/
theorem SimpleVector.least_power {T : Type} [Elem T] (s : SimpleVector T) (n : Nat)
    (hinv : SimpleVector.Inv s) (hs : s.size_ = n)
    (hg : s.capacity_ = 0 ∨ ∃ k, s.capacity_ = 2 ^ k ∧ 2 ^ k < 2 * s.size_) :
    (n = 0 → s.GetCapacity = 0) ∧
    (n ≠ 0 → ∃ k, s.GetCapacity = 2 ^ k ∧ n ≤ 2 ^ k ∧ ∀ j, n ≤ 2 ^ j → k ≤ j) := by
  have hsc := hinv.1
  constructor
  · intro h0
    rcases hg with hg | ⟨k, _, hk2⟩
    · exact hg
    · omega
  · intro h0
    rcases hg with hg | ⟨k, hk1, hk2⟩
    · omega
    · refine ⟨k, hk1, by rw [← hk1, ← hs]; exact hsc, ?_⟩
      intro j hj
      have h3 : 2 ^ k < 2 ^ (j + 1) := by rw [pow_succ]; omega
      have h4 : k < j + 1 := (Nat.pow_lt_pow_iff_right (by norm_num)).mp h3
      omega

/-- C3. Growth law. Starting from a default-constructed vector, `n`
consecutive `PushBack` calls (the powers of two below `2 n` being allocatable)
return a vector of size `n` whose capacity is 0 when `n = 0` and otherwise the
smallest power of two that is at least `n`; a single `PushBack` that
returns, whatever its argument refers to, changes the capacity only when
size == capacity, to 1 when the old capacity is 0 and to twice the old capacity
otherwise; and whenever `n` consecutive `PushBack` calls return, whatever
their arguments refer to, the size is `n` and the capacity is as said. -/
theorem C3_growth_law {T : Type} [Elem T] (vs : List T)
    (hmem : ∀ k, 2 ^ k < 2 * vs.length → 2 ^ k ≤ maxCount T) :
    (∃ s', SimpleVector.push_all vs (SimpleVector.ctor_default : SimpleVector T) = .ok s' ∧
      s'.GetSize = vs.length ∧
      (vs.length = 0 → s'.GetCapacity = 0) ∧
      (vs.length ≠ 0 → ∃ k, s'.GetCapacity = 2 ^ k ∧ vs.length ≤ 2 ^ k ∧
        ∀ j, vs.length ≤ 2 ^ j → k ≤ j)) ∧
    (∀ (s : SimpleVector T) (v : Ref T) (s1 : SimpleVector T), SimpleVector.Inv s →
      SimpleVector.PushBack s v = .ok s1 →
      s1.GetCapacity = (if s.GetSize = s.GetCapacity then
        (if s.GetCapacity = 0 then 1 else 2 * s.GetCapacity) else s.GetCapacity)) ∧
    (∀ (rs : List (Ref T)) (s' : SimpleVector T),
      SimpleVector.push_refs rs (SimpleVector.ctor_default : SimpleVector T) = .ok s' →
      s'.GetSize = rs.length ∧
      (rs.length = 0 → s'.GetCapacity = 0) ∧
      (rs.length ≠ 0 → ∃ k, s'.GetCapacity = 2 ^ k ∧ rs.length ≤ 2 ^ k ∧
        ∀ j, rs.length ≤ 2 ^ j → k ≤ j)) := by
  refine ⟨?_, ?_, ?_⟩
  · obtain ⟨s', h1, hinv, hs, hg⟩ := SimpleVector.push_all_spec vs
      (SimpleVector.ctor_default : SimpleVector T) SimpleVector.default_inv (Or.inl rfl)
      (by intro k hk; exact hmem k (by simpa [SimpleVector.ctor_default] using hk))
    have hs' : s'.size_ = vs.length := by simpa [SimpleVector.ctor_default] using hs
    have hl := SimpleVector.least_power s' vs.length hinv hs' hg
    exact ⟨s', h1, hs', hl.1, hl.2⟩
  · intro s v s1 hinv h
    obtain ⟨x, hx⟩ := SimpleVector.PushBack_of_ref s v s1 h
    obtain ⟨s2, h2, _, _, hc, _⟩ :=
      SimpleVector.PushBack_spec s x hinv (SimpleVector.PushBack_mem s x hinv s1 hx)
    rw [h2] at hx
    cases hx
    exact hc
  · intro rs s' h
    obtain ⟨hinv, hs, hg⟩ := SimpleVector.push_refs_law rs
      (SimpleVector.ctor_default : SimpleVector T) s' SimpleVector.default_inv (Or.inl rfl) h
    have hs' : s'.size_ = rs.length := by simpa [SimpleVector.ctor_default] using hs
    have hl := SimpleVector.least_power s' rs.length hinv hs' hg
    exact ⟨hs', hl.1, hl.2⟩

/-- C3 for five pushes: the capacity is 8, the smallest power of two >= 5. -/
theorem C3_growth_law_witness :
    (∃ s', SimpleVector.push_all [1, 2, 3, 4, 5]
        (SimpleVector.ctor_default : SimpleVector Nat) = .ok s' ∧
      s'.GetSize = [1, 2, 3, 4, 5].length ∧
      ([1, 2, 3, 4, 5].length = 0 → s'.GetCapacity = 0) ∧
      ([1, 2, 3, 4, 5].length ≠ 0 → ∃ k, s'.GetCapacity = 2 ^ k ∧
        [1, 2, 3, 4, 5].length ≤ 2 ^ k ∧ ∀ j, [1, 2, 3, 4, 5].length ≤ 2 ^ j → k ≤ j)) ∧
    (∀ (s : SimpleVector Nat) (v : Ref Nat) (s1 : SimpleVector Nat), SimpleVector.Inv s →
      SimpleVector.PushBack s v = .ok s1 →
      s1.GetCapacity = (if s.GetSize = s.GetCapacity then
        (if s.GetCapacity = 0 then 1 else 2 * s.GetCapacity) else s.GetCapacity)) ∧
    (∀ (rs : List (Ref Nat)) (s' : SimpleVector Nat),
      SimpleVector.push_refs rs (SimpleVector.ctor_default : SimpleVector Nat) = .ok s' →
      s'.GetSize = rs.length ∧
      (rs.length = 0 → s'.GetCapacity = 0) ∧
      (rs.length ≠ 0 → ∃ k, s'.GetCapacity = 2 ^ k ∧ rs.length ≤ 2 ^ k ∧
        ∀ j, rs.length ≤ 2 ^ j → k ≤ j)) :=
  C3_growth_law [1, 2, 3, 4, 5] (by
    intro k hk
    have h : (2 : Nat) ^ k < 10 := hk
    show 2 ^ k ≤ 2 ^ 63 - 1
    omega)

/-- The capacities seen while pushing onto a default-constructed vector. -/
theorem push_all_runs :
    SimpleVector.push_all [] (SimpleVector.ctor_default : SimpleVector Nat)
      = .ok ⟨0, 0, ⟨none⟩⟩ ∧
    SimpleVector.push_all [1] (SimpleVector.ctor_default : SimpleVector Nat)
      = .ok ⟨1, 1, ⟨some [1]⟩⟩ ∧
    SimpleVector.push_all [1, 2] (SimpleVector.ctor_default : SimpleVector Nat)
      = .ok ⟨2, 2, ⟨some [1, 2]⟩⟩ ∧
    SimpleVector.push_all [1, 2, 3] (SimpleVector.ctor_default : SimpleVector Nat)
      = .ok ⟨3, 4, ⟨some [1, 2, 3, 0]⟩⟩ ∧
    SimpleVector.push_all [1, 2, 3, 4, 5] (SimpleVector.ctor_default : SimpleVector Nat)
      = .ok ⟨5, 8, ⟨some [1, 2, 3, 4, 5, 0, 0, 0]⟩⟩ := by
  decide

/-- Pushes whose arguments refer to elements of the vector: after three
pushes the capacity is 4, so `v.PushBack(v[0])` has room and returns; the
vector is then full, and `v.PushBack(v[1])` does not return. -/
theorem push_refs_runs :
    SimpleVector.push_refs [.obj 1, .obj 2, .obj 3, .cell 0]
        (SimpleVector.ctor_default : SimpleVector Int)
      = .ok ⟨4, 4, ⟨some [1, 2, 3, 1]⟩⟩ ∧
    SimpleVector.push_refs [.obj 1, .obj 2, .obj 3, .cell 0, .cell 1]
        (SimpleVector.ctor_default : SimpleVector Int)
      = .error .bad_access := by
  decide

/-- `Insert` of an object outside the vector.  On a vector satisfying the
invariant, with live elements `xs`, and for a cursor `begin() + i` with
`i <= size` (the block of the new capacity being allocatable when
size == capacity), both `Insert` overloads return the same vector and the
cursor `begin() + i`; the live elements are `xs[0..i)`, then the value, then
`xs[i..size)`; the size has grown by one; the element under the returned cursor
is the inserted value. -/
theorem SimpleVector.Insert_at_cursor {T : Type} [Elem T] (s : SimpleVector T) (i : Nat)
    (v : T) (hinv : SimpleVector.Inv s) (hi : i ≤ s.GetSize)
    (hmem : s.size_ = s.capacity_ →
      (if s.capacity_ = 0 then 1 else 2 * s.capacity_) ≤ maxCount T) :
    ∃ s', SimpleVector.Insert s i (.obj v) = .ok (s', i) ∧
      SimpleVector.Insert_rv s i (.obj v) = .ok ((s', i), .obj (Elem.moved v)) ∧
      SimpleVector.elems s'
        = (SimpleVector.elems s).take i ++ v :: (SimpleVector.elems s).drop i ∧
      s'.GetSize = s.GetSize + 1 ∧
      SimpleVector.op_index s' i = .ok v := by
  obtain ⟨s', h1, h2, h3, _, hinv', h6⟩ := SimpleVector.Insert_spec s i v hinv hi hmem
  have hl : s.size_ ≤ s.data_.cells.length := by rw [hinv.2.1]; exact hinv.1
  have hl' : s'.size_ ≤ s'.data_.cells.length := by rw [hinv'.2.1]; exact hinv'.1
  have hlen := SimpleVector.elems_length s hl
  have hi' : i ≤ s.size_ := hi
  have htl : ((SimpleVector.elems s).take i).length = i := by
    rw [List.length_take, hlen]; omega
  refine ⟨s', h1, h2, h6, h3, ?_⟩
  rw [SimpleVector.op_index_eq s' _ hl', h6, List.getElem?_append_right (by rw [htl]), htl]
  simp

/-- The three insertions of the specification on `[10, 20, 30]`, at `begin()`,
`end()` and `begin() + 1`, in the reallocating branch (capacity 3) and in the
in-place branch (capacity 4, last cell holding 7). -/
theorem Insert_runs :
    SimpleVector.Insert (⟨3, 3, ⟨some [10, 20, 30]⟩⟩ : SimpleVector Nat) 0 (.obj 99)
      = .ok (⟨4, 6, ⟨some [99, 10, 20, 30, 0, 0]⟩⟩, 0) ∧
    SimpleVector.Insert (⟨3, 3, ⟨some [10, 20, 30]⟩⟩ : SimpleVector Nat) 3 (.obj 99)
      = .ok (⟨4, 6, ⟨some [10, 20, 30, 99, 0, 0]⟩⟩, 3) ∧
    SimpleVector.Insert (⟨3, 3, ⟨some [10, 20, 30]⟩⟩ : SimpleVector Nat) 1 (.obj 99)
      = .ok (⟨4, 6, ⟨some [10, 99, 20, 30, 0, 0]⟩⟩, 1) ∧
    SimpleVector.Insert (⟨3, 4, ⟨some [10, 20, 30, 7]⟩⟩ : SimpleVector Nat) 0 (.obj 99)
      = .ok (⟨4, 4, ⟨some [99, 10, 20, 30]⟩⟩, 0) ∧
    SimpleVector.Insert (⟨3, 4, ⟨some [10, 20, 30, 7]⟩⟩ : SimpleVector Nat) 3 (.obj 99)
      = .ok (⟨4, 4, ⟨some [10, 20, 30, 99]⟩⟩, 3) ∧
    SimpleVector.Insert (⟨3, 4, ⟨some [10, 20, 30, 7]⟩⟩ : SimpleVector Nat) 1 (.obj 99)
      = .ok (⟨4, 4, ⟨some [10, 99, 20, 30]⟩⟩, 1) ∧
    SimpleVector.Insert (⟨3, 4, ⟨some [10, 20, 30, 7]⟩⟩ : SimpleVector Nat) 4 (.obj 99)
      = .error .assert_failed := by
  decide

/-- C4, `SimpleVector<int> v{10, 20, 30, 7}; v.PopBack(); v.Insert(v.begin(), v[2]);`.
The vector holds `[10, 20, 30]` with one free cell, so `Insert` shifts the
elements one cell to the right and reads `value` afterwards: `v[2]` then holds
20, and the result is `[20, 10, 20, 30]`, not `[30, 10, 20, 30]`; the same
over the free store (the block has address 1).  On the full vector
`[10, 20, 30]` the same call goes through the other branch, which reads `value`
before the elements after the cursor are moved, and gives `[30, 10, 20, 30]`. -/
theorem C4_Insert_reads_shifted_cell :
    SimpleVector.ctor_init ([10, 20, 30, 7] : List Int)
      = .ok ⟨4, 4, ⟨some [10, 20, 30, 7]⟩⟩ ∧
    SimpleVector.PopBack (⟨4, 4, ⟨some [10, 20, 30, 7]⟩⟩ : SimpleVector Int)
      = .ok ⟨3, 4, ⟨some [10, 20, 30, 7]⟩⟩ ∧
    SimpleVector.Insert (⟨3, 4, ⟨some [10, 20, 30, 7]⟩⟩ : SimpleVector Int) 0 (.cell 2)
      = .ok (⟨4, 4, ⟨some [20, 10, 20, 30]⟩⟩, 0) ∧
    Mem.SimpleVector.Insert (⟨[some [10, 20, 30, 7]], []⟩ : Mem.Heap Int) ⟨3, 4, ⟨1⟩⟩ 0
        (.cell 1 2)
      = .ok (⟨[some [20, 10, 20, 30]], []⟩, ⟨4, 4, ⟨1⟩⟩, 0) ∧
    SimpleVector.Insert (⟨3, 3, ⟨some [10, 20, 30]⟩⟩ : SimpleVector Int) 0 (.cell 2)
      = .ok (⟨4, 6, ⟨some [30, 10, 20, 30, 0, 0]⟩⟩, 0) := by
  decide

/-- C5. On a vector satisfying the invariant, with live elements `xs`, and for
a cursor `begin() + i` with `i < size`, `Erase` returns a vector whose live
elements are `xs[0..i)` followed by `xs[i+1..size)`, that is `xs` without its
element of index `i`; the size has decreased by one, the capacity is the same,
and the returned cursor is `begin() + i`: it is at the element that followed
the erased one, or is `end()` when the last element was erased. -/
theorem C5_Erase_at_cursor {T : Type} [Elem T] (s : SimpleVector T) (i : Nat)
    (hinv : SimpleVector.Inv s) (hi : i < s.GetSize) :
    ∃ s', SimpleVector.Erase s i = .ok (s', i) ∧
      SimpleVector.elems s'
        = (SimpleVector.elems s).take i ++ (SimpleVector.elems s).drop (i + 1) ∧
      SimpleVector.elems s' = (SimpleVector.elems s).eraseIdx i ∧
      s'.GetSize + 1 = s.GetSize ∧
      s'.GetCapacity = s.GetCapacity ∧
      (i + 1 < s.GetSize → SimpleVector.op_index s' i = SimpleVector.op_index s (i + 1)) ∧
      (i + 1 = s.GetSize → i = s'.GetSize) := by
  obtain ⟨s', h1, h2, h3, hinv', h5⟩ := SimpleVector.Erase_spec s i hinv hi
  have hl : s.size_ ≤ s.data_.cells.length := by rw [hinv.2.1]; exact hinv.1
  have hl' : s'.size_ ≤ s'.data_.cells.length := by rw [hinv'.2.1]; exact hinv'.1
  have hlen := SimpleVector.elems_length s hl
  have hi' : i < s.size_ := hi
  have htl : ((SimpleVector.elems s).take i).length = i := by
    rw [List.length_take, hlen]; omega
  refine ⟨s', h1, h5, ?_, ?_, h3, ?_, ?_⟩
  · rw [h5, List.eraseIdx_eq_take_drop_succ]
  · show s'.size_ + 1 = s.size_
    omega
  · intro _
    rw [SimpleVector.op_index_eq s' _ hl', SimpleVector.op_index_eq s _ hl, h5,
      List.getElem?_append_right (by rw [htl]), htl, List.getElem?_drop]
    simp
  · intro h
    show i = s'.size_
    have : i + 1 = s.size_ := h
    omega

/-- C5 on `[10, 20, 30]`, erasing at `begin() + 1`. -/
theorem C5_Erase_at_cursor_witness :
    ∃ s', SimpleVector.Erase (⟨3, 3, ⟨some [10, 20, 30]⟩⟩ : SimpleVector Nat) 1 = .ok (s', 1) ∧
      SimpleVector.elems s'
        = (SimpleVector.elems (⟨3, 3, ⟨some [10, 20, 30]⟩⟩ : SimpleVector Nat)).take 1
          ++ (SimpleVector.elems (⟨3, 3, ⟨some [10, 20, 30]⟩⟩ : SimpleVector Nat)).drop (1 + 1) ∧
      SimpleVector.elems s'
        = (SimpleVector.elems (⟨3, 3, ⟨some [10, 20, 30]⟩⟩ : SimpleVector Nat)).eraseIdx 1 ∧
      s'.GetSize + 1 = (⟨3, 3, ⟨some [10, 20, 30]⟩⟩ : SimpleVector Nat).GetSize ∧
      s'.GetCapacity = (⟨3, 3, ⟨some [10, 20, 30]⟩⟩ : SimpleVector Nat).GetCapacity ∧
      (1 + 1 < (⟨3, 3, ⟨some [10, 20, 30]⟩⟩ : SimpleVector Nat).GetSize →
        SimpleVector.op_index s' 1
          = SimpleVector.op_index (⟨3, 3, ⟨some [10, 20, 30]⟩⟩ : SimpleVector Nat) (1 + 1)) ∧
      (1 + 1 = (⟨3, 3, ⟨some [10, 20, 30]⟩⟩ : SimpleVector Nat).GetSize → 1 = s'.GetSize) :=
  C5_Erase_at_cursor _ 1 (by decide) (by decide)

/-- The erasures of the specification on `[10, 20, 30]`; the cell freed at the
end keeps the moved-from object, the erased last cell keeps its value. -/
theorem Erase_runs :
    SimpleVector.Erase (⟨3, 3, ⟨some [10, 20, 30]⟩⟩ : SimpleVector Nat) 0
      = .ok (⟨2, 3, ⟨some [20, 30, 0]⟩⟩, 0) ∧
    SimpleVector.Erase (⟨3, 3, ⟨some [10, 20, 30]⟩⟩ : SimpleVector Nat) 1
      = .ok (⟨2, 3, ⟨some [10, 30, 0]⟩⟩, 1) ∧
    SimpleVector.Erase (⟨3, 3, ⟨some [10, 20, 30]⟩⟩ : SimpleVector Nat) 2
      = .ok (⟨2, 3, ⟨some [10, 20, 30]⟩⟩, 2) ∧
    SimpleVector.Erase (⟨3, 3, ⟨some [10, 20, 30]⟩⟩ : SimpleVector Nat) 3
      = .error .assert_failed := by
  decide

/-- C6. `At(i)` throws `out_of_range` exactly when `i >= GetSize()`, whatever
the capacity; and on a vector satisfying the invariant, for `i < GetSize()` it
returns an element, the one `operator[](i)` returns.  `At` only produces a
value: the vector it is called on is not altered. -/
theorem C6_At_checked {T : Type} [Elem T] (s : SimpleVector T) (i : Nat)
    (hinv : SimpleVector.Inv s) :
    (SimpleVector.At s i = .error .out_of_range ↔ i ≥ s.GetSize) ∧
    (i < s.GetSize → ∃ x, SimpleVector.At s i = .ok x ∧ SimpleVector.op_index s i = .ok x ∧
      (SimpleVector.elems s)[i]? = some x) := by
  have hl : s.size_ ≤ s.data_.cells.length := by rw [hinv.2.1]; exact hinv.1
  have hlen := SimpleVector.elems_length s hl
  constructor
  · constructor
    · intro h
      by_contra hc
      have hi : i < (SimpleVector.elems s).length := by
        rw [hlen]; exact Nat.lt_of_not_ge hc
      rw [SimpleVector.At_eq s i hl, List.getElem?_eq_getElem hi] at h
      cases h
    · intro h
      have hge : i ≥ s.size_ := h
      simp [SimpleVector.At, hge]
  · intro hi
    have hi2 : i < (SimpleVector.elems s).length := by rw [hlen]; exact hi
    refine ⟨(SimpleVector.elems s)[i], ?_, ?_, List.getElem?_eq_getElem hi2⟩
    · rw [SimpleVector.At_eq s i hl, List.getElem?_eq_getElem hi2]
    · rw [SimpleVector.op_index_eq s i hl, List.getElem?_eq_getElem hi2]

/-- C6 on a vector of size 2 and capacity 4, at the index 2 of the slack. -/
theorem C6_At_checked_witness :
    (SimpleVector.At (⟨2, 4, ⟨some [10, 20, 7, 7]⟩⟩ : SimpleVector Nat) 2
        = .error .out_of_range ↔
      2 ≥ (⟨2, 4, ⟨some [10, 20, 7, 7]⟩⟩ : SimpleVector Nat).GetSize) ∧
    (2 < (⟨2, 4, ⟨some [10, 20, 7, 7]⟩⟩ : SimpleVector Nat).GetSize →
      ∃ x, SimpleVector.At (⟨2, 4, ⟨some [10, 20, 7, 7]⟩⟩ : SimpleVector Nat) 2 = .ok x ∧
        SimpleVector.op_index (⟨2, 4, ⟨some [10, 20, 7, 7]⟩⟩ : SimpleVector Nat) 2 = .ok x ∧
        (SimpleVector.elems (⟨2, 4, ⟨some [10, 20, 7, 7]⟩⟩ : SimpleVector Nat))[2]? = some x) :=
  C6_At_checked _ 2 (by decide)

/-- The indices `0 .. capacity + 4` on a vector of size 2 and capacity 4. -/
theorem At_runs :
    (List.range 9).map (SimpleVector.At (⟨2, 4, ⟨some [10, 20, 7, 7]⟩⟩ : SimpleVector Nat))
      = [.ok 10, .ok 20, .error .out_of_range, .error .out_of_range, .error .out_of_range,
         .error .out_of_range, .error .out_of_range, .error .out_of_range,
         .error .out_of_range] := by
  decide

/-- In the reallocating branch of `Resize` the newly exposed elements are
default-constructed: they are cells of the fresh block. -/
theorem Resize_new_block_default {T : Type} [Elem T] (s : SimpleVector T) (n : Nat)
    (hinv : SimpleVector.Inv s) (hn : s.GetCapacity < n)
    (hmem : max n (2 * s.capacity_) ≤ maxCount T) :
    ∃ s', SimpleVector.Resize s n = .ok s' ∧
      ∀ k, s.GetSize ≤ k → k < n → SimpleVector.op_index s' k = .ok Elem.dflt := by
  obtain ⟨s', h1, h2, _, hinv', _, h6, _⟩ := SimpleVector.Resize_spec s n hinv (fun _ => hmem)
  have hl' : s'.size_ ≤ s'.data_.cells.length := by rw [hinv'.2.1]; exact hinv'.1
  refine ⟨s', h1, ?_⟩
  intro k hk1 hk2
  have hk3 : k < s'.size_ := by rw [h2]; exact hk2
  simp only [SimpleVector.op_index, hk3, if_true, rd, h6 hn k hk1 hk2]

/-- In the other branch of `Resize` the block is kept as it is: the newly
exposed elements are whatever the cells `[size, new_size)` held. -/
theorem Resize_same_block_cells {T : Type} [Elem T] (s : SimpleVector T) (n : Nat)
    (hn : n ≤ s.GetCapacity) :
    SimpleVector.Resize s n = .ok { s with size_ := n } := by
  have hgt : ¬ n > s.capacity_ := Nat.not_lt.mpr hn
  simp only [SimpleVector.Resize, hgt, if_false, bind, Except.bind, pure, Except.pure]

/-- Calling `PopBack()` followed by `Resize` to the old size gives the vector back as
it was: the element exposed again is the one that had been popped. -/
theorem PopBack_then_Resize {T : Type} [Elem T] (s : SimpleVector T)
    (hinv : SimpleVector.Inv s) (hpos : 0 < s.GetSize) :
    ∃ s1, SimpleVector.PopBack s = .ok s1 ∧ SimpleVector.Resize s1 s.GetSize = .ok s := by
  have hpos' : 0 < s.size_ := hpos
  refine ⟨{ s with size_ := s.size_ - 1 }, by simp [SimpleVector.PopBack, hpos'], ?_⟩
  exact Resize_same_block_cells _ _ hinv.1

/-- C7 at `[1, 2, 3]` (size 3, capacity 3): after `PopBack()` the call
`Resize(3)` exposes the element of index 2 again, and it is the old value 3,
not the default-constructed value 0. -/
theorem C7_Resize_exposes_old_value :
    SimpleVector.PopBack (⟨3, 3, ⟨some [1, 2, 3]⟩⟩ : SimpleVector Nat)
      = .ok ⟨2, 3, ⟨some [1, 2, 3]⟩⟩ ∧
    SimpleVector.Resize (⟨2, 3, ⟨some [1, 2, 3]⟩⟩ : SimpleVector Nat) 3
      = .ok ⟨3, 3, ⟨some [1, 2, 3]⟩⟩ ∧
    SimpleVector.op_index (⟨3, 3, ⟨some [1, 2, 3]⟩⟩ : SimpleVector Nat) 2 = .ok 3 ∧
    (3 : Nat) ≠ Elem.dflt := by
  decide

/-- The fill constructor runs the statements of the sized constructor. -/
theorem ctor_fill_eq_ctor_size {T : Type} [Elem T] (n : Nat) (v : T) :
    (SimpleVector.ctor_fill n v : Res (SimpleVector T)) = SimpleVector.ctor_size n := rfl

/-- C8 at `SimpleVector(3, 7)`: size 3 and capacity 3, but the three elements
are default-constructed (0), none is the fill value 7. -/
theorem C8_fill_value_ignored :
    (SimpleVector.ctor_fill 3 7 : Res (SimpleVector Nat)) = .ok ⟨3, 3, ⟨some [0, 0, 0]⟩⟩ ∧
    SimpleVector.elems (⟨3, 3, ⟨some [0, 0, 0]⟩⟩ : SimpleVector Nat) = [0, 0, 0] ∧
    SimpleVector.op_index (⟨3, 3, ⟨some [0, 0, 0]⟩⟩ : SimpleVector Nat) 0 = .ok 0 := by
  decide

/-- C9. On a vector satisfying the invariant (the block of the new capacity
being allocatable when `new_size > capacity`), `Resize(new_size)` returns a
vector of size exactly `new_size`, of capacity `max(new_size, 2 * capacity)`
when `new_size > capacity` and of the same capacity otherwise, whose elements
at the indices below `min(size, new_size)` are the old ones; and `Resize(size)`
on the result returns a vector of the original size. -/
theorem C9_Resize_size_capacity {T : Type} [Elem T] (s : SimpleVector T) (n : Nat)
    (hinv : SimpleVector.Inv s)
    (hmem : s.capacity_ < n → max n (2 * s.capacity_) ≤ maxCount T) :
    ∃ s', SimpleVector.Resize s n = .ok s' ∧
      s'.GetSize = n ∧
      s'.GetCapacity = (if n > s.GetCapacity then max n (2 * s.GetCapacity)
        else s.GetCapacity) ∧
      (∀ i, i < min s.GetSize n → SimpleVector.op_index s' i = SimpleVector.op_index s i) ∧
      (SimpleVector.elems s').take (min s.GetSize n)
        = (SimpleVector.elems s).take (min s.GetSize n) ∧
      ∃ s'', SimpleVector.Resize s' s.GetSize = .ok s'' ∧ s''.GetSize = s.GetSize := by
  obtain ⟨s', h1, h2, h3, hinv', h5, _, _⟩ := SimpleVector.Resize_spec s n hinv hmem
  have hsc := hinv.1
  have hcap' : s.capacity_ ≤ s'.capacity_ := by
    rw [h3]; split_ifs <;> omega
  obtain ⟨s'', h1', h2', _⟩ := SimpleVector.Resize_spec s' s.size_ hinv'
    (fun h => absurd h (by omega))
  refine ⟨s', h1, h2, h3, ?_, ?_, s'', h1', h2'⟩
  · intro i hi
    have hi1 : i < s.size_ := lt_of_lt_of_le hi (Nat.min_le_left _ _)
    have hi2 : i < s'.size_ := by rw [h2]; exact lt_of_lt_of_le hi (Nat.min_le_right _ _)
    simp only [SimpleVector.op_index, hi1, hi2, if_true, rd, h5 i hi1]
  · apply List.ext_getElem?
    intro k
    by_cases hk : k < min s.GetSize n
    · have hk1 : k < s.size_ := lt_of_lt_of_le hk (Nat.min_le_left _ _)
      have hk2 : k < s'.size_ := by rw [h2]; exact lt_of_lt_of_le hk (Nat.min_le_right _ _)
      simp only [SimpleVector.elems]
      rw [List.getElem?_take_of_lt hk, List.getElem?_take_of_lt hk,
        List.getElem?_take_of_lt hk1, List.getElem?_take_of_lt hk2, h5 k hk1]
    · rw [List.getElem?_eq_none (by simp only [List.length_take]; omega),
        List.getElem?_eq_none (by simp only [List.length_take]; omega)]

/-- C9 on `[1, 2, 3]` (capacity 3) with the new size 7. -/
theorem C9_Resize_size_capacity_witness :
    ∃ s', SimpleVector.Resize (⟨3, 3, ⟨some [1, 2, 3]⟩⟩ : SimpleVector Nat) 7 = .ok s' ∧
      s'.GetSize = 7 ∧
      s'.GetCapacity = (if 7 > (⟨3, 3, ⟨some [1, 2, 3]⟩⟩ : SimpleVector Nat).GetCapacity then
          max 7 (2 * (⟨3, 3, ⟨some [1, 2, 3]⟩⟩ : SimpleVector Nat).GetCapacity)
        else (⟨3, 3, ⟨some [1, 2, 3]⟩⟩ : SimpleVector Nat).GetCapacity) ∧
      (∀ i, i < min (⟨3, 3, ⟨some [1, 2, 3]⟩⟩ : SimpleVector Nat).GetSize 7 →
        SimpleVector.op_index s' i
          = SimpleVector.op_index (⟨3, 3, ⟨some [1, 2, 3]⟩⟩ : SimpleVector Nat) i) ∧
      (SimpleVector.elems s').take (min (⟨3, 3, ⟨some [1, 2, 3]⟩⟩ : SimpleVector Nat).GetSize 7)
        = (SimpleVector.elems (⟨3, 3, ⟨some [1, 2, 3]⟩⟩ : SimpleVector Nat)).take
            (min (⟨3, 3, ⟨some [1, 2, 3]⟩⟩ : SimpleVector Nat).GetSize 7) ∧
      ∃ s'', SimpleVector.Resize s' (⟨3, 3, ⟨some [1, 2, 3]⟩⟩ : SimpleVector Nat).GetSize
          = .ok s'' ∧
        s''.GetSize = (⟨3, 3, ⟨some [1, 2, 3]⟩⟩ : SimpleVector Nat).GetSize :=
  C9_Resize_size_capacity _ 7 (by decide) (by decide)

/-- The branches of `Resize` on `[1, 2, 3]`: growth to `max(7, 6)` and to
`max(4, 6)`, and the two calls that keep the block. -/
theorem Resize_runs :
    SimpleVector.Resize (⟨3, 3, ⟨some [1, 2, 3]⟩⟩ : SimpleVector Nat) 7
      = .ok ⟨7, 7, ⟨some [1, 2, 3, 0, 0, 0, 0]⟩⟩ ∧
    SimpleVector.Resize (⟨3, 3, ⟨some [1, 2, 3]⟩⟩ : SimpleVector Nat) 4
      = .ok ⟨4, 6, ⟨some [1, 2, 3, 0, 0, 0]⟩⟩ ∧
    SimpleVector.Resize (⟨3, 3, ⟨some [1, 2, 3]⟩⟩ : SimpleVector Nat) 1
      = .ok ⟨1, 3, ⟨some [1, 2, 3]⟩⟩ ∧
    SimpleVector.Resize (⟨1, 3, ⟨some [1, 2, 3]⟩⟩ : SimpleVector Nat) 3
      = .ok ⟨3, 3, ⟨some [1, 2, 3]⟩⟩ := by
  decide

/-- C10. On a vector satisfying the invariant (the block of `new_capacity`
cells being allocatable when `new_capacity > capacity`), `Reserve` returns a
vector with the same size and the same live elements in the same order, whose
capacity is exactly `new_capacity` when `new_capacity > capacity` and is the
old capacity otherwise. -/
theorem C10_Reserve_frame {T : Type} [Elem T] (s : SimpleVector T) (n : Nat)
    (hinv : SimpleVector.Inv s) (hmem : s.capacity_ < n → n ≤ maxCount T) :
    ∃ s', SimpleVector.Reserve s n = .ok s' ∧
      s'.GetSize = s.GetSize ∧
      SimpleVector.elems s' = SimpleVector.elems s ∧
      (∀ i, SimpleVector.op_index s' i = SimpleVector.op_index s i) ∧
      (n > s.GetCapacity → s'.GetCapacity = n) ∧
      (n ≤ s.GetCapacity → s'.GetCapacity = s.GetCapacity) := by
  obtain ⟨s', h1, h2, h3, hinv', h5⟩ := SimpleVector.Reserve_spec s n hinv hmem
  have hl : s.size_ ≤ s.data_.cells.length := by rw [hinv.2.1]; exact hinv.1
  have hl' : s'.size_ ≤ s'.data_.cells.length := by rw [hinv'.2.1]; exact hinv'.1
  refine ⟨s', h1, h2, h5, ?_, ?_, ?_⟩
  · intro i
    rw [SimpleVector.op_index_eq s' i hl', SimpleVector.op_index_eq s i hl, h5]
  · intro hn
    have hn' : s.capacity_ < n := hn
    show s'.capacity_ = n
    rw [h3, if_pos hn']
  · intro hn
    have hn' : ¬ s.capacity_ < n := Nat.not_lt.mpr hn
    show s'.capacity_ = s.capacity_
    rw [h3, if_neg hn']

/-- C10 on a vector of size 2 and capacity 3 with the new capacity 5. -/
theorem C10_Reserve_frame_witness :
    ∃ s', SimpleVector.Reserve (⟨2, 3, ⟨some [1, 2, 9]⟩⟩ : SimpleVector Nat) 5 = .ok s' ∧
      s'.GetSize = (⟨2, 3, ⟨some [1, 2, 9]⟩⟩ : SimpleVector Nat).GetSize ∧
      SimpleVector.elems s' = SimpleVector.elems (⟨2, 3, ⟨some [1, 2, 9]⟩⟩ : SimpleVector Nat) ∧
      (∀ i, SimpleVector.op_index s' i
        = SimpleVector.op_index (⟨2, 3, ⟨some [1, 2, 9]⟩⟩ : SimpleVector Nat) i) ∧
      (5 > (⟨2, 3, ⟨some [1, 2, 9]⟩⟩ : SimpleVector Nat).GetCapacity → s'.GetCapacity = 5) ∧
      (5 ≤ (⟨2, 3, ⟨some [1, 2, 9]⟩⟩ : SimpleVector Nat).GetCapacity →
        s'.GetCapacity = (⟨2, 3, ⟨some [1, 2, 9]⟩⟩ : SimpleVector Nat).GetCapacity) :=
  C10_Reserve_frame _ 5 (by decide) (by decide)

/-- Both branches of `Reserve` on a vector of size 2 and capacity 3. -/
theorem Reserve_runs :
    SimpleVector.Reserve (⟨2, 3, ⟨some [1, 2, 9]⟩⟩ : SimpleVector Nat) 5
      = .ok ⟨2, 5, ⟨some [1, 2, 0, 0, 0]⟩⟩ ∧
    SimpleVector.Reserve (⟨2, 3, ⟨some [1, 2, 9]⟩⟩ : SimpleVector Nat) 2
      = .ok ⟨2, 3, ⟨some [1, 2, 9]⟩⟩ := by
  decide

/-! ## Comparisons -/

theorem drop_take_succ {T : Type} (b : List T) (f n : Nat) (h : f + (n + 1) ≤ b.length) :
    (b.drop f).take (n + 1) = b[f] :: (b.drop (f + 1)).take n := by
  have hf : f < b.length := by omega
  rw [List.drop_eq_getElem_cons hf, List.take_succ_cons]

theorem equal_loop_spec {T : Type} [ElemOrd T] (n : Nat) :
    ∀ (b1 : List T) (f1 : Nat) (b2 : List T) (f2 : Nat),
      f1 + n ≤ b1.length → f2 + n ≤ b2.length →
      equal_loop n b1 f1 b2 f2 = .ok (listEq ((b1.drop f1).take n) ((b2.drop f2).take n)) := by
  induction n with
  | zero => intro b1 f1 b2 f2 _ _; simp [equal_loop, listEq]
  | succ n ih =>
    intro b1 f1 b2 f2 h1 h2
    have hf1 : f1 < b1.length := by omega
    have hf2 : f2 < b2.length := by omega
    rw [drop_take_succ b1 f1 n h1, drop_take_succ b2 f2 n h2]
    simp only [equal_loop, rd_ok _ _ hf1, rd_ok _ _ hf2, bind, Except.bind, listEq]
    by_cases he : ElemOrd.eq b1[f1] b2[f2] = true
    · simp only [he, if_true, Bool.true_and]
      exact ih b1 (f1 + 1) b2 (f2 + 1) (by omega) (by omega)
    · simp [he, pure, Except.pure]

theorem lexicographical_compare_loop_spec {T : Type} [ElemOrd T] (n1 : Nat) :
    ∀ (n2 : Nat) (b1 : List T) (f1 : Nat) (b2 : List T) (f2 : Nat),
      f1 + n1 ≤ b1.length → f2 + n2 ≤ b2.length →
      lexicographical_compare_loop n1 n2 b1 f1 b2 f2
        = .ok (lexLt ((b1.drop f1).take n1) ((b2.drop f2).take n2)) := by
  induction n1 with
  | zero =>
    intro n2 b1 f1 b2 f2 _ h2
    cases n2 with
    | zero => simp [lexicographical_compare_loop, lexLt]
    | succ n2 =>
      rw [drop_take_succ b2 f2 n2 h2]
      simp [lexicographical_compare_loop, lexLt]
  | succ n1 ih =>
    intro n2 b1 f1 b2 f2 h1 h2
    have hf1 : f1 < b1.length := by omega
    rw [drop_take_succ b1 f1 n1 h1]
    cases n2 with
    | zero => simp [lexicographical_compare_loop, lexLt]
    | succ n2 =>
      have hf2 : f2 < b2.length := by omega
      rw [drop_take_succ b2 f2 n2 h2]
      simp only [lexicographical_compare_loop, rd_ok _ _ hf1, rd_ok _ _ hf2, bind, Except.bind,
        lexLt]
      by_cases hl : ElemOrd.lt b1[f1] b2[f2] = true
      · simp [hl, pure, Except.pure]
      · by_cases hg : ElemOrd.lt b2[f2] b1[f1] = true
        · simp [hl, hg, pure, Except.pure]
        · simp only [hl, hg, if_false]
          exact ih n2 b1 (f1 + 1) b2 (f2 + 1) (by omega) (by omega)

theorem SimpleVector.op_eq_eq {T : Type} [Elem T] [ElemOrd T] (a b : SimpleVector T)
    (ha : SimpleVector.Inv a) (hb : SimpleVector.Inv b) :
    SimpleVector.op_eq a b
      = .ok (decide (a.size_ = b.size_)
          && listEq (SimpleVector.elems a) (SimpleVector.elems b)) := by
  have hla : a.size_ ≤ a.data_.cells.length := by rw [ha.2.1]; exact ha.1
  have hlb : b.size_ ≤ b.data_.cells.length := by rw [hb.2.1]; exact hb.1
  by_cases hs : a.size_ = b.size_
  · have h := equal_loop_spec a.size_ a.data_.cells 0 b.data_.cells 0 (by omega) (by omega)
    simp only [SimpleVector.op_eq, hs, if_true, std_equal, Nat.zero_le, Nat.sub_zero,
      decide_True, Bool.true_and, SimpleVector.elems]
    rw [← hs, h]
    simp
  · simp [SimpleVector.op_eq, hs, pure, Except.pure]

theorem SimpleVector.op_lt_eq {T : Type} [Elem T] [ElemOrd T] (a b : SimpleVector T)
    (ha : SimpleVector.Inv a) (hb : SimpleVector.Inv b) :
    SimpleVector.op_lt a b = .ok (lexLt (SimpleVector.elems a) (SimpleVector.elems b)) := by
  have hla : a.size_ ≤ a.data_.cells.length := by rw [ha.2.1]; exact ha.1
  have hlb : b.size_ ≤ b.data_.cells.length := by rw [hb.2.1]; exact hb.1
  have h := lexicographical_compare_loop_spec a.size_ b.size_ a.data_.cells 0 b.data_.cells 0
    (by omega) (by omega)
  simp only [SimpleVector.op_lt, std_lexicographical_compare, Nat.zero_le, and_self, if_true,
    Nat.sub_zero, h, SimpleVector.elems, List.drop_zero]

theorem listEq_iff {T : Type} [ElemOrd T] (xs : List T) :
    ∀ ys : List T, listEq xs ys = true ↔
      (xs.length = ys.length ∧
        ∀ (i : Nat) (x y : T), xs[i]? = some x → ys[i]? = some y → ElemOrd.eq x y = true) := by
  induction xs with
  | nil =>
    intro ys
    cases ys with
    | nil => simp [listEq]
    | cons y ys => simp [listEq]
  | cons x xs ih =>
    intro ys
    cases ys with
    | nil => simp [listEq]
    | cons y ys =>
      simp only [listEq, Bool.and_eq_true, ih ys, List.length_cons, Nat.add_right_cancel_iff]
      constructor
      · rintro ⟨h0, hl, hr⟩
        refine ⟨hl, ?_⟩
        intro i a b ha hb
        cases i with
        | zero =>
          simp only [List.getElem?_cons_zero, Option.some.injEq] at ha hb
          rw [← ha, ← hb]; exact h0
        | succ i =>
          simp only [List.getElem?_cons_succ] at ha hb
          exact hr i a b ha hb
      · rintro ⟨hl, hr⟩
        refine ⟨hr 0 x y List.getElem?_cons_zero List.getElem?_cons_zero, hl, ?_⟩
        intro i a b ha hb
        exact hr (i + 1) a b (by simpa using ha) (by simpa using hb)

/-- Index form of the lexicographic comparison, `P` being any relation that
holds exactly between the values `<` leaves unordered. -/
theorem lexLt_iff_rel {T : Type} [ElemOrd T] (P : T → T → Prop)
    (hc : ∀ x y : T, P x y ↔ (ElemOrd.lt x y = false ∧ ElemOrd.lt y x = false))
    (xs : List T) :
    ∀ ys : List T, lexLt xs ys = true ↔
      ((∃ (k : Nat) (x y : T), xs[k]? = some x ∧ ys[k]? = some y ∧ ElemOrd.lt x y = true ∧
          ∀ j, j < k → ∀ (x1 y1 : T), xs[j]? = some x1 → ys[j]? = some y1 →
            P x1 y1) ∨
        (xs.length < ys.length ∧
          ∀ (j : Nat) (x1 y1 : T), xs[j]? = some x1 → ys[j]? = some y1 →
            P x1 y1)) := by
  induction xs with
  | nil =>
    intro ys
    cases ys with
    | nil => simp [lexLt]
    | cons y ys => simp [lexLt]
  | cons x xs ih =>
    intro ys
    cases ys with
    | nil => simp [lexLt]
    | cons y ys =>
      by_cases hl : ElemOrd.lt x y = true
      · have hstep : lexLt (x :: xs) (y :: ys) = true := by simp [lexLt, hl]
        rw [hstep]
        refine ⟨fun _ => Or.inl ?_, fun _ => rfl⟩
        exact ⟨0, x, y, List.getElem?_cons_zero, List.getElem?_cons_zero, hl,
          fun j hj => absurd hj (Nat.not_lt_zero j)⟩
      · have hne : P x y ↔ ElemOrd.lt y x = false := by
          rw [hc x y]; simp [hl]
        by_cases hg : ElemOrd.lt y x = true
        · have hxy : ¬ P x y := by rw [hne]; simp [hg]
          have hstep : lexLt (x :: xs) (y :: ys) = false := by simp [lexLt, hl, hg]
          rw [hstep]
          constructor
          · intro h; cases h
          · rintro (⟨k, a, b, ha, hb, hab, hlo⟩ | ⟨_, hall⟩)
            · cases k with
              | zero =>
                simp only [List.getElem?_cons_zero, Option.some.injEq] at ha hb
                rw [← ha, ← hb] at hab
                exact absurd hab hl
              | succ k => exact absurd (hlo 0 (Nat.succ_pos k) x y List.getElem?_cons_zero List.getElem?_cons_zero) hxy
            · exact absurd (hall 0 x y List.getElem?_cons_zero List.getElem?_cons_zero) hxy
        · have hxy : P x y := by rw [hne]; simpa using hg
          have hstep : lexLt (x :: xs) (y :: ys) = lexLt xs ys := by simp [lexLt, hl, hg]
          rw [hstep, ih ys]
          constructor
          · rintro (⟨k, a, b, ha, hb, hab, hlo⟩ | ⟨hlen, hall⟩)
            · left
              refine ⟨k + 1, a, b, by simpa using ha, by simpa using hb, hab, ?_⟩
              intro j hj a1 b1 ha1 hb1
              cases j with
              | zero =>
                simp only [List.getElem?_cons_zero, Option.some.injEq] at ha1 hb1
                rw [← ha1, ← hb1]; exact hxy
              | succ j =>
                simp only [List.getElem?_cons_succ] at ha1 hb1
                exact hlo j (by omega) a1 b1 ha1 hb1
            · right
              refine ⟨by simpa using hlen, ?_⟩
              intro j a1 b1 ha1 hb1
              cases j with
              | zero =>
                simp only [List.getElem?_cons_zero, Option.some.injEq] at ha1 hb1
                rw [← ha1, ← hb1]; exact hxy
              | succ j =>
                simp only [List.getElem?_cons_succ] at ha1 hb1
                exact hall j a1 b1 ha1 hb1
          · rintro (⟨k, a, b, ha, hb, hab, hlo⟩ | ⟨hlen, hall⟩)
            · cases k with
              | zero =>
                simp only [List.getElem?_cons_zero, Option.some.injEq] at ha hb
                rw [← ha, ← hb] at hab
                exact absurd hab hl
              | succ k =>
                left
                refine ⟨k, a, b, by simpa using ha, by simpa using hb, hab, ?_⟩
                intro j hj a1 b1 ha1 hb1
                exact hlo (j + 1) (by omega) a1 b1 (by simpa using ha1) (by simpa using hb1)
            · right
              refine ⟨by simpa using hlen, ?_⟩
              intro j a1 b1 ha1 hb1
              exact hall (j + 1) a1 b1 (by simpa using ha1) (by simpa using hb1)

theorem lexLt_iff {T : Type} [ElemOrd T] (hc : EqConsistent T) (xs : List T) :
    ∀ ys : List T, lexLt xs ys = true ↔
      ((∃ (k : Nat) (x y : T), xs[k]? = some x ∧ ys[k]? = some y ∧ ElemOrd.lt x y = true ∧
          ∀ j, j < k → ∀ (x1 y1 : T), xs[j]? = some x1 → ys[j]? = some y1 →
            ElemOrd.eq x1 y1 = true) ∨
        (xs.length < ys.length ∧
          ∀ (j : Nat) (x1 y1 : T), xs[j]? = some x1 → ys[j]? = some y1 →
            ElemOrd.eq x1 y1 = true)) :=
  lexLt_iff_rel (fun x y => ElemOrd.eq x y = true) hc xs

theorem lexLt_irrefl {T : Type} [ElemOrd T] (hi : ∀ x : T, ElemOrd.lt x x = false)
    (xs : List T) : lexLt xs xs = false := by
  induction xs with
  | nil => rfl
  | cons x xs ih => simp [lexLt, hi x, ih]

theorem StrictOrdered.asymm {T : Type} [ElemOrd T] (h : StrictOrdered T) (x y : T)
    (hxy : ElemOrd.lt x y = true) : ElemOrd.lt y x = false := by
  cases hyx : ElemOrd.lt y x with
  | false => rfl
  | true =>
    have := h.2.1 x y x hxy hyx
    rw [h.1 x] at this
    cases this

theorem StrictOrdered.lt_of_lt_of_eq {T : Type} [ElemOrd T] (h : StrictOrdered T) (x y z : T)
    (hxy : ElemOrd.lt x y = true) (hyz : ElemOrd.eq y z = true) : ElemOrd.lt x z = true := by
  obtain ⟨_, ht, hc, he⟩ := h
  have hyz2 := (hc y z).mp hyz
  cases hxz : ElemOrd.lt x z with
  | true => rfl
  | false =>
    cases hzx : ElemOrd.lt z x with
    | true =>
      have := ht z x y hzx hxy
      rw [hyz2.2] at this
      cases this
    | false =>
      have hxz2 : ElemOrd.eq x z = true := (hc x z).mpr ⟨hxz, hzx⟩
      have hzy : ElemOrd.eq z y = true := (hc z y).mpr ⟨hyz2.2, hyz2.1⟩
      have hxy2 := (hc x y).mp (he x z y hxz2 hzy)
      rw [hxy2.1] at hxy
      cases hxy

theorem StrictOrdered.lt_of_eq_of_lt {T : Type} [ElemOrd T] (h : StrictOrdered T) (x y z : T)
    (hxy : ElemOrd.eq x y = true) (hyz : ElemOrd.lt y z = true) : ElemOrd.lt x z = true := by
  obtain ⟨_, ht, hc, he⟩ := h
  have hxy2 := (hc x y).mp hxy
  cases hxz : ElemOrd.lt x z with
  | true => rfl
  | false =>
    cases hzx : ElemOrd.lt z x with
    | true =>
      have := ht y z x hyz hzx
      rw [hxy2.2] at this
      cases this
    | false =>
      have hzx2 : ElemOrd.eq z x = true := (hc z x).mpr ⟨hzx, hxz⟩
      have hyx : ElemOrd.eq y x = true := (hc y x).mpr ⟨hxy2.2, hxy2.1⟩
      have hzy2 := (hc z y).mp (he z x y hzx2 hxy)
      rw [hzy2.2] at hyz
      cases hyz

theorem lexLt_iff_cmp {T : Type} [ElemOrd T] (xs : List T) :
    ∀ ys : List T, lexLt xs ys = true ↔ lexCmp xs ys = .lt := by
  induction xs with
  | nil =>
    intro ys
    cases ys <;> simp [lexLt, lexCmp]
  | cons x xs ih =>
    intro ys
    cases ys with
    | nil => simp [lexLt, lexCmp]
    | cons y ys =>
      by_cases hl : ElemOrd.lt x y = true
      · simp [lexLt, lexCmp, hl]
      · by_cases hg : ElemOrd.lt y x = true
        · simp [lexLt, lexCmp, hl, hg]
        · simp [lexLt, lexCmp, hl, hg, ih ys]

theorem lexGt_iff_cmp {T : Type} [ElemOrd T] (h : StrictOrdered T) (xs : List T) :
    ∀ ys : List T, lexLt ys xs = true ↔ lexCmp xs ys = .gt := by
  induction xs with
  | nil =>
    intro ys
    cases ys <;> simp [lexLt, lexCmp]
  | cons x xs ih =>
    intro ys
    cases ys with
    | nil => simp [lexLt, lexCmp]
    | cons y ys =>
      by_cases hl : ElemOrd.lt x y = true
      · have hg := h.asymm x y hl
        simp [lexLt, lexCmp, hl, hg]
      · by_cases hg : ElemOrd.lt y x = true
        · simp [lexLt, lexCmp, hl, hg]
        · simp [lexLt, lexCmp, hl, hg, ih ys]

theorem listEq_iff_cmp {T : Type} [ElemOrd T] (hc : EqConsistent T) (xs : List T) :
    ∀ ys : List T, listEq xs ys = true ↔ lexCmp xs ys = .eq := by
  induction xs with
  | nil =>
    intro ys
    cases ys <;> simp [listEq, lexCmp]
  | cons x xs ih =>
    intro ys
    cases ys with
    | nil => simp [listEq, lexCmp]
    | cons y ys =>
      by_cases hl : ElemOrd.lt x y = true
      · have he : ElemOrd.eq x y = false := by
          cases hxy : ElemOrd.eq x y with
          | false => rfl
          | true =>
            have := ((hc x y).mp hxy).1
            rw [this] at hl
            cases hl
        simp [listEq, lexCmp, hl, he]
      · by_cases hg : ElemOrd.lt y x = true
        · have he : ElemOrd.eq x y = false := by
            cases hxy : ElemOrd.eq x y with
            | false => rfl
            | true =>
              have := ((hc x y).mp hxy).2
              rw [this] at hg
              cases hg
          simp [listEq, lexCmp, hl, hg, he]
        · have he : ElemOrd.eq x y = true :=
            (hc x y).mpr ⟨by simpa using hl, by simpa using hg⟩
          simp [listEq, lexCmp, hl, hg, he, ih ys]

theorem lexCmp_self {T : Type} [ElemOrd T] (hi : ∀ x : T, ElemOrd.lt x x = false)
    (xs : List T) : lexCmp xs xs = .eq := by
  induction xs with
  | nil => rfl
  | cons x xs ih => simp [lexCmp, hi x, ih]

theorem lexCmp_le_trans {T : Type} [ElemOrd T] (h : StrictOrdered T) (xs : List T) :
    ∀ ys zs : List T, lexCmp xs ys ≠ .gt → lexCmp ys zs ≠ .gt → lexCmp xs zs ≠ .gt := by
  induction xs with
  | nil =>
    intro ys zs _ _
    cases zs <;> simp [lexCmp]
  | cons x xs ih =>
    intro ys zs h1 h2
    cases ys with
    | nil => simp [lexCmp] at h1
    | cons y ys =>
      cases zs with
      | nil => simp [lexCmp] at h2
      | cons z zs =>
        by_cases hxy : ElemOrd.lt x y = true
        · -- x < y, and y is not above z
          by_cases hyz : ElemOrd.lt y z = true
          · have hxz := h.2.1 x y z hxy hyz
            simp [lexCmp, hxz]
          · by_cases hzy : ElemOrd.lt z y = true
            · simp [lexCmp, hyz, hzy] at h2
            · have heq : ElemOrd.eq y z = true :=
                (h.2.2.1 y z).mpr ⟨by simpa using hyz, by simpa using hzy⟩
              have hxz := h.lt_of_lt_of_eq x y z hxy heq
              simp [lexCmp, hxz]
        · by_cases hyx : ElemOrd.lt y x = true
          · simp [lexCmp, hxy, hyx] at h1
          · have hexy : ElemOrd.eq x y = true :=
              (h.2.2.1 x y).mpr ⟨by simpa using hxy, by simpa using hyx⟩
            have h1' : lexCmp xs ys ≠ .gt := by simpa [lexCmp, hxy, hyx] using h1
            by_cases hyz : ElemOrd.lt y z = true
            · have hxz := h.lt_of_eq_of_lt x y z hexy hyz
              simp [lexCmp, hxz]
            · by_cases hzy : ElemOrd.lt z y = true
              · simp [lexCmp, hyz, hzy] at h2
              · have heyz : ElemOrd.eq y z = true :=
                  (h.2.2.1 y z).mpr ⟨by simpa using hyz, by simpa using hzy⟩
                have h2' : lexCmp ys zs ≠ .gt := by simpa [lexCmp, hyz, hzy] using h2
                have hexz := (h.2.2.1 x z).mp (h.2.2.2 x y z hexy heyz)
                simp only [lexCmp, hexz.1, hexz.2, Bool.false_eq_true, if_false]
                exact ih ys zs h1' h2'

theorem natOrd_strictOrdered : StrictOrdered Nat := by
  refine ⟨?_, ?_, ?_, ?_⟩
  · intro x; simp [ElemOrd.lt]
  · intro x y z h1 h2
    simp only [ElemOrd.lt, decide_eq_true_eq] at h1 h2 ⊢
    omega
  · intro x y
    simp only [ElemOrd.eq, ElemOrd.lt, decide_eq_true_eq, decide_eq_false_iff_not]
    omega
  · intro x y z h1 h2
    simp only [ElemOrd.eq, decide_eq_true_eq] at h1 h2 ⊢
    omega

theorem SimpleVector.op_index_ok_iff {T : Type} [Elem T] (s : SimpleVector T)
    (hinv : SimpleVector.Inv s) (i : Nat) (x : T) :
    SimpleVector.op_index s i = .ok x ↔ (SimpleVector.elems s)[i]? = some x := by
  have hl : s.size_ ≤ s.data_.cells.length := by rw [hinv.2.1]; exact hinv.1
  rw [SimpleVector.op_index_eq s i hl]
  cases h : (SimpleVector.elems s)[i]? with
  | none => simp
  | some y => simp

theorem SimpleVector.elems_length_inv {T : Type} [Elem T] (s : SimpleVector T)
    (hinv : SimpleVector.Inv s) : (SimpleVector.elems s).length = s.size_ :=
  SimpleVector.elems_length s (by rw [hinv.2.1]; exact hinv.1)

/-- A strict total order whose `==` is equality satisfies `StrictOrdered`. -/
theorem strictOrdered_of_total {T : Type} [ElemOrd T]
    (heq : ∀ x y : T, ElemOrd.eq x y = true ↔ x = y)
    (hirr : ∀ x : T, ElemOrd.lt x x = false)
    (htr : ∀ x y z : T, ElemOrd.lt x y = true → ElemOrd.lt y z = true → ElemOrd.lt x z = true)
    (htot : ∀ x y : T, x ≠ y → ElemOrd.lt x y = true ∨ ElemOrd.lt y x = true) :
    StrictOrdered T := by
  refine ⟨hirr, htr, ?_, ?_⟩
  · intro x y
    rw [heq]
    constructor
    · rintro rfl
      exact ⟨hirr x, hirr x⟩
    · rintro ⟨h1, h2⟩
      by_contra hne
      rcases htot x y hne with h | h
      · rw [h1] at h; cases h
      · rw [h2] at h; cases h
  · intro x y z h1 h2
    rw [heq] at *
    exact h1.trans h2

/-- C11. For vectors `a` and `b` satisfying the invariant, `a == b` returns a
value; it is `true` exactly when the sizes are equal and `a[i] == b[i]` at every
index where both have an element (every `i < size`); `a != b` returns its
negation; and the value depends on the sizes and the live elements only: any
two vectors with the same live elements, whatever their capacities and the
contents of their unused cells, compare the same. -/
theorem C11_equality {T : Type} [Elem T] [ElemOrd T] (a b : SimpleVector T)
    (ha : SimpleVector.Inv a) (hb : SimpleVector.Inv b) :
    ∃ r, SimpleVector.op_eq a b = .ok r ∧ SimpleVector.op_ne a b = .ok (!r) ∧
      (r = true ↔ (a.GetSize = b.GetSize ∧
        ∀ (i : Nat) (x y : T), SimpleVector.op_index a i = .ok x →
          SimpleVector.op_index b i = .ok y → ElemOrd.eq x y = true)) ∧
      (∀ a1 b1 : SimpleVector T, SimpleVector.Inv a1 → SimpleVector.Inv b1 →
        SimpleVector.elems a1 = SimpleVector.elems a →
        SimpleVector.elems b1 = SimpleVector.elems b → SimpleVector.op_eq a1 b1 = .ok r) := by
  have hla := SimpleVector.elems_length_inv a ha
  have hlb := SimpleVector.elems_length_inv b hb
  refine ⟨_, SimpleVector.op_eq_eq a b ha hb, ?_, ?_, ?_⟩
  · simp only [SimpleVector.op_ne, SimpleVector.op_eq_eq a b ha hb, bind, Except.bind, pure,
      Except.pure]
  · rw [Bool.and_eq_true, decide_eq_true_eq, listEq_iff]
    constructor
    · rintro ⟨hs, _, hall⟩
      refine ⟨hs, ?_⟩
      intro i x y hx hy
      exact hall i x y ((SimpleVector.op_index_ok_iff a ha i x).mp hx)
        ((SimpleVector.op_index_ok_iff b hb i y).mp hy)
    · rintro ⟨hs, hall⟩
      have hs' : a.size_ = b.size_ := hs
      refine ⟨hs', by rw [hla, hlb, hs'], ?_⟩
      intro i x y hx hy
      exact hall i x y ((SimpleVector.op_index_ok_iff a ha i x).mpr hx)
        ((SimpleVector.op_index_ok_iff b hb i y).mpr hy)
  · intro a1 b1 ha1 hb1 hea heb
    have h1 := SimpleVector.elems_length_inv a1 ha1
    have h2 := SimpleVector.elems_length_inv b1 hb1
    rw [SimpleVector.op_eq_eq a1 b1 ha1 hb1, hea, heb]
    have e1 : a1.size_ = a.size_ := by rw [← h1, hea, hla]
    have e2 : b1.size_ = b.size_ := by rw [← h2, heb, hlb]
    rw [e1, e2]

/-- C11 on `[1, 2, 3]` held with capacity 3 and `[1, 2, 3]` held with capacity
5 and other values in the unused cells. -/
theorem C11_equality_witness :
    ∃ r, SimpleVector.op_eq (⟨3, 3, ⟨some [1, 2, 3]⟩⟩ : SimpleVector Nat)
        ⟨3, 5, ⟨some [1, 2, 3, 8, 9]⟩⟩ = .ok r ∧
      SimpleVector.op_ne (⟨3, 3, ⟨some [1, 2, 3]⟩⟩ : SimpleVector Nat)
        ⟨3, 5, ⟨some [1, 2, 3, 8, 9]⟩⟩ = .ok (!r) ∧
      (r = true ↔ ((⟨3, 3, ⟨some [1, 2, 3]⟩⟩ : SimpleVector Nat).GetSize
          = (⟨3, 5, ⟨some [1, 2, 3, 8, 9]⟩⟩ : SimpleVector Nat).GetSize ∧
        ∀ (i : Nat) (x y : Nat),
          SimpleVector.op_index (⟨3, 3, ⟨some [1, 2, 3]⟩⟩ : SimpleVector Nat) i = .ok x →
          SimpleVector.op_index (⟨3, 5, ⟨some [1, 2, 3, 8, 9]⟩⟩ : SimpleVector Nat) i = .ok y →
          ElemOrd.eq x y = true)) ∧
      (∀ a1 b1 : SimpleVector Nat, SimpleVector.Inv a1 → SimpleVector.Inv b1 →
        SimpleVector.elems a1
          = SimpleVector.elems (⟨3, 3, ⟨some [1, 2, 3]⟩⟩ : SimpleVector Nat) →
        SimpleVector.elems b1
          = SimpleVector.elems (⟨3, 5, ⟨some [1, 2, 3, 8, 9]⟩⟩ : SimpleVector Nat) →
        SimpleVector.op_eq a1 b1 = .ok r) :=
  C11_equality _ _ (by decide) (by decide)

/-- The comparisons of the specification, the vectors being held with
different capacities. -/
theorem comparison_runs :
    SimpleVector.op_eq (⟨3, 3, ⟨some [1, 2, 3]⟩⟩ : SimpleVector Nat)
      ⟨3, 5, ⟨some [1, 2, 3, 8, 9]⟩⟩ = .ok true ∧
    SimpleVector.op_eq (⟨3, 3, ⟨some [1, 2, 3]⟩⟩ : SimpleVector Nat)
      ⟨2, 3, ⟨some [1, 2, 3]⟩⟩ = .ok false ∧
    SimpleVector.op_ne (⟨3, 3, ⟨some [1, 2, 3]⟩⟩ : SimpleVector Nat)
      ⟨2, 3, ⟨some [1, 2, 3]⟩⟩ = .ok true ∧
    SimpleVector.op_lt (⟨3, 3, ⟨some [1, 2, 3]⟩⟩ : SimpleVector Nat)
      ⟨3, 4, ⟨some [1, 2, 4, 0]⟩⟩ = .ok true ∧
    SimpleVector.op_lt (⟨2, 2, ⟨some [1, 2]⟩⟩ : SimpleVector Nat)
      ⟨3, 3, ⟨some [1, 2, 3]⟩⟩ = .ok true ∧
    SimpleVector.op_lt (⟨3, 3, ⟨some [1, 2, 3]⟩⟩ : SimpleVector Nat)
      ⟨3, 3, ⟨some [1, 2, 3]⟩⟩ = .ok false ∧
    SimpleVector.op_lt (⟨0, 0, ⟨none⟩⟩ : SimpleVector Nat) ⟨0, 0, ⟨none⟩⟩ = .ok false ∧
    SimpleVector.op_le (⟨3, 3, ⟨some [1, 2, 3]⟩⟩ : SimpleVector Nat)
      ⟨3, 3, ⟨some [1, 2, 3]⟩⟩ = .ok true ∧
    SimpleVector.op_gt (⟨3, 3, ⟨some [1, 2, 4]⟩⟩ : SimpleVector Nat)
      ⟨3, 3, ⟨some [1, 2, 3]⟩⟩ = .ok true ∧
    SimpleVector.op_ge (⟨2, 2, ⟨some [1, 2]⟩⟩ : SimpleVector Nat)
      ⟨3, 3, ⟨some [1, 2, 3]⟩⟩ = .ok false := by
  decide

/-- What `operator<` computes, `P` being any relation that holds exactly
between the values the `<` of the elements leaves unordered. -/
theorem SimpleVector.op_lt_iff_rel {T : Type} [Elem T] [ElemOrd T] (P : T → T → Prop)
    (hP : ∀ x y : T, P x y ↔ (ElemOrd.lt x y = false ∧ ElemOrd.lt y x = false))
    (a b : SimpleVector T) (ha : SimpleVector.Inv a) (hb : SimpleVector.Inv b) :
    ∃ r, SimpleVector.op_lt a b = .ok r ∧
      (r = true ↔
        ((∃ (k : Nat) (x y : T), k < min a.GetSize b.GetSize ∧
            SimpleVector.op_index a k = .ok x ∧ SimpleVector.op_index b k = .ok y ∧
            ElemOrd.lt x y = true ∧
            ∀ j, j < k → ∀ (x1 y1 : T), SimpleVector.op_index a j = .ok x1 →
              SimpleVector.op_index b j = .ok y1 → P x1 y1) ∨
          (a.GetSize < b.GetSize ∧
            ∀ (j : Nat) (x1 y1 : T), SimpleVector.op_index a j = .ok x1 →
              SimpleVector.op_index b j = .ok y1 → P x1 y1))) := by
  have hla := SimpleVector.elems_length_inv a ha
  have hlb := SimpleVector.elems_length_inv b hb
  have ia := fun i x => SimpleVector.op_index_ok_iff a ha i x
  have ib := fun i x => SimpleVector.op_index_ok_iff b hb i x
  refine ⟨_, SimpleVector.op_lt_eq a b ha hb, ?_⟩
  rw [lexLt_iff_rel P hP]
  constructor
  · rintro (⟨k, x, y, hx, hy, hxy, hlo⟩ | ⟨hlen, hall⟩)
    · left
      have hk1 : k < (SimpleVector.elems a).length := by
        by_contra hcon
        rw [List.getElem?_eq_none (by omega)] at hx
        cases hx
      have hk2 : k < (SimpleVector.elems b).length := by
        by_contra hcon
        rw [List.getElem?_eq_none (by omega)] at hy
        cases hy
      refine ⟨k, x, y, ?_, (ia k x).mpr hx, (ib k y).mpr hy, hxy, ?_⟩
      · show k < min a.size_ b.size_
        rw [hla] at hk1; rw [hlb] at hk2
        exact lt_min hk1 hk2
      · intro j hj x1 y1 h1 h2
        exact hlo j hj x1 y1 ((ia j x1).mp h1) ((ib j y1).mp h2)
    · right
      refine ⟨by rw [hla, hlb] at hlen; exact hlen, ?_⟩
      intro j x1 y1 h1 h2
      exact hall j x1 y1 ((ia j x1).mp h1) ((ib j y1).mp h2)
  · rintro (⟨k, x, y, _, hx, hy, hxy, hlo⟩ | ⟨hlen, hall⟩)
    · left
      refine ⟨k, x, y, (ia k x).mp hx, (ib k y).mp hy, hxy, ?_⟩
      intro j hj x1 y1 h1 h2
      exact hlo j hj x1 y1 ((ia j x1).mpr h1) ((ib j y1).mpr h2)
    · right
      refine ⟨by rw [hla, hlb]; exact hlen, ?_⟩
      intro j x1 y1 h1 h2
      exact hall j x1 y1 ((ia j x1).mpr h1) ((ib j y1).mpr h2)

/-- C12, the claim as stated fails for an element type whose `==` is finer
than its `<`.  With records compared by key for `<` and memberwise for `==`,
take `a = [(1, 0)]` and `b = [(1, 1), (5, 5)]`: `a < b` is `true`, since
neither first element is less than the other and `a` is the shorter; but no
index `k` has `a[k] < b[k]`, and `a` is not a prefix of `b` under `==`, since
`(1, 0) == (1, 1)` is false. -/
theorem C12_unordered_is_not_equal :
    SimpleVector.op_lt (⟨1, 1, ⟨some [⟨1, 0⟩]⟩⟩ : SimpleVector Keyed)
        ⟨2, 2, ⟨some [⟨1, 1⟩, ⟨5, 5⟩]⟩⟩ = .ok true ∧
    ¬ ((∃ (k : Nat) (x y : Keyed),
          k < min (⟨1, 1, ⟨some [⟨1, 0⟩]⟩⟩ : SimpleVector Keyed).GetSize
            (⟨2, 2, ⟨some [⟨1, 1⟩, ⟨5, 5⟩]⟩⟩ : SimpleVector Keyed).GetSize ∧
          SimpleVector.op_index (⟨1, 1, ⟨some [⟨1, 0⟩]⟩⟩ : SimpleVector Keyed) k = .ok x ∧
          SimpleVector.op_index (⟨2, 2, ⟨some [⟨1, 1⟩, ⟨5, 5⟩]⟩⟩ : SimpleVector Keyed) k
            = .ok y ∧
          ElemOrd.lt x y = true ∧
          ∀ j, j < k → ∀ (x1 y1 : Keyed),
            SimpleVector.op_index (⟨1, 1, ⟨some [⟨1, 0⟩]⟩⟩ : SimpleVector Keyed) j = .ok x1 →
            SimpleVector.op_index (⟨2, 2, ⟨some [⟨1, 1⟩, ⟨5, 5⟩]⟩⟩ : SimpleVector Keyed) j
              = .ok y1 → ElemOrd.eq x1 y1 = true) ∨
        ((⟨1, 1, ⟨some [⟨1, 0⟩]⟩⟩ : SimpleVector Keyed).GetSize
            < (⟨2, 2, ⟨some [⟨1, 1⟩, ⟨5, 5⟩]⟩⟩ : SimpleVector Keyed).GetSize ∧
          ∀ (j : Nat) (x1 y1 : Keyed),
            SimpleVector.op_index (⟨1, 1, ⟨some [⟨1, 0⟩]⟩⟩ : SimpleVector Keyed) j = .ok x1 →
            SimpleVector.op_index (⟨2, 2, ⟨some [⟨1, 1⟩, ⟨5, 5⟩]⟩⟩ : SimpleVector Keyed) j
              = .ok y1 → ElemOrd.eq x1 y1 = true)) := by
  refine ⟨by decide, ?_⟩
  rintro (⟨k, x, y, hk, hx, hy, hlt, _⟩ | ⟨_, hall⟩)
  · have hk0 : k = 0 := by
      have : k < 1 := lt_of_lt_of_le hk (min_le_left _ _)
      omega
    subst hk0
    have ex : x = ⟨1, 0⟩ := by
      have : SimpleVector.op_index (⟨1, 1, ⟨some [⟨1, 0⟩]⟩⟩ : SimpleVector Keyed) 0
          = .ok ⟨1, 0⟩ := by decide
      rw [this] at hx
      cases hx
      rfl
    have ey : y = ⟨1, 1⟩ := by
      have : SimpleVector.op_index (⟨2, 2, ⟨some [⟨1, 1⟩, ⟨5, 5⟩]⟩⟩ : SimpleVector Keyed) 0
          = .ok ⟨1, 1⟩ := by decide
      rw [this] at hy
      cases hy
      rfl
    subst ex ey
    exact absurd hlt (by decide)
  · exact absurd (hall 0 ⟨1, 0⟩ ⟨1, 1⟩ (by decide) (by decide)) (by decide)

/-- C12, amended. For vectors `a` and `b` satisfying the invariant, `a < b`
returns a value; it is `true` exactly when either there is an index
`k < min(size a, size b)` with `a[k] < b[k]` and, for all `j < k`, neither
`a[j] < b[j]` nor `b[j] < a[j]`, or size a < size b and at every index of `a`
neither element is less than the other.  When the `==` of the elements holds
exactly between the values their `<` leaves unordered, this is the condition
with `a[j] == b[j]`: a first index where `a[k] < b[k]` after equal elements, or
`a` a proper prefix of `b`.  When no element is less than itself, `a < a`
returns `false`. -/
theorem C12_less_by_order {T : Type} [Elem T] [ElemOrd T] (a b : SimpleVector T)
    (ha : SimpleVector.Inv a) (hb : SimpleVector.Inv b) :
    ∃ r, SimpleVector.op_lt a b = .ok r ∧
      (r = true ↔
        ((∃ (k : Nat) (x y : T), k < min a.GetSize b.GetSize ∧
            SimpleVector.op_index a k = .ok x ∧ SimpleVector.op_index b k = .ok y ∧
            ElemOrd.lt x y = true ∧
            ∀ j, j < k → ∀ (x1 y1 : T), SimpleVector.op_index a j = .ok x1 →
              SimpleVector.op_index b j = .ok y1 →
              (ElemOrd.lt x1 y1 = false ∧ ElemOrd.lt y1 x1 = false)) ∨
          (a.GetSize < b.GetSize ∧
            ∀ (j : Nat) (x1 y1 : T), SimpleVector.op_index a j = .ok x1 →
              SimpleVector.op_index b j = .ok y1 →
              (ElemOrd.lt x1 y1 = false ∧ ElemOrd.lt y1 x1 = false)))) ∧
      (EqConsistent T →
        (r = true ↔
          ((∃ (k : Nat) (x y : T), k < min a.GetSize b.GetSize ∧
              SimpleVector.op_index a k = .ok x ∧ SimpleVector.op_index b k = .ok y ∧
              ElemOrd.lt x y = true ∧
              ∀ j, j < k → ∀ (x1 y1 : T), SimpleVector.op_index a j = .ok x1 →
                SimpleVector.op_index b j = .ok y1 → ElemOrd.eq x1 y1 = true) ∨
            (a.GetSize < b.GetSize ∧
              ∀ (j : Nat) (x1 y1 : T), SimpleVector.op_index a j = .ok x1 →
                SimpleVector.op_index b j = .ok y1 → ElemOrd.eq x1 y1 = true)))) ∧
      ((∀ x : T, ElemOrd.lt x x = false) → SimpleVector.op_lt a a = .ok false) := by
  obtain ⟨r, hr, hiff⟩ := SimpleVector.op_lt_iff_rel
    (fun x y : T => ElemOrd.lt x y = false ∧ ElemOrd.lt y x = false)
    (fun _ _ => Iff.rfl) a b ha hb
  refine ⟨r, hr, hiff, ?_, ?_⟩
  · intro hc
    obtain ⟨r1, hr1, hiff1⟩ := SimpleVector.op_lt_iff_rel
      (fun x y : T => ElemOrd.eq x y = true) hc a b ha hb
    rw [hr] at hr1
    cases hr1
    exact hiff1
  · intro hi
    rw [SimpleVector.op_lt_eq a a ha ha, lexLt_irrefl hi]

/-- C12, amended, on `a = [(1, 0)]` and `b = [(1, 1), (5, 5)]`, records
compared by key for `<`. -/
theorem C12_less_by_order_witness :
    ∃ r, SimpleVector.op_lt (⟨1, 1, ⟨some [⟨1, 0⟩]⟩⟩ : SimpleVector Keyed)
        (⟨2, 2, ⟨some [⟨1, 1⟩, ⟨5, 5⟩]⟩⟩ : SimpleVector Keyed) = .ok r ∧
      (r = true ↔
        ((∃ (k : Nat) (x y : Keyed),
            k < min (⟨1, 1, ⟨some [⟨1, 0⟩]⟩⟩ : SimpleVector Keyed).GetSize
              (⟨2, 2, ⟨some [⟨1, 1⟩, ⟨5, 5⟩]⟩⟩ : SimpleVector Keyed).GetSize ∧
            SimpleVector.op_index (⟨1, 1, ⟨some [⟨1, 0⟩]⟩⟩ : SimpleVector Keyed) k = .ok x ∧
            SimpleVector.op_index (⟨2, 2, ⟨some [⟨1, 1⟩, ⟨5, 5⟩]⟩⟩ : SimpleVector Keyed) k
              = .ok y ∧
            ElemOrd.lt x y = true ∧
            ∀ j, j < k → ∀ (x1 y1 : Keyed),
              SimpleVector.op_index (⟨1, 1, ⟨some [⟨1, 0⟩]⟩⟩ : SimpleVector Keyed) j = .ok x1 →
              SimpleVector.op_index (⟨2, 2, ⟨some [⟨1, 1⟩, ⟨5, 5⟩]⟩⟩ : SimpleVector Keyed) j
                = .ok y1 → (ElemOrd.lt x1 y1 = false ∧ ElemOrd.lt y1 x1 = false)) ∨
          ((⟨1, 1, ⟨some [⟨1, 0⟩]⟩⟩ : SimpleVector Keyed).GetSize
              < (⟨2, 2, ⟨some [⟨1, 1⟩, ⟨5, 5⟩]⟩⟩ : SimpleVector Keyed).GetSize ∧
            ∀ (j : Nat) (x1 y1 : Keyed),
              SimpleVector.op_index (⟨1, 1, ⟨some [⟨1, 0⟩]⟩⟩ : SimpleVector Keyed) j = .ok x1 →
              SimpleVector.op_index (⟨2, 2, ⟨some [⟨1, 1⟩, ⟨5, 5⟩]⟩⟩ : SimpleVector Keyed) j
                = .ok y1 → (ElemOrd.lt x1 y1 = false ∧ ElemOrd.lt y1 x1 = false)))) ∧
      (EqConsistent Keyed →
        (r = true ↔
          ((∃ (k : Nat) (x y : Keyed),
              k < min (⟨1, 1, ⟨some [⟨1, 0⟩]⟩⟩ : SimpleVector Keyed).GetSize
                (⟨2, 2, ⟨some [⟨1, 1⟩, ⟨5, 5⟩]⟩⟩ : SimpleVector Keyed).GetSize ∧
              SimpleVector.op_index (⟨1, 1, ⟨some [⟨1, 0⟩]⟩⟩ : SimpleVector Keyed) k = .ok x ∧
              SimpleVector.op_index (⟨2, 2, ⟨some [⟨1, 1⟩, ⟨5, 5⟩]⟩⟩ : SimpleVector Keyed) k
                = .ok y ∧
              ElemOrd.lt x y = true ∧
              ∀ j, j < k → ∀ (x1 y1 : Keyed),
                SimpleVector.op_index (⟨1, 1, ⟨some [⟨1, 0⟩]⟩⟩ : SimpleVector Keyed) j = .ok x1 →
                SimpleVector.op_index (⟨2, 2, ⟨some [⟨1, 1⟩, ⟨5, 5⟩]⟩⟩ : SimpleVector Keyed) j
                  = .ok y1 → ElemOrd.eq x1 y1 = true) ∨
            ((⟨1, 1, ⟨some [⟨1, 0⟩]⟩⟩ : SimpleVector Keyed).GetSize
                < (⟨2, 2, ⟨some [⟨1, 1⟩, ⟨5, 5⟩]⟩⟩ : SimpleVector Keyed).GetSize ∧
              ∀ (j : Nat) (x1 y1 : Keyed),
                SimpleVector.op_index (⟨1, 1, ⟨some [⟨1, 0⟩]⟩⟩ : SimpleVector Keyed) j = .ok x1 →
                SimpleVector.op_index (⟨2, 2, ⟨some [⟨1, 1⟩, ⟨5, 5⟩]⟩⟩ : SimpleVector Keyed) j
                  = .ok y1 → ElemOrd.eq x1 y1 = true)))) ∧
      ((∀ x : Keyed, ElemOrd.lt x x = false) →
        SimpleVector.op_lt (⟨1, 1, ⟨some [⟨1, 0⟩]⟩⟩ : SimpleVector Keyed)
          (⟨1, 1, ⟨some [⟨1, 0⟩]⟩⟩ : SimpleVector Keyed) = .ok false) :=
  C12_less_by_order _ _ (by decide) (by decide)

/-- The `==` and the `<` of the records do not agree; on the vectors above,
`a < b` and `b < a` return `true` and `false`. -/
theorem keyed_runs :
    ¬ EqConsistent Keyed ∧
    SimpleVector.op_lt (⟨1, 1, ⟨some [⟨1, 0⟩]⟩⟩ : SimpleVector Keyed)
      (⟨2, 2, ⟨some [⟨1, 1⟩, ⟨5, 5⟩]⟩⟩ : SimpleVector Keyed) = .ok true ∧
    SimpleVector.op_lt (⟨2, 2, ⟨some [⟨1, 1⟩, ⟨5, 5⟩]⟩⟩ : SimpleVector Keyed)
      (⟨1, 1, ⟨some [⟨1, 0⟩]⟩⟩ : SimpleVector Keyed) = .ok false := by
  refine ⟨?_, by decide, by decide⟩
  intro h
  exact absurd ((h ⟨1, 0⟩ ⟨1, 1⟩).mpr (by decide)) (by decide)

theorem SimpleVector.holds_lt_iff {T : Type} [Elem T] [ElemOrd T] (a b : SimpleVector T)
    (ha : SimpleVector.Inv a) (hb : SimpleVector.Inv b) :
    holds (SimpleVector.op_lt a b)
      ↔ lexCmp (SimpleVector.elems a) (SimpleVector.elems b) = .lt := by
  unfold holds
  rw [SimpleVector.op_lt_eq a b ha hb, ← lexLt_iff_cmp]
  simp

theorem SimpleVector.holds_gt_iff {T : Type} [Elem T] [ElemOrd T] (a b : SimpleVector T)
    (ha : SimpleVector.Inv a) (hb : SimpleVector.Inv b) (h : StrictOrdered T) :
    holds (SimpleVector.op_lt b a)
      ↔ lexCmp (SimpleVector.elems a) (SimpleVector.elems b) = .gt := by
  unfold holds
  rw [SimpleVector.op_lt_eq b a hb ha, ← lexGt_iff_cmp h]
  simp

theorem SimpleVector.holds_eq_iff {T : Type} [Elem T] [ElemOrd T] (a b : SimpleVector T)
    (ha : SimpleVector.Inv a) (hb : SimpleVector.Inv b) (hc : EqConsistent T) :
    holds (SimpleVector.op_eq a b)
      ↔ lexCmp (SimpleVector.elems a) (SimpleVector.elems b) = .eq := by
  unfold holds
  rw [SimpleVector.op_eq_eq a b ha hb, ← listEq_iff_cmp hc]
  have hla := SimpleVector.elems_length_inv a ha
  have hlb := SimpleVector.elems_length_inv b hb
  constructor
  · intro h
    have h2 : (decide (a.size_ = b.size_)
        && listEq (SimpleVector.elems a) (SimpleVector.elems b)) = true := by
      injection h
    exact (Bool.and_eq_true _ _ ▸ h2).2
  · intro h
    have hlen := ((listEq_iff _ _).mp h).1
    rw [hla, hlb] at hlen
    simp [hlen, h]

theorem SimpleVector.holds_le_iff {T : Type} [Elem T] [ElemOrd T] (a b : SimpleVector T)
    (ha : SimpleVector.Inv a) (hb : SimpleVector.Inv b) (h : StrictOrdered T) :
    holds (SimpleVector.op_le a b)
      ↔ lexCmp (SimpleVector.elems a) (SimpleVector.elems b) ≠ .gt := by
  rw [Ne, ← SimpleVector.holds_gt_iff a b ha hb h]
  unfold holds
  simp only [SimpleVector.op_le, SimpleVector.op_lt_eq b a hb ha, bind, Except.bind, pure,
    Except.pure]
  cases lexLt (SimpleVector.elems b) (SimpleVector.elems a) <;> simp

theorem SimpleVector.holds_ge_iff {T : Type} [Elem T] [ElemOrd T] (a b : SimpleVector T)
    (ha : SimpleVector.Inv a) (hb : SimpleVector.Inv b) :
    holds (SimpleVector.op_ge a b)
      ↔ lexCmp (SimpleVector.elems a) (SimpleVector.elems b) ≠ .lt := by
  rw [Ne, ← SimpleVector.holds_lt_iff a b ha hb]
  unfold holds
  simp only [SimpleVector.op_ge, SimpleVector.op_lt_eq a b ha hb, bind, Except.bind, pure,
    Except.pure]
  cases lexLt (SimpleVector.elems a) (SimpleVector.elems b) <;> simp

theorem SimpleVector.holds_le_flip_iff {T : Type} [Elem T] [ElemOrd T] (a b : SimpleVector T)
    (ha : SimpleVector.Inv a) (hb : SimpleVector.Inv b) :
    holds (SimpleVector.op_le b a)
      ↔ lexCmp (SimpleVector.elems a) (SimpleVector.elems b) ≠ .lt := by
  rw [Ne, ← SimpleVector.holds_lt_iff a b ha hb]
  unfold holds
  simp only [SimpleVector.op_le, SimpleVector.op_lt_eq a b ha hb, bind, Except.bind, pure,
    Except.pure]
  cases lexLt (SimpleVector.elems a) (SimpleVector.elems b) <;> simp

/-- C13. For vectors `a`, `b`, `c` satisfying the invariant and an element
type whose `<` is a strict total order up to its `==`, every comparison returns
a value and: exactly one of `a < b`, `a == b`, `b < a` holds; `a <= b` holds iff
`a < b` or `a == b`; `a > b` iff `b < a`; `a >= b` iff `b <= a`; `<=` is
reflexive, transitive and total, and `a <= b` with `b <= a` gives `a == b`. -/
theorem C13_total_order {T : Type} [Elem T] [ElemOrd T] (a b c : SimpleVector T)
    (ha : SimpleVector.Inv a) (hb : SimpleVector.Inv b) (hcv : SimpleVector.Inv c)
    (h : StrictOrdered T) :
    (∃ r1 r2 r3 r4 r5 r6, SimpleVector.op_lt a b = .ok r1 ∧ SimpleVector.op_eq a b = .ok r2 ∧
      SimpleVector.op_ne a b = .ok r3 ∧ SimpleVector.op_le a b = .ok r4 ∧
      SimpleVector.op_gt a b = .ok r5 ∧ SimpleVector.op_ge a b = .ok r6) ∧
    ((holds (SimpleVector.op_lt a b) ∧ ¬ holds (SimpleVector.op_eq a b) ∧
        ¬ holds (SimpleVector.op_lt b a)) ∨
      (¬ holds (SimpleVector.op_lt a b) ∧ holds (SimpleVector.op_eq a b) ∧
        ¬ holds (SimpleVector.op_lt b a)) ∨
      (¬ holds (SimpleVector.op_lt a b) ∧ ¬ holds (SimpleVector.op_eq a b) ∧
        holds (SimpleVector.op_lt b a))) ∧
    (holds (SimpleVector.op_le a b)
      ↔ (holds (SimpleVector.op_lt a b) ∨ holds (SimpleVector.op_eq a b))) ∧
    (holds (SimpleVector.op_gt a b) ↔ holds (SimpleVector.op_lt b a)) ∧
    (holds (SimpleVector.op_ge a b) ↔ holds (SimpleVector.op_le b a)) ∧
    holds (SimpleVector.op_le a a) ∧
    (holds (SimpleVector.op_le a b) → holds (SimpleVector.op_le b c) →
      holds (SimpleVector.op_le a c)) ∧
    (holds (SimpleVector.op_le a b) ∨ holds (SimpleVector.op_le b a)) ∧
    (holds (SimpleVector.op_le a b) → holds (SimpleVector.op_le b a) →
      holds (SimpleVector.op_eq a b)) := by
  have hc := h.2.2.1
  refine ⟨?_, ?_, ?_, Iff.rfl, ?_, ?_, ?_, ?_, ?_⟩
  · refine ⟨lexLt (SimpleVector.elems a) (SimpleVector.elems b),
      decide (a.size_ = b.size_) && listEq (SimpleVector.elems a) (SimpleVector.elems b),
      !(decide (a.size_ = b.size_) && listEq (SimpleVector.elems a) (SimpleVector.elems b)),
      !lexLt (SimpleVector.elems b) (SimpleVector.elems a),
      lexLt (SimpleVector.elems b) (SimpleVector.elems a),
      !lexLt (SimpleVector.elems a) (SimpleVector.elems b),
      SimpleVector.op_lt_eq a b ha hb, SimpleVector.op_eq_eq a b ha hb,
      ?_, ?_, SimpleVector.op_lt_eq b a hb ha, ?_⟩
    · simp only [SimpleVector.op_ne, SimpleVector.op_eq_eq a b ha hb, bind, Except.bind, pure,
        Except.pure]
    · simp only [SimpleVector.op_le, SimpleVector.op_lt_eq b a hb ha, bind, Except.bind, pure,
        Except.pure]
    · simp only [SimpleVector.op_ge, SimpleVector.op_lt_eq a b ha hb, bind, Except.bind, pure,
        Except.pure]
  · rw [SimpleVector.holds_lt_iff a b ha hb, SimpleVector.holds_eq_iff a b ha hb hc,
      SimpleVector.holds_gt_iff a b ha hb h]
    cases lexCmp (SimpleVector.elems a) (SimpleVector.elems b) <;> simp
  · rw [SimpleVector.holds_le_iff a b ha hb h, SimpleVector.holds_lt_iff a b ha hb,
      SimpleVector.holds_eq_iff a b ha hb hc]
    cases lexCmp (SimpleVector.elems a) (SimpleVector.elems b) <;> simp
  · rw [SimpleVector.holds_ge_iff a b ha hb, SimpleVector.holds_le_flip_iff a b ha hb]
  · rw [SimpleVector.holds_le_iff a a ha ha h, lexCmp_self h.1]
    simp
  · rw [SimpleVector.holds_le_iff a b ha hb h, SimpleVector.holds_le_iff b c hb hcv h,
      SimpleVector.holds_le_iff a c ha hcv h]
    exact lexCmp_le_trans h _ _ _
  · rw [SimpleVector.holds_le_iff a b ha hb h, SimpleVector.holds_le_flip_iff a b ha hb]
    cases lexCmp (SimpleVector.elems a) (SimpleVector.elems b) <;> simp
  · rw [SimpleVector.holds_le_iff a b ha hb h, SimpleVector.holds_le_flip_iff a b ha hb,
      SimpleVector.holds_eq_iff a b ha hb hc]
    cases lexCmp (SimpleVector.elems a) (SimpleVector.elems b) <;> simp

/-- C13 on `[1, 2]`, `[1, 2, 3]` and `[1, 3]`. -/
theorem C13_total_order_witness :
    (∃ r1 r2 r3 r4 r5 r6,
      SimpleVector.op_lt (⟨2, 2, ⟨some [1, 2]⟩⟩ : SimpleVector Nat)
        ⟨3, 3, ⟨some [1, 2, 3]⟩⟩ = .ok r1 ∧
      SimpleVector.op_eq (⟨2, 2, ⟨some [1, 2]⟩⟩ : SimpleVector Nat)
        ⟨3, 3, ⟨some [1, 2, 3]⟩⟩ = .ok r2 ∧
      SimpleVector.op_ne (⟨2, 2, ⟨some [1, 2]⟩⟩ : SimpleVector Nat)
        ⟨3, 3, ⟨some [1, 2, 3]⟩⟩ = .ok r3 ∧
      SimpleVector.op_le (⟨2, 2, ⟨some [1, 2]⟩⟩ : SimpleVector Nat)
        ⟨3, 3, ⟨some [1, 2, 3]⟩⟩ = .ok r4 ∧
      SimpleVector.op_gt (⟨2, 2, ⟨some [1, 2]⟩⟩ : SimpleVector Nat)
        ⟨3, 3, ⟨some [1, 2, 3]⟩⟩ = .ok r5 ∧
      SimpleVector.op_ge (⟨2, 2, ⟨some [1, 2]⟩⟩ : SimpleVector Nat)
        ⟨3, 3, ⟨some [1, 2, 3]⟩⟩ = .ok r6) ∧
    holds (SimpleVector.op_le (⟨2, 2, ⟨some [1, 2]⟩⟩ : SimpleVector Nat)
      ⟨2, 2, ⟨some [1, 3]⟩⟩) :=
  have h := C13_total_order (⟨2, 2, ⟨some [1, 2]⟩⟩ : SimpleVector Nat)
    ⟨3, 3, ⟨some [1, 2, 3]⟩⟩ ⟨2, 2, ⟨some [1, 3]⟩⟩ (by decide) (by decide) (by decide)
    natOrd_strictOrdered
  ⟨h.1, h.2.2.2.2.2.2.1 (by unfold holds; decide) (by unfold holds; decide)⟩

/-! ## Insert, PushBack and Erase together -/

theorem ArrayPtr.put_put {T : Type} (p : ArrayPtr T) (b1 b2 : List T) :
    (p.put b1).put b2 = p.put b2 := by
  cases p with
  | mk raw => cases raw <;> rfl

/-- `Insert` at `end()` of an object outside the vector runs to the same
result as `PushBack`, failures included. -/
theorem SimpleVector.Insert_end_eq {T : Type} [Elem T] (s : SimpleVector T) (v : T)
    (hinv : SimpleVector.Inv s) :
    SimpleVector.Insert s s.size_ (.obj v)
      = (SimpleVector.PushBack s (.obj v)).map (fun s1 => (s1, s.size_)) := by
  obtain ⟨hsc, hlen, hcap⟩ := hinv
  have hmax := maxCount_lt T
  rw [SimpleVector.Insert_obj, SimpleVector.PushBack_obj]
  rw [if_pos (Nat.le_refl _)]
  by_cases he : s.size_ = s.capacity_
  · simp only [if_pos he, SimpleVector.reallocate, bind, Except.bind, pure, Except.pure,
      Except.map, ArrayPtr.swap]
    have hc0 : (if s.capacity_ = 0 then 1 else wrap (s.capacity_ * 2)) ≠ 0 := by
      have hw : wrap (s.capacity_ * 2) = 2 * s.capacity_ := by
        rw [wrap_eq _ (by omega)]; omega
      rw [hw]; split_ifs <;> omega
    generalize (if s.capacity_ = 0 then 1 else wrap (s.capacity_ * 2)) = n at hc0
    cases hp : (ArrayPtr.ctor_size n : Res (ArrayPtr T)) with
    | error e => rfl
    | ok p =>
      have hps : ∃ b, p = ⟨some b⟩ := by
        unfold ArrayPtr.ctor_size at hp
        rw [if_pos hc0] at hp
        split at hp
        · cases hp; exact ⟨_, rfl⟩
        · cases hp
      obtain ⟨b, rfl⟩ := hps
      simp only []
      cases hr : std_move s.data_.cells 0 s.size_ (ArrayPtr.mk (some b)).cells 0 with
      | error e => rfl
      | ok r =>
        simp only [ArrayPtr.put, ArrayPtr.cells]
        cases hw : wr r.2 s.size_ v with
        | error e => rfl
        | ok nb =>
          simp only [std_move, Nat.le_refl, if_true, Nat.sub_self, move_loop]
  · simp only [if_neg he, std_move_backward_in, Nat.le_refl, if_true, Nat.sub_self,
      move_backward_loop_in, bind, Except.bind, pure, Except.pure, Except.map]
    cases hw : wr s.data_.cells s.size_ v with
    | error e => rfl
    | ok nb => rfl

/-- `Insert` of a cell of the vector is the `Insert` of the value it reads in
that cell: on a vector satisfying the invariant, at a cursor in
`[begin(), end()]`, the read does not fail. -/
theorem SimpleVector.Insert_cell {T : Type} [Elem T] (s : SimpleVector T) (i j : Nat)
    (hinv : SimpleVector.Inv s) (hi : i ≤ s.size_) (hj : j < s.capacity_) :
    ∃ x, SimpleVector.Insert s i (.cell j) = SimpleVector.Insert s i (.obj x) := by
  obtain ⟨hsc, hlen, hcap⟩ := hinv
  have hmax := maxCount_lt T
  by_cases he : s.size_ = s.capacity_
  · have hw : wrap (s.capacity_ * 2) = 2 * s.capacity_ := by
      rw [wrap_eq _ (by omega)]; omega
    cases hnd : (ArrayPtr.ctor_size (if s.capacity_ = 0 then 1 else wrap (s.capacity_ * 2)) :
        Res (ArrayPtr T)) with
    | error e =>
      refine ⟨Elem.dflt, ?_⟩
      unfold SimpleVector.Insert
      simp only [if_pos hi, if_pos he, hnd, bind, Except.bind]
    | ok nd =>
      have hndl := ArrayPtr.ctor_size_cells _ nd hnd
      rw [hw] at hndl
      obtain ⟨r1, hr1, hl11, _, _, _⟩ :=
        move_loop_spec i s.data_.cells 0 nd.cells 0 (by omega)
          (by rw [hndl]; split_ifs <;> omega)
      have hjl : j < r1.1.length := by omega
      refine ⟨r1.1[j], ?_⟩
      unfold SimpleVector.Insert
      simp only [if_pos hi, if_pos he, hnd, std_move, Nat.zero_le, if_true, Nat.sub_zero, hr1,
        Ref.load, rd_ok _ _ hjl, bind, Except.bind, pure, Except.pure]
  · obtain ⟨b1, hb1, hbl, _, _, _⟩ :=
      move_backward_loop_in_spec (s.size_ - i) s.data_.cells s.size_ (by omega) (by omega)
    have hjl : j < b1.length := by omega
    refine ⟨b1[j], ?_⟩
    unfold SimpleVector.Insert
    simp only [if_pos hi, if_neg he, std_move_backward_in, if_true, hb1, Ref.load,
      rd_ok _ _ hjl, bind, Except.bind, pure, Except.pure]

theorem listEq_self {T : Type} [ElemOrd T] (hr : ∀ x : T, ElemOrd.eq x x = true)
    (xs : List T) : listEq xs xs = true := by
  induction xs with
  | nil => rfl
  | cons x xs ih => simp [listEq, hr x, ih]

theorem take_drop_insert {T : Type} (xs : List T) (i : Nat) (v : T) (hi : i ≤ xs.length) :
    (xs.take i ++ v :: xs.drop i).take i ++ (xs.take i ++ v :: xs.drop i).drop (i + 1)
      = xs := by
  have hL : (xs.take i).length = i := by rw [List.length_take]; omega
  have hL1 : (xs.take i ++ [v]).length = i + 1 := by rw [List.length_append, hL]; rfl
  have hsplit : xs.take i ++ v :: xs.drop i = (xs.take i ++ [v]) ++ xs.drop i := by simp
  rw [List.take_left' hL]
  rw [hsplit, List.drop_left' hL1]
  exact List.take_append_drop i xs

/-- For an object outside the vector, on a vector satisfying the invariant,
`Insert(end(), v)` and `PushBack(v)` run to the same result: when one returns
so does the other, with the very same vector (same size, same capacity, same
cells, hence same live elements), the cursor returned by `Insert` being
`begin() + old size`; this covers the branch size < capacity and the branch
size == capacity, where both return as soon as the block of the new capacity can
be allocated. -/
theorem SimpleVector.Insert_end_PushBack {T : Type} [Elem T] (s : SimpleVector T) (v : T)
    (hinv : SimpleVector.Inv s) :
    SimpleVector.Insert s s.GetSize (.obj v)
      = (SimpleVector.PushBack s (.obj v)).map (fun s1 => (s1, s.GetSize)) ∧
    (∀ s1, SimpleVector.PushBack s (.obj v) = .ok s1 →
      SimpleVector.Insert s s.GetSize (.obj v) = .ok (s1, s.GetSize) ∧
      SimpleVector.Insert_rv s s.GetSize (.obj v)
        = .ok ((s1, s.GetSize), .obj (Elem.moved v)) ∧
      SimpleVector.PushBack_rv s (.obj v) = .ok (s1, .obj (Elem.moved v))) ∧
    ((s.GetSize = s.GetCapacity →
        (if s.GetCapacity = 0 then 1 else 2 * s.GetCapacity) ≤ maxCount T) →
      ∃ s1, SimpleVector.PushBack s (.obj v) = .ok s1 ∧
        SimpleVector.Insert s s.GetSize (.obj v) = .ok (s1, s.GetSize) ∧
        s1.GetSize = s.GetSize + 1 ∧
        SimpleVector.elems s1 = SimpleVector.elems s ++ [v]) := by
  have heq := SimpleVector.Insert_end_eq s v hinv
  have hins : ∀ s1, SimpleVector.PushBack s (.obj v) = .ok s1 →
      SimpleVector.Insert s s.size_ (.obj v) = .ok (s1, s.size_) := by
    intro s1 h1
    rw [heq, h1]; rfl
  refine ⟨heq, ?_, ?_⟩
  · intro s1 h1
    refine ⟨hins s1 h1, ?_, ?_⟩
    · show SimpleVector.Insert_rv s s.size_ (.obj v) = _
      rw [SimpleVector.Insert_rv_eq, hins s1 h1]; rfl
    · rw [SimpleVector.PushBack_rv_eq, h1]; rfl
  · intro hmem
    obtain ⟨s1, h1, _, h3, _, _, h6⟩ := SimpleVector.PushBack_spec s v hinv hmem
    exact ⟨s1, h1, hins s1 h1, h3, h6⟩

/-- With room left, `Insert(end(), v[j])` and `PushBack(v[j])` run to the same
result too: no element is moved before the cell is read. -/
theorem SimpleVector.Insert_end_cell_room {T : Type} [Elem T] (s : SimpleVector T) (j : Nat)
    (he : s.size_ ≠ s.capacity_) :
    SimpleVector.Insert s s.size_ (.cell j)
      = (SimpleVector.PushBack s (.cell j)).map (fun s1 => (s1, s.size_)) := by
  unfold SimpleVector.Insert SimpleVector.PushBack
  simp only [if_pos (Nat.le_refl _), if_neg he, std_move_backward_in, Nat.le_refl, if_true,
    Nat.sub_self, move_backward_loop_in, Ref.load, bind, Except.bind, pure, Except.pure,
    Except.map]
  cases hx : rd s.data_.cells j with
  | error e => rfl
  | ok x =>
    simp only []
    cases hw : wr s.data_.cells s.size_ x with
    | error e => rfl
    | ok nb => rfl

/-- Both branches of `Insert(end(), 3)` next to `PushBack(3)`. -/
theorem Insert_end_runs :
    SimpleVector.Insert (⟨2, 2, ⟨some [1, 2]⟩⟩ : SimpleVector Nat) 2 (.obj 3)
      = .ok (⟨3, 4, ⟨some [1, 2, 3, 0]⟩⟩, 2) ∧
    SimpleVector.PushBack (⟨2, 2, ⟨some [1, 2]⟩⟩ : SimpleVector Nat) (.obj 3)
      = .ok ⟨3, 4, ⟨some [1, 2, 3, 0]⟩⟩ ∧
    SimpleVector.Insert (⟨2, 4, ⟨some [1, 2, 7, 7]⟩⟩ : SimpleVector Nat) 2 (.obj 3)
      = .ok (⟨3, 4, ⟨some [1, 2, 3, 7]⟩⟩, 2) ∧
    SimpleVector.PushBack (⟨2, 4, ⟨some [1, 2, 7, 7]⟩⟩ : SimpleVector Nat) (.obj 3)
      = .ok ⟨3, 4, ⟨some [1, 2, 3, 7]⟩⟩ := by
  decide

/-- C19, `SimpleVector<int> v{1, 2};` then `v.Insert(v.end(), v[0])` against
`v.PushBack(v[0])`.  The vector is full.  `Insert` reads `value` in the old
block before that block is deleted and returns `[1, 2, 1]` with capacity 4 and
the cursor `begin() + 2`; `PushBack` reads `item` once the old block has been
deleted, which is a fault: the two calls do not produce the same state.  The
same over the free store, where the old block has address 1 and the new one
address 2. -/
theorem C19_Insert_at_end_differs_from_PushBack :
    SimpleVector.ctor_init ([1, 2] : List Int) = .ok ⟨2, 2, ⟨some [1, 2]⟩⟩ ∧
    SimpleVector.Insert (⟨2, 2, ⟨some [1, 2]⟩⟩ : SimpleVector Int) 2 (.cell 0)
      = .ok (⟨3, 4, ⟨some [1, 2, 1, 0]⟩⟩, 2) ∧
    SimpleVector.PushBack (⟨2, 2, ⟨some [1, 2]⟩⟩ : SimpleVector Int) (.cell 0)
      = .error .bad_access ∧
    Mem.SimpleVector.Insert (⟨[some [1, 2]], []⟩ : Mem.Heap Int) ⟨2, 2, ⟨1⟩⟩ 2 (.cell 1 0)
      = .ok (⟨[none, some [1, 2, 1, 0]], [1]⟩, ⟨3, 4, ⟨2⟩⟩, 2) ∧
    Mem.SimpleVector.PushBack (⟨[some [1, 2]], []⟩ : Mem.Heap Int) ⟨2, 2, ⟨1⟩⟩ (.cell 1 0)
      = .error .bad_access := by
  decide

/-- Insertion then erasure on `[10, 20, 30]`: reallocating (the capacity
stays 6) and in place (the cell freed at the end holds the moved-from 0), of
an outside object and of the element `v[2]` of the vector. -/
theorem Insert_Erase_runs :
    SimpleVector.Insert (⟨3, 3, ⟨some [10, 20, 30]⟩⟩ : SimpleVector Nat) 1 (.obj 99)
      = .ok (⟨4, 6, ⟨some [10, 99, 20, 30, 0, 0]⟩⟩, 1) ∧
    SimpleVector.Erase (⟨4, 6, ⟨some [10, 99, 20, 30, 0, 0]⟩⟩ : SimpleVector Nat) 1
      = .ok (⟨3, 6, ⟨some [10, 20, 30, 0, 0, 0]⟩⟩, 1) ∧
    SimpleVector.Insert (⟨3, 4, ⟨some [10, 20, 30, 7]⟩⟩ : SimpleVector Nat) 0 (.obj 99)
      = .ok (⟨4, 4, ⟨some [99, 10, 20, 30]⟩⟩, 0) ∧
    SimpleVector.Erase (⟨4, 4, ⟨some [99, 10, 20, 30]⟩⟩ : SimpleVector Nat) 0
      = .ok (⟨3, 4, ⟨some [10, 20, 30, 0]⟩⟩, 0) ∧
    SimpleVector.Insert (⟨3, 4, ⟨some [10, 20, 30, 7]⟩⟩ : SimpleVector Nat) 0 (.cell 2)
      = .ok (⟨4, 4, ⟨some [20, 10, 20, 30]⟩⟩, 0) ∧
    SimpleVector.Erase (⟨4, 4, ⟨some [20, 10, 20, 30]⟩⟩ : SimpleVector Nat) 0
      = .ok (⟨3, 4, ⟨some [10, 20, 30, 0]⟩⟩, 0) := by
  decide

/-! ## Handles over the free store -/

theorem Mem.Heap.block_le {T : Type} (h : Mem.Heap T) (p : Nat) (b : List T)
    (hb : h.block p = some b) : p ≠ 0 ∧ p ≤ h.blocks.length := by
  cases p with
  | zero => simp [Mem.Heap.block] at hb
  | succ k =>
    refine ⟨Nat.succ_ne_zero k, ?_⟩
    by_contra hc
    have : h.blocks[k]? = none := List.getElem?_eq_none (by omega)
    simp [Mem.Heap.block, this] at hb

theorem Mem.Heap.delete_array_spec {T : Type} (h : Mem.Heap T) (p : Nat)
    (hlive : p = 0 ∨ (h.block p).isSome = true) :
    ∃ h1, h.delete_array p = .ok h1 ∧ h1.blocks.length = h.blocks.length ∧
      h1.deleted = h.deleted ++ (if p = 0 then [] else [p]) ∧
      (p ≠ 0 → h1.block p = none) ∧ (∀ r, r ≠ p → h1.block r = h.block r) := by
  cases p with
  | zero =>
    exact ⟨h, rfl, rfl, by simp, fun hp => absurd rfl hp, fun _ _ => rfl⟩
  | succ k =>
    have hs : (h.block (k + 1)).isSome = true := by
      rcases hlive with h0 | h1
      · cases h0
      · exact h1
    obtain ⟨b, hb⟩ := Option.isSome_iff_exists.mp hs
    have hk := (Mem.Heap.block_le h (k + 1) b hb).2
    refine ⟨⟨h.blocks.set k none, h.deleted ++ [k + 1]⟩, ?_, by simp, by simp, ?_, ?_⟩
    · simp [Mem.Heap.delete_array, hb]
    · intro _
      simp [Mem.Heap.block, List.getElem?_set, show k < h.blocks.length by omega]
    · intro r hr
      cases r with
      | zero => rfl
      | succ j =>
        have hne : k ≠ j := by omega
        simp [Mem.Heap.block, List.getElem?_set_ne hne]

theorem Mem.World.owns_iff {T : Type} (w : Mem.World T) (i p : Nat) :
    w.owns i p ↔ (p ≠ 0 ∧ w.handles[i]? = some ⟨p⟩) := Iff.rfl

/-- Appending a handle: the old positions keep their handle. -/
theorem Mem.owns_append {T : Type} (hp : Mem.Heap T) (hp1 : Mem.Heap T)
    (hs : List Mem.ArrayPtr) (a : Mem.ArrayPtr) (i p : Nat) :
    (Mem.World.mk hp1 (hs ++ [a])).owns i p ↔
      ((Mem.World.mk hp hs).owns i p ∨ (i = hs.length ∧ p ≠ 0 ∧ a = ⟨p⟩)) := by
  simp only [Mem.World.owns]
  rcases Nat.lt_trichotomy i hs.length with hi | hi | hi
  · rw [List.getElem?_append_left hi]
    constructor
    · intro h; exact Or.inl h
    · rintro (h | ⟨h, _⟩)
      · exact h
      · omega
  · subst hi
    rw [List.getElem?_append_right (Nat.le_refl _)]
    simp only [Nat.sub_self, List.getElem?_cons_zero, Option.some.injEq,
      List.getElem?_eq_none (Nat.le_refl hs.length), true_and]
    constructor
    · rintro ⟨h1, h2⟩; exact Or.inr ⟨h1, h2⟩
    · rintro (⟨_, h⟩ | ⟨h1, h2⟩)
      · cases h
      · exact ⟨h1, h2⟩
  · rw [List.getElem?_eq_none (by simp; omega), List.getElem?_eq_none (by omega)]
    constructor
    · rintro ⟨_, h⟩; cases h
    · rintro (⟨_, h⟩ | ⟨h, _⟩)
      · cases h
      · omega

/-- Replacing a handle: the other positions keep theirs. -/
theorem Mem.owns_set {T : Type} (hp hp1 : Mem.Heap T) (hs : List Mem.ArrayPtr) (k : Nat)
    (a : Mem.ArrayPtr) (i p : Nat) :
    (Mem.World.mk hp1 (hs.set k a)).owns i p ↔
      ((i ≠ k ∧ (Mem.World.mk hp hs).owns i p) ∨
        (i = k ∧ k < hs.length ∧ p ≠ 0 ∧ a = ⟨p⟩)) := by
  simp only [Mem.World.owns]
  by_cases hik : i = k
  · subst hik
    by_cases hlt : i < hs.length
    · simp [List.getElem?_set, hlt]
    · simp [List.getElem?_set, hlt, List.getElem?_eq_none (Nat.le_of_not_lt hlt)]
  · have hki : k ≠ i := fun h => hik h.symm
    simp [List.getElem?_set_ne hki, hik]

theorem Mem.World.Good_of_map {T : Type} (w w1 : Mem.World T) (σ : Nat → Nat)
    (hlen : w.heap.blocks.length ≤ w1.heap.blocks.length)
    (h1 : ∀ i p, w1.owns i p → w.owns (σ i) p)
    (h2 : ∀ i j p, i ≠ j → w1.owns i p → w1.owns j p → σ i ≠ σ j)
    (hw : w.Good) : w1.Good := by
  refine ⟨?_, ?_⟩
  · intro i j p hij hi hj
    exact hw.1 (σ i) (σ j) p (h2 i j p hij hi hj) (h1 i p hi) (h1 j p hj)
  · intro i p hi
    exact Nat.le_trans (hw.2 (σ i) p (h1 i p hi)) hlen

theorem Mem.World.Good_of_new {T : Type} (w w1 : Mem.World T) (n q : Nat)
    (hlen : w.heap.blocks.length ≤ w1.heap.blocks.length)
    (hq : q ≤ w1.heap.blocks.length)
    (h1 : ∀ i p, w1.owns i p → (w.owns i p ∨ (i = n ∧ p = q)))
    (hfree : ∀ i, ¬ w.owns i q)
    (hw : w.Good) : w1.Good := by
  refine ⟨?_, ?_⟩
  · intro i j p hij hi hj
    rcases h1 i p hi with hi1 | ⟨hi1, hi2⟩
    · rcases h1 j p hj with hj1 | ⟨_, hj2⟩
      · exact hw.1 i j p hij hi1 hj1
      · subst hj2; exact hfree i hi1
    · rcases h1 j p hj with hj1 | ⟨hj1, _⟩
      · subst hi2; exact hfree j hj1
      · omega
  · intro i p hi
    rcases h1 i p hi with hi1 | ⟨_, hi2⟩
    · exact Nat.le_trans (hw.2 i p hi1) hlen
    · rw [hi2]; exact hq

theorem Mem.World.Good_start {T : Type} : (Mem.World.start : Mem.World T).Good := by
  refine ⟨?_, ?_⟩
  · intro i j p _ hi
    simp [Mem.World.owns, Mem.World.start] at hi
  · intro i p hi
    simp [Mem.World.owns, Mem.World.start] at hi

theorem Mem.World.Good_create_empty {T : Type} (w : Mem.World T) (hw : w.Good) :
    w.create_empty.Good := by
  refine Mem.World.Good_of_map w _ id (Nat.le_refl _) ?_ (fun i j p hij _ _ => hij) hw
  intro i p hi
  rcases (Mem.owns_append w.heap w.heap w.handles _ i p).mp hi with h | ⟨_, hp0, hp⟩
  · exact h
  · simp [Mem.ArrayPtr.ctor_default] at hp
    exact absurd hp.symm hp0

theorem Mem.World.Good_allocate {T : Type} [Elem T] (w : Mem.World T) (size : Nat)
    (w1 : Mem.World T) (hw : w.Good) (h : w.allocate size = .ok w1) : w1.Good := by
  unfold Mem.World.allocate Mem.ArrayPtr.ctor_size at h
  by_cases h0 : size = 0
  · simp only [h0, ne_eq, not_true_eq_false, if_false, bind, Except.bind, pure,
      Except.pure] at h
    cases h
    exact Mem.World.Good_create_empty w hw
  · by_cases hm : size ≤ maxCount T
    · simp only [h0, ne_eq, not_false_eq_true, if_true, Mem.Heap.new_array, hm, bind,
        Except.bind, pure, Except.pure] at h
      cases h
      refine Mem.World.Good_of_new w _ w.handles.length (w.heap.blocks.length + 1)
        (by simp) (by simp) ?_ ?_ hw
      · intro i p hi
        rcases (Mem.owns_append w.heap _ w.handles _ i p).mp hi with h | ⟨h1, _, h3⟩
        · exact Or.inl h
        · right
          refine ⟨h1, ?_⟩
          injection h3 with h3
          exact h3.symm
      · intro i hi
        have := hw.2 i _ hi
        omega
    · simp [h0, Mem.Heap.new_array, hm, bind, Except.bind] at h

theorem Mem.World.Good_adopt {T : Type} (w : Mem.World T) (raw_ptr : Nat) (hw : w.Good)
    (hp : raw_ptr = 0 ∨ ((w.heap.block raw_ptr).isSome = true ∧ ∀ i, ¬ w.owns i raw_ptr)) :
    (w.adopt raw_ptr).Good := by
  rcases hp with h0 | ⟨hlive, hfree⟩
  · subst h0
    exact Mem.World.Good_create_empty w hw
  · obtain ⟨b, hb⟩ := Option.isSome_iff_exists.mp hlive
    refine Mem.World.Good_of_new w _ w.handles.length raw_ptr (Nat.le_refl _)
      (Mem.Heap.block_le _ _ b hb).2 ?_ hfree hw
    intro i p hi
    rcases (Mem.owns_append w.heap w.heap w.handles _ i p).mp hi with h | ⟨h1, _, h3⟩
    · exact Or.inl h
    · right
      refine ⟨h1, ?_⟩
      simp only [Mem.ArrayPtr.ctor_raw] at h3
      injection h3 with h3
      exact h3.symm

theorem Mem.World.Good_move_construct {T : Type} (w : Mem.World T) (s : Nat)
    (w1 : Mem.World T) (hw : w.Good) (h : w.move_construct s = .ok w1) : w1.Good := by
  unfold Mem.World.move_construct at h
  cases hs : w.handles[s]? with
  | none => rw [hs] at h; cases h
  | some other =>
    rw [hs] at h
    simp only [Mem.ArrayPtr.ctor_move] at h
    cases h
    have hown : ∀ i p, (Mem.World.mk w.heap (w.handles.set s ⟨0⟩ ++ [⟨other.raw_ptr_⟩])).owns i p →
        ((i ≠ s ∧ i ≠ w.handles.length ∧ w.owns i p) ∨
          (i = w.handles.length ∧ i ≠ s ∧ w.owns s p)) := by
      intro i p hi
      have hslt : s < w.handles.length := by
        by_contra hc
        rw [List.getElem?_eq_none (Nat.le_of_not_lt hc)] at hs
        cases hs
      rcases (Mem.owns_append w.heap w.heap _ _ i p).mp hi with h | ⟨h1, h2, h3⟩
      · rcases (Mem.owns_set w.heap w.heap w.handles s _ i p).mp h with ⟨h1, h2⟩ | ⟨_, _, h3, h4⟩
        · left
          refine ⟨h1, ?_, h2⟩
          intro hc
          rw [hc] at h2
          have := h2.2
          rw [List.getElem?_eq_none (Nat.le_refl _)] at this
          cases this
        · injection h4 with h4
          exact absurd h4.symm h3
      · right
        rw [List.length_set] at h1
        refine ⟨h1, by omega, h2, ?_⟩
        injection h3 with h3
        rw [hs, ← h3]
    refine Mem.World.Good_of_map w _ (fun i => if i = w.handles.length then s else i)
      (Nat.le_refl _) ?_ ?_ hw
    · intro i p hi
      rcases hown i p hi with ⟨_, h2, h3⟩ | ⟨h1, _, h3⟩
      · simp only [h2, if_false]; exact h3
      · simp only [h1, if_true]; exact h3
    · intro i j p hij hi hj
      rcases hown i p hi with ⟨h1, h2, _⟩ | ⟨h1, _, _⟩ <;>
        rcases hown j p hj with ⟨k1, k2, _⟩ | ⟨k1, _, _⟩
      · simp only [h2, k2, if_false]; exact hij
      · simp only [h2, k1, if_false, if_true]; exact h1
      · simp only [h1, k2, if_false, if_true]; exact fun h => k1 h.symm
      · omega

theorem Mem.Heap.delete_array_length {T : Type} (h : Mem.Heap T) (p : Nat) (h1 : Mem.Heap T)
    (hd : h.delete_array p = .ok h1) : h1.blocks.length = h.blocks.length := by
  cases p with
  | zero =>
    simp only [Mem.Heap.delete_array] at hd
    cases hd
    rfl
  | succ k =>
    simp only [Mem.Heap.delete_array] at hd
    cases hb : h.block (k + 1) with
    | none => rw [hb] at hd; cases hd
    | some b =>
      rw [hb] at hd
      cases hd
      simp

theorem Mem.World.Good_move_assign {T : Type} (w : Mem.World T) (d s : Nat)
    (w1 : Mem.World T) (hw : w.Good) (h : w.move_assign d s = .ok w1) : w1.Good := by
  unfold Mem.World.move_assign at h
  cases hd : w.handles[d]? with
  | none => rw [hd] at h; cases h
  | some this =>
    cases hs : w.handles[s]? with
    | none => rw [hd, hs] at h; cases h
    | some other =>
      rw [hd, hs] at h
      by_cases hds : d = s
      · simp only [hds, ne_eq, not_true_eq_false, if_false, pure, Except.pure] at h
        cases h
        exact hw
      · simp only [hds, ne_eq, not_false_eq_true, if_true, Mem.ArrayPtr.move_assign, bind,
          Except.bind, pure, Except.pure] at h
        cases hdel : w.heap.delete_array this.raw_ptr_ with
        | error e => rw [hdel] at h; cases h
        | ok h1 =>
          rw [hdel] at h
          cases h
          have hl := Mem.Heap.delete_array_length _ _ _ hdel
          have hown : ∀ i p,
              (Mem.World.mk h1 ((w.handles.set d ⟨other.raw_ptr_⟩).set s ⟨0⟩)).owns i p →
              ((i ≠ d ∧ i ≠ s ∧ w.owns i p) ∨ (i = d ∧ w.owns s p)) := by
            intro i p hi
            rcases (Mem.owns_set w.heap _ _ s _ i p).mp hi with ⟨h1, h2⟩ | ⟨_, _, h3, h4⟩
            · rcases (Mem.owns_set w.heap _ w.handles d _ i p).mp h2 with
                ⟨k1, k2⟩ | ⟨k1, _, k3, k4⟩
              · exact Or.inl ⟨k1, h1, k2⟩
              · right
                refine ⟨k1, k3, ?_⟩
                injection k4 with k4
                rw [hs, ← k4]
            · injection h4 with h4
              exact absurd h4.symm h3
          refine Mem.World.Good_of_map w _ (fun i => if i = d then s else i)
            (by show w.heap.blocks.length ≤ h1.blocks.length; omega) ?_ ?_ hw
          · intro i p hi
            rcases hown i p hi with ⟨k1, _, k3⟩ | ⟨k1, k3⟩
            · simp only [k1, if_false]; exact k3
            · simp only [k1, if_true]; exact k3
          · intro i j p hij hi hj
            rcases hown i p hi with ⟨a1, a2, _⟩ | ⟨a1, _⟩ <;>
              rcases hown j p hj with ⟨b1, b2, _⟩ | ⟨b1, _⟩
            · simp only [a1, b1, if_false]; exact hij
            · simp only [a1, b1, if_false, if_true]; exact a2
            · simp only [a1, b1, if_false, if_true]; exact fun h => b2 h.symm
            · omega

theorem Mem.World.Good_swap {T : Type} (w : Mem.World T) (a b : Nat)
    (w1 : Mem.World T) (hw : w.Good) (h : w.swap a b = .ok w1) : w1.Good := by
  unfold Mem.World.swap at h
  cases ha : w.handles[a]? with
  | none => rw [ha] at h; cases h
  | some this =>
    cases hb : w.handles[b]? with
    | none => rw [ha, hb] at h; cases h
    | some other =>
      rw [ha, hb] at h
      simp only [Mem.ArrayPtr.swap] at h
      cases h
      have hown : ∀ i p,
          (Mem.World.mk w.heap ((w.handles.set a ⟨other.raw_ptr_⟩).set b ⟨this.raw_ptr_⟩)).owns i p →
          ((i ≠ a ∧ i ≠ b ∧ w.owns i p) ∨ (i = a ∧ i ≠ b ∧ w.owns b p) ∨
            (i = b ∧ w.owns a p)) := by
        intro i p hi
        rcases (Mem.owns_set w.heap _ _ b _ i p).mp hi with ⟨h1, h2⟩ | ⟨h1, _, h3, h4⟩
        · rcases (Mem.owns_set w.heap _ w.handles a _ i p).mp h2 with
            ⟨k1, k2⟩ | ⟨k1, _, k3, k4⟩
          · exact Or.inl ⟨k1, h1, k2⟩
          · right; left
            refine ⟨k1, h1, k3, ?_⟩
            injection k4 with k4
            rw [hb, ← k4]
        · right; right
          refine ⟨h1, h3, ?_⟩
          injection h4 with h4
          rw [ha, ← h4]
      refine Mem.World.Good_of_map w _ (fun i => if i = b then a else if i = a then b else i)
        (Nat.le_refl _) ?_ ?_ hw
      · intro i p hi
        rcases hown i p hi with ⟨k1, k2, k3⟩ | ⟨k1, k2, k3⟩ | ⟨k1, k3⟩
        · simp only [k1, k2, if_false]; exact k3
        · subst k1
          simp only [k2, if_false, if_true]; exact k3
        · simp only [k1, if_true]; exact k3
      · intro i j p hij _ _
        show (if i = b then a else if i = a then b else i)
          ≠ (if j = b then a else if j = a then b else j)
        split_ifs <;> omega

theorem Mem.World.Good_release {T : Type} (w : Mem.World T) (i0 : Nat)
    (r : Mem.World T × Nat) (hw : w.Good) (h : w.Release i0 = .ok r) : r.1.Good := by
  unfold Mem.World.Release at h
  cases hi : w.handles[i0]? with
  | none => rw [hi] at h; cases h
  | some this =>
    rw [hi] at h
    simp only [Mem.ArrayPtr.Release] at h
    cases h
    refine Mem.World.Good_of_map w _ id (Nat.le_refl _) ?_ (fun i j p hij _ _ => hij) hw
    intro i p hp
    rcases (Mem.owns_set w.heap _ w.handles i0 _ i p).mp hp with ⟨_, h2⟩ | ⟨_, _, h3, h4⟩
    · exact h2
    · injection h4 with h4
      exact absurd h4.symm h3

theorem Mem.World.ReachableOwned.good {T : Type} [Elem T] {w : Mem.World T}
    (h : Mem.World.ReachableOwned w) : w.Good := by
  induction h with
  | start => exact Mem.World.Good_start
  | create_empty w _ ih => exact Mem.World.Good_create_empty w ih
  | allocate w size w1 _ h ih => exact Mem.World.Good_allocate w size w1 ih h
  | adopt w p _ hp ih => exact Mem.World.Good_adopt w p ih hp
  | move_construct w s w1 _ h ih => exact Mem.World.Good_move_construct w s w1 ih h
  | move_assign w d s w1 _ h ih => exact Mem.World.Good_move_assign w d s w1 ih h
  | swap w a b w1 _ h ih => exact Mem.World.Good_swap w a b w1 ih h
  | release w i r _ h ih => exact Mem.World.Good_release w i r ih h

/-- C18, the claim as stated fails: `Get()` hands out the pointer of a handle
that keeps owning it, and the constructor from a raw pointer stores any
pointer.  After `ArrayPtr a(3); ArrayPtr b(a.Get());` the two handles hold
the block of address 1. -/
theorem C18_Get_then_adopt_shares_block :
    Mem.World.allocate (Mem.World.start : Mem.World Nat) 3
      = .ok ⟨⟨[some [0, 0, 0]], []⟩, [⟨1⟩]⟩ ∧
    Mem.World.Get (⟨⟨[some [0, 0, 0]], []⟩, [⟨1⟩]⟩ : Mem.World Nat) 0 = .ok 1 ∧
    Mem.World.adopt (⟨⟨[some [0, 0, 0]], []⟩, [⟨1⟩]⟩ : Mem.World Nat) 1
      = ⟨⟨[some [0, 0, 0]], []⟩, [⟨1⟩, ⟨1⟩]⟩ ∧
    Mem.World.Reachable (⟨⟨[some [0, 0, 0]], []⟩, [⟨1⟩, ⟨1⟩]⟩ : Mem.World Nat) ∧
    ¬ Mem.World.Exclusive (⟨⟨[some [0, 0, 0]], []⟩, [⟨1⟩, ⟨1⟩]⟩ : Mem.World Nat) := by
  have h1 : Mem.World.allocate (Mem.World.start : Mem.World Nat) 3
      = .ok ⟨⟨[some [0, 0, 0]], []⟩, [⟨1⟩]⟩ := by decide
  refine ⟨h1, by decide, by decide, ?_, ?_⟩
  · exact Mem.World.Reachable.adopt _ 1
      (Mem.World.Reachable.allocate _ 3 _ Mem.World.Reachable.start h1)
  · intro hex
    exact hex 0 1 1 (by decide) ⟨by decide, by decide⟩ ⟨by decide, by decide⟩

/-- C18, amended. In every world reached from no handle by creating empty
handles, allocating, move construction, move assignment, `swap`, `Release`
and `Get`, a raw pointer being adopted only when it is null or designates a
live block that no handle holds, no two distinct handles hold the same
block. -/
theorem C18_exclusive_ownership {T : Type} [Elem T] (w : Mem.World T)
    (h : Mem.World.ReachableOwned w) : w.Exclusive :=
  (Mem.World.ReachableOwned.good h).1

/-- C18 amended, at the world where a handle has allocated three cells, has
released them, and a second handle has adopted the released block. -/
theorem C18_exclusive_ownership_witness :
    (⟨⟨[some [0, 0, 0]], []⟩, [⟨0⟩, ⟨1⟩]⟩ : Mem.World Nat).Exclusive :=
  C18_exclusive_ownership _
    (Mem.World.ReachableOwned.adopt ⟨⟨[some [0, 0, 0]], []⟩, [⟨0⟩]⟩ 1
      (Mem.World.ReachableOwned.release ⟨⟨[some [0, 0, 0]], []⟩, [⟨1⟩]⟩ 0
        (⟨⟨[some [0, 0, 0]], []⟩, [⟨0⟩]⟩, 1)
        (Mem.World.ReachableOwned.allocate _ 3 _ Mem.World.ReachableOwned.start
          (by decide))
        (by decide))
      (Or.inr ⟨by decide, fun i hi => by
        have h2 := hi.2
        rcases i with _ | _ | i
        · simp at h2
        · simp at h2
        · simp at h2⟩))

/-- The moves between two handles, run: assignment releases the block of the
target, construction and self assignment release nothing. -/
theorem handle_runs :
    Mem.World.move_assign
        (⟨⟨[some [1, 2], some [3]], []⟩, [⟨1⟩, ⟨2⟩]⟩ : Mem.World Nat) 0 1
      = .ok ⟨⟨[none, some [3]], [1]⟩, [⟨2⟩, ⟨0⟩]⟩ ∧
    Mem.World.move_assign
        (⟨⟨[some [1, 2], some [3]], []⟩, [⟨1⟩, ⟨2⟩]⟩ : Mem.World Nat) 0 0
      = .ok ⟨⟨[some [1, 2], some [3]], []⟩, [⟨1⟩, ⟨2⟩]⟩ ∧
    Mem.World.move_construct
        (⟨⟨[some [1, 2], some [3]], []⟩, [⟨1⟩, ⟨2⟩]⟩ : Mem.World Nat) 1
      = .ok ⟨⟨[some [1, 2], some [3]], []⟩, [⟨1⟩, ⟨0⟩, ⟨2⟩]⟩ ∧
    Mem.World.swap
        (⟨⟨[some [1, 2], some [3]], []⟩, [⟨1⟩, ⟨2⟩]⟩ : Mem.World Nat) 0 1
      = .ok ⟨⟨[some [1, 2], some [3]], []⟩, [⟨2⟩, ⟨1⟩]⟩ ∧
    Mem.World.move_assign
        (⟨⟨[none, some [3]], [1]⟩, [⟨1⟩, ⟨2⟩]⟩ : Mem.World Nat) 0 1
      = .error .bad_access := by
  decide

/-! ## Vectors over the free store -/

theorem Mem.Heap.Frame.refl {T : Type} (base own : Nat) (h : Mem.Heap T) :
    Mem.Heap.Frame base own h h := ⟨Nat.le_refl _, fun _ _ _ => rfl⟩

theorem Mem.Heap.Frame.trans {T : Type} {base own : Nat} {h h1 h2 : Mem.Heap T}
    (f1 : Mem.Heap.Frame base own h h1) (f2 : Mem.Heap.Frame base own h1 h2) :
    Mem.Heap.Frame base own h h2 :=
  ⟨Nat.le_trans f1.1 f2.1, fun r hr hne => (f2.2 r hr hne).trans (f1.2 r hr hne)⟩

theorem Mem.Heap.write_inv {T : Type} (h h1 : Mem.Heap T) (p i : Nat) (v : T)
    (hw : h.write p i v = .ok h1) :
    ∃ k b b1, p = k + 1 ∧ h.block (k + 1) = some b ∧ wr b i v = .ok b1 ∧
      h1 = ⟨h.blocks.set k (some b1), h.deleted⟩ := by
  cases p with
  | zero => simp [Mem.Heap.write] at hw
  | succ k =>
    simp only [Mem.Heap.write] at hw
    cases hb : h.block (k + 1) with
    | none => rw [hb] at hw; cases hw
    | some b =>
      rw [hb] at hw
      simp only [bind, Except.bind, pure, Except.pure] at hw
      cases hwr : wr b i v with
      | error e => rw [hwr] at hw; cases hw
      | ok b1 =>
        rw [hwr] at hw
        cases hw
        exact ⟨k, b, b1, rfl, hb, hwr, rfl⟩

theorem Mem.Heap.write_frame {T : Type} (base own : Nat) (h h1 : Mem.Heap T) (p i : Nat)
    (v : T) (hw : h.write p i v = .ok h1) (hp : Mem.Heap.Mine base own p) :
    Mem.Heap.Frame base own h h1 := by
  obtain ⟨k, b, b1, hpk, _, _, rfl⟩ := Mem.Heap.write_inv h h1 p i v hw
  refine ⟨by simp, ?_⟩
  intro r hr hne
  cases r with
  | zero => rfl
  | succ j =>
    have hkj : k ≠ j := by
      rcases hp with h0 | h0 | h0 <;> omega
    simp [Mem.Heap.block, List.getElem?_set_ne hkj]

theorem Mem.Heap.delete_array_frame {T : Type} (base own : Nat) (h h1 : Mem.Heap T) (p : Nat)
    (hd : h.delete_array p = .ok h1) (hp : Mem.Heap.Mine base own p) :
    Mem.Heap.Frame base own h h1 := by
  cases p with
  | zero =>
    simp only [Mem.Heap.delete_array] at hd
    cases hd
    exact Mem.Heap.Frame.refl _ _ _
  | succ k =>
    simp only [Mem.Heap.delete_array] at hd
    cases hb : h.block (k + 1) with
    | none => rw [hb] at hd; cases hd
    | some b =>
      rw [hb] at hd
      cases hd
      refine ⟨by simp, ?_⟩
      intro r hr hne
      cases r with
      | zero => rfl
      | succ j =>
        have hkj : k ≠ j := by
          rcases hp with h0 | h0 | h0 <;> omega
        simp [Mem.Heap.block, List.getElem?_set_ne hkj]

theorem Mem.ArrayPtr.ctor_size_frame {T : Type} [Elem T] (base own : Nat) (h : Mem.Heap T)
    (n : Nat) (r : Mem.Heap T × Mem.ArrayPtr) (hb : base ≤ h.blocks.length)
    (hr : Mem.ArrayPtr.ctor_size h n = .ok r) :
    Mem.Heap.Frame base own h r.1 ∧ Mem.Heap.Mine base own r.2.raw_ptr_ := by
  unfold Mem.ArrayPtr.ctor_size at hr
  by_cases h0 : n = 0
  · simp only [h0, ne_eq, not_true_eq_false, if_false, pure, Except.pure] at hr
    cases hr
    exact ⟨Mem.Heap.Frame.refl _ _ _, Or.inl rfl⟩
  · by_cases hm : n ≤ maxCount T
    · simp only [h0, ne_eq, not_false_eq_true, if_true, Mem.Heap.new_array, hm, bind,
        Except.bind, pure, Except.pure] at hr
      cases hr
      refine ⟨⟨by simp, ?_⟩, Or.inr (Or.inr (by show base < h.blocks.length + 1; omega))⟩
      intro r hr _
      cases r with
      | zero => rfl
      | succ j =>
        simp [Mem.Heap.block, List.getElem?_append_left (show j < h.blocks.length by omega)]
    · simp [h0, Mem.Heap.new_array, hm, bind, Except.bind] at hr

theorem Mem.Heap.move_loop_frame {T : Type} [Elem T] (base own p q : Nat)
    (hp : Mem.Heap.Mine base own p) (hq : Mem.Heap.Mine base own q) (n : Nat) :
    ∀ (h h1 : Mem.Heap T) (f d : Nat), Mem.Heap.move_loop n h p f q d = .ok h1 →
      Mem.Heap.Frame base own h h1 := by
  induction n with
  | zero =>
    intro h h1 f d hl
    simp only [Mem.Heap.move_loop] at hl
    cases hl
    exact Mem.Heap.Frame.refl _ _ _
  | succ n ih =>
    intro h h1 f d hl
    cases hx : h.read p f with
    | error e => simp [Mem.Heap.move_loop, hx, bind, Except.bind] at hl
    | ok x =>
      cases hw1 : h.write q d x with
      | error e => simp [Mem.Heap.move_loop, hx, hw1, bind, Except.bind] at hl
      | ok h2 =>
        cases hw2 : h2.write p f (Elem.moved x) with
        | error e => simp [Mem.Heap.move_loop, hx, hw1, hw2, bind, Except.bind] at hl
        | ok h3 =>
          simp only [Mem.Heap.move_loop, hx, hw1, hw2, bind, Except.bind] at hl
          exact (Mem.Heap.write_frame base own _ _ _ _ _ hw1 hq).trans
            ((Mem.Heap.write_frame base own _ _ _ _ _ hw2 hp).trans (ih _ _ _ _ hl))

theorem Mem.Heap.move_backward_loop_frame {T : Type} [Elem T] (base own p q : Nat)
    (hp : Mem.Heap.Mine base own p) (hq : Mem.Heap.Mine base own q) (n : Nat) :
    ∀ (h h1 : Mem.Heap T) (l dl : Nat), Mem.Heap.move_backward_loop n h p l q dl = .ok h1 →
      Mem.Heap.Frame base own h h1 := by
  induction n with
  | zero =>
    intro h h1 l dl hl
    simp only [Mem.Heap.move_backward_loop] at hl
    cases hl
    exact Mem.Heap.Frame.refl _ _ _
  | succ n ih =>
    intro h h1 l dl hl
    by_cases h0 : l = 0 ∨ dl = 0
    · simp [Mem.Heap.move_backward_loop, h0] at hl
    · cases hx : h.read p (l - 1) with
      | error e => simp [Mem.Heap.move_backward_loop, h0, hx, bind, Except.bind] at hl
      | ok x =>
        cases hw1 : h.write q (dl - 1) x with
        | error e =>
          simp [Mem.Heap.move_backward_loop, h0, hx, hw1, bind, Except.bind] at hl
        | ok h2 =>
          cases hw2 : h2.write p (l - 1) (Elem.moved x) with
          | error e =>
            simp [Mem.Heap.move_backward_loop, h0, hx, hw1, hw2, bind, Except.bind] at hl
          | ok h3 =>
            simp only [Mem.Heap.move_backward_loop, h0, if_false, hx, hw1, hw2, bind,
              Except.bind] at hl
            exact (Mem.Heap.write_frame base own _ _ _ _ _ hw1 hq).trans
              ((Mem.Heap.write_frame base own _ _ _ _ _ hw2 hp).trans (ih _ _ _ _ hl))

theorem Mem.Heap.std_move_frame {T : Type} [Elem T] (base own p q : Nat)
    (hp : Mem.Heap.Mine base own p) (hq : Mem.Heap.Mine base own q)
    (h h1 : Mem.Heap T) (first last d : Nat)
    (hm : Mem.Heap.std_move h p first last q d = .ok h1) : Mem.Heap.Frame base own h h1 := by
  unfold Mem.Heap.std_move at hm
  split at hm
  · exact Mem.Heap.move_loop_frame base own p q hp hq _ _ _ _ _ hm
  · cases hm

theorem Mem.Heap.std_move_backward_frame {T : Type} [Elem T] (base own p q : Nat)
    (hp : Mem.Heap.Mine base own p) (hq : Mem.Heap.Mine base own q)
    (h h1 : Mem.Heap T) (first last dl : Nat)
    (hm : Mem.Heap.std_move_backward h p first last q dl = .ok h1) :
    Mem.Heap.Frame base own h h1 := by
  unfold Mem.Heap.std_move_backward at hm
  split at hm
  · exact Mem.Heap.move_backward_loop_frame base own p q hp hq _ _ _ _ _ hm
  · cases hm

theorem Mem.SimpleVector.reallocate_frame {T : Type} [Elem T] (base own : Nat)
    (h : Mem.Heap T) (s : Mem.SimpleVector) (n : Nat) (r : Mem.Heap T × Mem.SimpleVector)
    (hb : base ≤ h.blocks.length) (hs : Mem.Heap.Mine base own s.data_.raw_ptr_)
    (hr : Mem.SimpleVector.reallocate h s n = .ok r) :
    Mem.Heap.Frame base own h r.1 ∧ Mem.Heap.Mine base own r.2.data_.raw_ptr_ := by
  unfold Mem.SimpleVector.reallocate at hr
  cases h1 : (Mem.ArrayPtr.ctor_size h n : Res (Mem.Heap T × Mem.ArrayPtr)) with
  | error e => simp [h1, bind, Except.bind] at hr
  | ok nd =>
    obtain ⟨f1, m1⟩ := Mem.ArrayPtr.ctor_size_frame base own h n nd hb h1
    cases h2 : Mem.Heap.std_move nd.1 s.data_.Get 0 s.size_ nd.2.Get 0 with
    | error e => simp [h1, h2, bind, Except.bind] at hr
    | ok hp2 =>
      have f2 := Mem.Heap.std_move_frame base own _ _ hs m1 _ _ _ _ _ h2
      cases h3 : Mem.ArrayPtr.dtor hp2 (Mem.ArrayPtr.swap s.data_ nd.2).2 with
      | error e => simp [h1, h2, h3, bind, Except.bind] at hr
      | ok hp3 =>
        simp only [h1, h2, h3, bind, Except.bind, pure, Except.pure] at hr
        cases hr
        have f3 := Mem.Heap.delete_array_frame base own _ _ _ h3 hs
        exact ⟨f1.trans (f2.trans f3), m1⟩

theorem Mem.SimpleVector.PushBack_frame {T : Type} [Elem T] (base own : Nat)
    (h : Mem.Heap T) (s : Mem.SimpleVector) (v : Mem.Ref T) (r : Mem.Heap T × Mem.SimpleVector)
    (hb : base ≤ h.blocks.length) (hs : Mem.Heap.Mine base own s.data_.raw_ptr_)
    (hr : Mem.SimpleVector.PushBack h s v = .ok r) :
    Mem.Heap.Frame base own h r.1 ∧ Mem.Heap.Mine base own r.2.data_.raw_ptr_ := by
  unfold Mem.SimpleVector.PushBack at hr
  simp only [bind, Except.bind, pure, Except.pure] at hr
  cases h1 : (if s.size_ = s.capacity_ then
        Mem.SimpleVector.reallocate h s (if s.capacity_ = 0 then 1 else wrap (s.capacity_ * 2))
      else Except.ok (h, s)) with
  | error e => simp [h1] at hr
  | ok r1 =>
    have hstep : Mem.Heap.Frame base own h r1.1 ∧ Mem.Heap.Mine base own r1.2.data_.raw_ptr_ := by
      split at h1
      · exact Mem.SimpleVector.reallocate_frame base own h s _ r1 hb hs h1
      · cases h1
        exact ⟨Mem.Heap.Frame.refl _ _ _, hs⟩
    obtain ⟨f1, m1⟩ := hstep
    cases hx : v.load r1.1 with
    | error e => simp [h1, hx] at hr
    | ok x =>
      cases h2 : r1.1.write r1.2.data_.Get r1.2.size_ x with
      | error e => simp [h1, hx, h2] at hr
      | ok hp2 =>
        simp only [h1, hx, h2] at hr
        cases hr
        exact ⟨f1.trans (Mem.Heap.write_frame base own _ _ _ _ _ h2 m1), m1⟩

theorem Mem.SimpleVector.Resize_frame {T : Type} [Elem T] (base own : Nat)
    (h : Mem.Heap T) (s : Mem.SimpleVector) (n : Nat) (r : Mem.Heap T × Mem.SimpleVector)
    (hb : base ≤ h.blocks.length) (hs : Mem.Heap.Mine base own s.data_.raw_ptr_)
    (hr : Mem.SimpleVector.Resize h s n = .ok r) :
    Mem.Heap.Frame base own h r.1 ∧ Mem.Heap.Mine base own r.2.data_.raw_ptr_ := by
  unfold Mem.SimpleVector.Resize at hr
  simp only [bind, Except.bind, pure, Except.pure] at hr
  cases h1 : (if n > s.capacity_ then
        Mem.SimpleVector.reallocate h s (max n (wrap (s.capacity_ * 2)))
      else Except.ok (h, s)) with
  | error e => simp [h1] at hr
  | ok r1 =>
    simp only [h1] at hr
    cases hr
    split at h1
    · exact Mem.SimpleVector.reallocate_frame base own h s _ r1 hb hs h1
    · cases h1
      exact ⟨Mem.Heap.Frame.refl _ _ _, hs⟩

theorem Mem.SimpleVector.Erase_frame {T : Type} [Elem T] (base own : Nat)
    (h : Mem.Heap T) (s : Mem.SimpleVector) (pos : Nat)
    (r : Mem.Heap T × Mem.SimpleVector × Nat)
    (hs : Mem.Heap.Mine base own s.data_.raw_ptr_)
    (hr : Mem.SimpleVector.Erase h s pos = .ok r) :
    Mem.Heap.Frame base own h r.1 ∧ Mem.Heap.Mine base own r.2.1.data_.raw_ptr_ := by
  unfold Mem.SimpleVector.Erase at hr
  split at hr
  · cases h1 : Mem.Heap.std_move h s.data_.Get (pos + 1) s.size_ s.data_.Get pos with
    | error e => simp [h1, bind, Except.bind] at hr
    | ok hp1 =>
      simp only [h1, bind, Except.bind, pure, Except.pure] at hr
      cases hr
      exact ⟨Mem.Heap.std_move_frame base own _ _ hs hs _ _ _ _ _ h1, hs⟩
  · cases hr

theorem Mem.SimpleVector.assign_index_frame {T : Type} (base own : Nat)
    (h : Mem.Heap T) (s : Mem.SimpleVector) (i : Nat) (v : T) (h1 : Mem.Heap T)
    (hs : Mem.Heap.Mine base own s.data_.raw_ptr_)
    (hr : Mem.SimpleVector.assign_index h s i v = .ok h1) : Mem.Heap.Frame base own h h1 := by
  unfold Mem.SimpleVector.assign_index at hr
  split at hr
  · exact Mem.Heap.write_frame base own _ _ _ _ _ hr hs
  · cases hr

theorem Mem.SimpleVector.Insert_frame {T : Type} [Elem T] (base own : Nat)
    (h : Mem.Heap T) (s : Mem.SimpleVector) (pos : Nat) (v : Mem.Ref T)
    (r : Mem.Heap T × Mem.SimpleVector × Nat)
    (hb : base ≤ h.blocks.length) (hs : Mem.Heap.Mine base own s.data_.raw_ptr_)
    (hr : Mem.SimpleVector.Insert h s pos v = .ok r) :
    Mem.Heap.Frame base own h r.1 ∧ Mem.Heap.Mine base own r.2.1.data_.raw_ptr_ := by
  unfold Mem.SimpleVector.Insert at hr
  by_cases hpos : pos ≤ s.size_
  · rw [if_pos hpos] at hr
    simp only [bind, Except.bind, pure, Except.pure] at hr
    by_cases he : s.size_ = s.capacity_
    · simp only [if_pos he] at hr
      cases h1 : (Mem.ArrayPtr.ctor_size h (if s.capacity_ = 0 then 1
          else wrap (s.capacity_ * 2)) : Res (Mem.Heap T × Mem.ArrayPtr)) with
      | error e => simp [h1] at hr
      | ok nd =>
        obtain ⟨f1, m1⟩ := Mem.ArrayPtr.ctor_size_frame base own h _ nd hb h1
        cases h2 : Mem.Heap.std_move nd.1 s.data_.Get 0 pos nd.2.Get 0 with
        | error e => simp [h1, h2] at hr
        | ok hp2 =>
          have f2 := Mem.Heap.std_move_frame base own _ _ hs m1 _ _ _ _ _ h2
          cases hx : v.load hp2 with
          | error e => simp [h1, h2, hx] at hr
          | ok x =>
            cases h3 : hp2.write nd.2.Get pos x with
            | error e => simp [h1, h2, hx, h3] at hr
            | ok hp3 =>
              have f3 := Mem.Heap.write_frame base own _ _ _ _ _ h3 m1
              cases h4 : Mem.Heap.std_move hp3 s.data_.Get pos s.size_ nd.2.Get (pos + 1) with
              | error e => simp [h1, h2, hx, h3, h4] at hr
              | ok hp4 =>
                have f4 := Mem.Heap.std_move_frame base own _ _ hs m1 _ _ _ _ _ h4
                cases h5 : Mem.ArrayPtr.dtor hp4 (Mem.ArrayPtr.swap s.data_ nd.2).2 with
                | error e => simp [h1, h2, hx, h3, h4, h5] at hr
                | ok hp5 =>
                  simp only [h1, h2, hx, h3, h4, h5] at hr
                  cases hr
                  have f5 := Mem.Heap.delete_array_frame base own _ _ _ h5 hs
                  exact ⟨f1.trans (f2.trans (f3.trans (f4.trans f5))), m1⟩
    · simp only [if_neg he] at hr
      cases h1 : Mem.Heap.std_move_backward h s.data_.Get pos s.size_ s.data_.Get
          (s.size_ + 1) with
      | error e => simp [h1] at hr
      | ok hp1 =>
        have f1 := Mem.Heap.std_move_backward_frame base own _ _ hs hs _ _ _ _ _ h1
        cases hx : v.load hp1 with
        | error e => simp [h1, hx] at hr
        | ok x =>
          cases h2 : hp1.write s.data_.Get pos x with
          | error e => simp [h1, hx, h2] at hr
          | ok hp2 =>
            simp only [h1, hx, h2] at hr
            cases hr
            exact ⟨f1.trans (Mem.Heap.write_frame base own _ _ _ _ _ h2 hs), hs⟩
  · rw [if_neg hpos] at hr
    cases hr

/-- Mutations of a vector touch its own block and blocks allocated since. -/
theorem Mem.SimpleVector.Mutated.frame {T : Type} [Elem T] {h0 : Mem.Heap T}
    {c0 : Mem.SimpleVector} {h : Mem.Heap T} {c : Mem.SimpleVector}
    (hm : Mem.SimpleVector.Mutated h0 c0 h c) :
    Mem.Heap.Frame h0.blocks.length c0.data_.raw_ptr_ h0 h ∧
      Mem.Heap.Mine h0.blocks.length c0.data_.raw_ptr_ c.data_.raw_ptr_ := by
  induction hm with
  | same => exact ⟨Mem.Heap.Frame.refl _ _ _, Or.inr (Or.inl rfl)⟩
  | assign h c i v h1 _ hr ih =>
    exact ⟨ih.1.trans (Mem.SimpleVector.assign_index_frame _ _ h c i v h1 ih.2 hr), ih.2⟩
  | push_back h c v r _ hr ih =>
    have := Mem.SimpleVector.PushBack_frame _ _ h c v r ih.1.1 ih.2 hr
    exact ⟨ih.1.trans this.1, this.2⟩
  | insert h c pos v r _ hr ih =>
    have := Mem.SimpleVector.Insert_frame _ _ h c pos v r ih.1.1 ih.2 hr
    exact ⟨ih.1.trans this.1, this.2⟩
  | erase h c pos r _ hr ih =>
    have := Mem.SimpleVector.Erase_frame _ _ h c pos r ih.2 hr
    exact ⟨ih.1.trans this.1, this.2⟩
  | resize h c n r _ hr ih =>
    have := Mem.SimpleVector.Resize_frame _ _ h c n r ih.1.1 ih.2 hr
    exact ⟨ih.1.trans this.1, this.2⟩
  | clear h c _ ih => exact ih

theorem Mem.Heap.read_eq {T : Type} (h : Mem.Heap T) (p i : Nat) (b : List T)
    (hb : h.block p = some b) : h.read p i = rd b i := by
  simp [Mem.Heap.read, hb]

theorem Mem.Heap.write_ok {T : Type} (h : Mem.Heap T) (p i : Nat) (v : T) (b b1 : List T)
    (hb : h.block p = some b) (hw : wr b i v = .ok b1) :
    ∃ h1, h.write p i v = .ok h1 ∧ h1.block p = some b1 ∧
      (∀ x, x ≠ p → h1.block x = h.block x) ∧ h1.blocks.length = h.blocks.length ∧
      h1.deleted = h.deleted := by
  have hp := Mem.Heap.block_le h p b hb
  cases p with
  | zero => exact absurd rfl hp.1
  | succ k =>
    refine ⟨⟨h.blocks.set k (some b1), h.deleted⟩, ?_, ?_, ?_, by simp, rfl⟩
    · simp [Mem.Heap.write, hb, hw, bind, Except.bind, pure, Except.pure]
    · simp [Mem.Heap.block, List.getElem?_set, show k < h.blocks.length by omega]
    · intro x hx
      cases x with
      | zero => rfl
      | succ j =>
        have hkj : k ≠ j := by omega
        simp [Mem.Heap.block, List.getElem?_set_ne hkj]

/-- The copy loop between two blocks of the store does to the destination
block what the loop over block values does. -/
theorem Mem.Heap.copy_loop_sim {T : Type} (p q : Nat) (hpq : p ≠ q) (n : Nat) :
    ∀ (h : Mem.Heap T) (src dst : List T) (f d : Nat),
      h.block p = some src → h.block q = some dst →
      f + n ≤ src.length → d + n ≤ dst.length →
      ∃ h1 r, Mem.Heap.copy_loop n h p f q d = .ok h1 ∧
        SimpleVec.copy_loop n src f dst d = .ok r ∧ h1.block q = some r ∧
        (∀ x, x ≠ q → h1.block x = h.block x) ∧ h1.blocks.length = h.blocks.length ∧
        h1.deleted = h.deleted := by
  induction n with
  | zero =>
    intro h src dst f d _ hq _ _
    exact ⟨h, dst, rfl, rfl, hq, fun _ _ => rfl, rfl, rfl⟩
  | succ n ih =>
    intro h src dst f d hp hq hs hd
    have hf : f < src.length := by omega
    have hdl : d < dst.length := by omega
    obtain ⟨h2, hw, hq2, hother, hlen, hdel⟩ :=
      Mem.Heap.write_ok h q d src[f] dst _ hq (wr_ok dst d src[f] hdl)
    have hp2 : h2.block p = some src := by rw [hother p hpq]; exact hp
    obtain ⟨h1, r, hl, hv, hq1, ho1, hlen1, hdel1⟩ :=
      ih h2 src (dst.set d src[f]) (f + 1) (d + 1) hp2 hq2 (by omega)
        (by rw [List.length_set]; omega)
    refine ⟨h1, r, ?_, ?_, hq1, ?_, by rw [hlen1, hlen], by rw [hdel1, hdel]⟩
    · simp only [Mem.Heap.copy_loop, Mem.Heap.read_eq h p f src hp, rd_ok _ _ hf, hw, bind,
        Except.bind, hl]
    · simp only [SimpleVec.copy_loop, rd_ok _ _ hf, wr_ok _ _ _ hdl, bind, Except.bind, hv]
    · intro x hx
      rw [ho1 x hx, hother x hx]

theorem Mem.SimpleVector.op_index_view {T : Type} (h : Mem.Heap T) (s : Mem.SimpleVector)
    (i : Nat) :
    Mem.SimpleVector.op_index h s i
      = SimpleVec.SimpleVector.op_index (Mem.SimpleVector.view h s) i := by
  unfold Mem.SimpleVector.op_index SimpleVec.SimpleVector.op_index Mem.SimpleVector.view
  by_cases hi : i < s.size_
  · simp only [hi, if_true, Mem.Heap.read, Mem.ArrayPtr.Get, ArrayPtr.cells]
    cases h.block s.data_.raw_ptr_ with
    | none => simp [rd]
    | some b => rfl
  · simp only [hi, if_false]

/-- What the copy constructor does over the store. -/
theorem Mem.SimpleVector.ctor_copy_store_spec {T : Type} [Elem T] (h : Mem.Heap T)
    (s : Mem.SimpleVector) (hinv : Mem.SimpleVector.Inv h s) :
    ∃ h1 c, Mem.SimpleVector.ctor_copy h s = .ok (h1, c) ∧ c.size_ = s.size_ ∧
      c.capacity_ = s.capacity_ ∧ Mem.SimpleVector.Inv h1 c ∧
      Mem.SimpleVector.elems h1 c = Mem.SimpleVector.elems h s ∧
      h.blocks.length ≤ h1.blocks.length ∧
      (∀ r, r ≤ h.blocks.length → h1.block r = h.block r) ∧
      (c.data_.raw_ptr_ = 0 ∨ h.blocks.length < c.data_.raw_ptr_) ∧
      h1.deleted = h.deleted := by
  obtain ⟨⟨hsc, hlen, hcap⟩, _⟩ := hinv
  simp only [Mem.SimpleVector.view] at hsc hlen hcap
  by_cases h0 : s.capacity_ = 0
  · have hs0 : s.size_ = 0 := by omega
    refine ⟨h, ⟨s.size_, s.capacity_, ⟨0⟩⟩, ?_, rfl, rfl, ?_, ?_, Nat.le_refl _,
      fun _ _ => rfl, Or.inl rfl, rfl⟩
    · simp [Mem.SimpleVector.ctor_copy, Mem.ArrayPtr.ctor_size, h0, hs0, Mem.Heap.std_copy,
        Mem.Heap.copy_loop, bind, Except.bind, pure, Except.pure]
    · refine ⟨⟨hsc, ?_, hcap⟩, Or.inl rfl⟩
      simp [Mem.SimpleVector.view, Mem.Heap.block, ArrayPtr.cells, h0]
    · simp [Mem.SimpleVector.elems, Mem.SimpleVector.view, SimpleVec.SimpleVector.elems, hs0]
  · -- the block of `s`
    have hsrc : ∃ src, h.block s.data_.raw_ptr_ = some src ∧ src.length = s.capacity_ := by
      cases hb : h.block s.data_.raw_ptr_ with
      | none =>
        rw [hb] at hlen
        simp [ArrayPtr.cells] at hlen
        exact absurd hlen.symm h0
      | some b =>
        rw [hb] at hlen
        exact ⟨b, rfl, by simpa [ArrayPtr.cells] using hlen⟩
    obtain ⟨src, hsrc, hsl⟩ := hsrc
    have hple := Mem.Heap.block_le h _ src hsrc
    -- the store after `new Type[capacity_]`
    let hn : Mem.Heap T :=
      ⟨h.blocks ++ [some (List.replicate s.capacity_ Elem.dflt)], h.deleted⟩
    have hnew : Mem.ArrayPtr.ctor_size h s.capacity_ = .ok (hn, ⟨h.blocks.length + 1⟩) := by
      simp [Mem.ArrayPtr.ctor_size, h0, Mem.Heap.new_array, hcap, bind, Except.bind, pure,
        Except.pure, hn]
    have hold : ∀ r, r ≤ h.blocks.length → hn.block r = h.block r := by
      intro r hr
      cases r with
      | zero => rfl
      | succ j =>
        simp [hn, Mem.Heap.block, List.getElem?_append_left (show j < h.blocks.length by omega)]
    have hq : hn.block (h.blocks.length + 1)
        = some (List.replicate s.capacity_ Elem.dflt) := by
      simp [hn, Mem.Heap.block]
    have hp : hn.block s.data_.raw_ptr_ = some src := by rw [hold _ hple.2]; exact hsrc
    have hpq : s.data_.raw_ptr_ ≠ h.blocks.length + 1 := by omega
    obtain ⟨h1, r, hl, hv, hq1, ho1, hlen1, hdel1⟩ :=
      Mem.Heap.copy_loop_sim s.data_.raw_ptr_ (h.blocks.length + 1) hpq s.size_ hn src
        (List.replicate s.capacity_ Elem.dflt) 0 0 hp hq (by omega) (by simp; omega)
    obtain ⟨r2, hv2, hrl, hrp⟩ := copy_loop_spec s.size_ src 0
      (List.replicate s.capacity_ Elem.dflt) 0 (by omega) (by simp; omega)
    rw [hv] at hv2
    cases hv2
    have hnl : hn.blocks.length = h.blocks.length + 1 := by simp [hn]
    refine ⟨h1, ⟨s.size_, s.capacity_, ⟨h.blocks.length + 1⟩⟩, ?_, rfl, rfl, ?_, ?_, by omega,
      ?_, Or.inr (by show h.blocks.length < h.blocks.length + 1; omega), ?_⟩
    · simp only [Mem.SimpleVector.ctor_copy, hnew, Mem.Heap.std_copy, Nat.zero_le, if_true,
        Nat.sub_zero, Mem.ArrayPtr.Get, hl, bind, Except.bind, pure, Except.pure]
    · refine ⟨⟨hsc, ?_, hcap⟩, Or.inr (by simp [hq1])⟩
      simp [Mem.SimpleVector.view, hq1, ArrayPtr.cells, hrl]
    · simp only [Mem.SimpleVector.elems, Mem.SimpleVector.view, SimpleVec.SimpleVector.elems,
        hq1, hsrc, ArrayPtr.cells]
      apply List.ext_getElem?
      intro k
      by_cases hk : k < s.size_
      · have hc : 0 ≤ k ∧ k < 0 + s.size_ := by omega
        rw [List.getElem?_take_of_lt hk, List.getElem?_take_of_lt hk, hrp k, if_pos hc]
        simp
      · rw [List.getElem?_eq_none (by simp; omega), List.getElem?_eq_none (by simp; omega)]
    · intro x hx
      rw [ho1 x (by omega), hold x hx]
    · rw [hdel1]

theorem Mem.SimpleVector.view_eq_of_block {T : Type} (h h1 : Mem.Heap T)
    (s : Mem.SimpleVector) (hb : h1.block s.data_.raw_ptr_ = h.block s.data_.raw_ptr_) :
    Mem.SimpleVector.view h1 s = Mem.SimpleVector.view h s := by
  simp [Mem.SimpleVector.view, hb]

/-- C14. Over the free store, on a vector `s` satisfying the invariant, the
copy constructor returns a vector `c` with the size of `s` and the same live
elements in the same order (`c == s` when each element compares `==` to
itself), held in a block of its own; `s` is as before; and after any number of
mutations of `c` that return (assignments through `operator[]`, `PushBack`,
`Insert`, `Erase`, `Resize`, `Clear`, whatever the arguments of `PushBack` and
`Insert` refer to), the size, the capacity and the block of
`s` are what they were, so that every element of `s` reads as before. -/
theorem C14_copy_is_deep {T : Type} [Elem T] [ElemOrd T] (h : Mem.Heap T)
    (s : Mem.SimpleVector) (hinv : Mem.SimpleVector.Inv h s) :
    ∃ h1 c, Mem.SimpleVector.ctor_copy h s = .ok (h1, c) ∧
      c.GetSize = s.GetSize ∧
      Mem.SimpleVector.elems h1 c = Mem.SimpleVector.elems h s ∧
      ((∀ x : T, ElemOrd.eq x x = true) →
        SimpleVec.SimpleVector.op_eq (Mem.SimpleVector.view h1 c)
          (Mem.SimpleVector.view h1 s) = .ok true) ∧
      (c.data_.Get = 0 ∨ c.data_.Get ≠ s.data_.Get) ∧
      Mem.SimpleVector.view h1 s = Mem.SimpleVector.view h s ∧
      ∀ h2 c2, Mem.SimpleVector.Mutated h1 c h2 c2 →
        (Mem.SimpleVector.view h2 s = Mem.SimpleVector.view h s ∧
          Mem.SimpleVector.elems h2 s = Mem.SimpleVector.elems h s ∧
          ∀ i, Mem.SimpleVector.op_index h2 s i = Mem.SimpleVector.op_index h s i) := by
  obtain ⟨h1, c, hc, hsz, _, hinvc, hel, hlen, hold, hfresh, _⟩ :=
    Mem.SimpleVector.ctor_copy_store_spec h s hinv
  -- the address of the block of `s` is an address of `h`
  have hsle : s.data_.raw_ptr_ ≤ h.blocks.length := by
    rcases hinv.2 with h0 | hl
    · omega
    · obtain ⟨b, hb⟩ := Option.isSome_iff_exists.mp hl
      exact (Mem.Heap.block_le h _ b hb).2
  have hv1 : Mem.SimpleVector.view h1 s = Mem.SimpleVector.view h s :=
    Mem.SimpleVector.view_eq_of_block h h1 s (hold _ hsle)
  refine ⟨h1, c, hc, hsz, hel, ?_, ?_, hv1, ?_⟩
  · intro hr
    have hinvs : SimpleVec.SimpleVector.Inv (Mem.SimpleVector.view h1 s) := by
      rw [hv1]; exact hinv.1
    rw [SimpleVector.op_eq_eq _ _ hinvc.1 hinvs]
    have he : SimpleVec.SimpleVector.elems (Mem.SimpleVector.view h1 c)
        = SimpleVec.SimpleVector.elems (Mem.SimpleVector.view h1 s) := by
      rw [hv1]; exact hel
    rw [he, listEq_self hr]
    simp [Mem.SimpleVector.view, hsz]
  · rcases hfresh with h0 | hlt
    · exact Or.inl h0
    · right
      show c.data_.raw_ptr_ ≠ s.data_.raw_ptr_
      omega
  · intro h2 c2 hm
    obtain ⟨⟨_, hfr⟩, _⟩ := Mem.SimpleVector.Mutated.frame hm
    have hb : h2.block s.data_.raw_ptr_ = h.block s.data_.raw_ptr_ := by
      by_cases hs0 : s.data_.raw_ptr_ = 0
      · rw [hs0]; rfl
      · rw [hfr _ (by omega) (by rcases hfresh with h0 | hlt <;> omega), hold _ hsle]
    have hv2 := Mem.SimpleVector.view_eq_of_block h h2 s hb
    refine ⟨hv2, by simp only [Mem.SimpleVector.elems, hv2], ?_⟩
    intro i
    rw [Mem.SimpleVector.op_index_view, Mem.SimpleVector.op_index_view, hv2]

/-- C14 on the store holding the block `[1, 2, 3]` of the vector `s`. -/
theorem C14_copy_is_deep_witness :
    ∃ h1 c, Mem.SimpleVector.ctor_copy (⟨[some [1, 2, 3]], []⟩ : Mem.Heap Nat) ⟨3, 3, ⟨1⟩⟩
        = .ok (h1, c) ∧
      c.GetSize = (⟨3, 3, ⟨1⟩⟩ : Mem.SimpleVector).GetSize ∧
      Mem.SimpleVector.elems h1 c
        = Mem.SimpleVector.elems (⟨[some [1, 2, 3]], []⟩ : Mem.Heap Nat) ⟨3, 3, ⟨1⟩⟩ ∧
      (c.data_.Get = 0 ∨ c.data_.Get ≠ (⟨3, 3, ⟨1⟩⟩ : Mem.SimpleVector).data_.Get) ∧
      ∀ h2 c2, Mem.SimpleVector.Mutated h1 c h2 c2 →
        Mem.SimpleVector.elems h2 (⟨3, 3, ⟨1⟩⟩ : Mem.SimpleVector)
          = Mem.SimpleVector.elems (⟨[some [1, 2, 3]], []⟩ : Mem.Heap Nat) ⟨3, 3, ⟨1⟩⟩ := by
  obtain ⟨h1, c, k1, k2, k3, _, k5, _, k7⟩ :=
    C14_copy_is_deep (⟨[some [1, 2, 3]], []⟩ : Mem.Heap Nat) ⟨3, 3, ⟨1⟩⟩
      ⟨by decide, Or.inr (by decide)⟩
  exact ⟨h1, c, k1, k2, k3, k5, fun h2 c2 hm => (k7 h2 c2 hm).2.1⟩

/-- A copy and mutations of the copy, run on the store holding the block
`[1, 2, 3]` of `s` at address 1: the copy gets the block of address 2; its
`PushBack(9)` moves it to a block of address 3 and deletes the block of
address 2, and so does `PushBack(s[2])`, which reads the block of `s`; then `c[0] = 7`, `Insert(begin() + 1, 8)`, `Erase(begin())` and
`Resize(1)` work in the block of address 3.  The block of address 1 is
`[1, 2, 3]` throughout. -/
theorem copy_then_mutate_runs :
    Mem.SimpleVector.ctor_copy (⟨[some [1, 2, 3]], []⟩ : Mem.Heap Nat) ⟨3, 3, ⟨1⟩⟩
      = .ok (⟨[some [1, 2, 3], some [1, 2, 3]], []⟩, ⟨3, 3, ⟨2⟩⟩) ∧
    Mem.SimpleVector.PushBack (⟨[some [1, 2, 3], some [1, 2, 3]], []⟩ : Mem.Heap Nat)
        ⟨3, 3, ⟨2⟩⟩ (.obj 9)
      = .ok (⟨[some [1, 2, 3], none, some [1, 2, 3, 9, 0, 0]], [2]⟩, ⟨4, 6, ⟨3⟩⟩) ∧
    Mem.SimpleVector.PushBack (⟨[some [1, 2, 3], some [1, 2, 3]], []⟩ : Mem.Heap Nat)
        ⟨3, 3, ⟨2⟩⟩ (.cell 1 2)
      = .ok (⟨[some [1, 2, 3], none, some [1, 2, 3, 3, 0, 0]], [2]⟩, ⟨4, 6, ⟨3⟩⟩) ∧
    Mem.SimpleVector.assign_index
        (⟨[some [1, 2, 3], none, some [1, 2, 3, 9, 0, 0]], [2]⟩ : Mem.Heap Nat) ⟨4, 6, ⟨3⟩⟩ 0 7
      = .ok ⟨[some [1, 2, 3], none, some [7, 2, 3, 9, 0, 0]], [2]⟩ ∧
    Mem.SimpleVector.Insert
        (⟨[some [1, 2, 3], none, some [7, 2, 3, 9, 0, 0]], [2]⟩ : Mem.Heap Nat) ⟨4, 6, ⟨3⟩⟩ 1
        (.obj 8)
      = .ok (⟨[some [1, 2, 3], none, some [7, 8, 2, 3, 9, 0]], [2]⟩, ⟨5, 6, ⟨3⟩⟩, 1) ∧
    Mem.SimpleVector.Erase
        (⟨[some [1, 2, 3], none, some [7, 8, 2, 3, 9, 0]], [2]⟩ : Mem.Heap Nat) ⟨5, 6, ⟨3⟩⟩ 0
      = .ok (⟨[some [1, 2, 3], none, some [8, 2, 3, 9, 0, 0]], [2]⟩, ⟨4, 6, ⟨3⟩⟩, 0) ∧
    Mem.SimpleVector.Resize
        (⟨[some [1, 2, 3], none, some [8, 2, 3, 9, 0, 0]], [2]⟩ : Mem.Heap Nat) ⟨4, 6, ⟨3⟩⟩ 1
      = .ok (⟨[some [1, 2, 3], none, some [8, 2, 3, 9, 0, 0]], [2]⟩, ⟨1, 6, ⟨3⟩⟩) ∧
    Mem.SimpleVector.elems
        (⟨[some [1, 2, 3], none, some [8, 2, 3, 9, 0, 0]], [2]⟩ : Mem.Heap Nat) ⟨3, 3, ⟨1⟩⟩
      = [1, 2, 3] := by
  decide

/-- C15. Move construction, over block values and over the free store: the
new vector has the size and the capacity of the source and holds its very
block (the same pointer, hence the same live elements, nothing copied); the
source is left with size 0, capacity 0, `IsEmpty()` true and a null handle. -/
theorem C15_move_construction {T : Type} (s : SimpleVector T) (h : Mem.Heap T)
    (m : Mem.SimpleVector) :
    ((SimpleVector.ctor_move s).1.GetSize = s.GetSize ∧
      (SimpleVector.ctor_move s).1.GetCapacity = s.GetCapacity ∧
      (SimpleVector.ctor_move s).1.data_ = s.data_ ∧
      SimpleVector.elems (SimpleVector.ctor_move s).1 = SimpleVector.elems s ∧
      (SimpleVector.ctor_move s).2.GetSize = 0 ∧
      (SimpleVector.ctor_move s).2.GetCapacity = 0 ∧
      (SimpleVector.ctor_move s).2.IsEmpty = true ∧
      (SimpleVector.ctor_move s).2.data_.Get = none ∧
      (SimpleVector.ctor_move s).2.data_.toBool = false) ∧
    ((Mem.SimpleVector.ctor_move m).1.GetSize = m.GetSize ∧
      (Mem.SimpleVector.ctor_move m).1.GetCapacity = m.GetCapacity ∧
      (Mem.SimpleVector.ctor_move m).1.data_.Get = m.data_.Get ∧
      Mem.SimpleVector.view h (Mem.SimpleVector.ctor_move m).1 = Mem.SimpleVector.view h m ∧
      Mem.SimpleVector.elems h (Mem.SimpleVector.ctor_move m).1
        = Mem.SimpleVector.elems h m ∧
      (Mem.SimpleVector.ctor_move m).2.GetSize = 0 ∧
      (Mem.SimpleVector.ctor_move m).2.GetCapacity = 0 ∧
      (Mem.SimpleVector.ctor_move m).2.IsEmpty = true ∧
      (Mem.SimpleVector.ctor_move m).2.data_.Get = 0 ∧
      (Mem.SimpleVector.ctor_move m).2.data_.toBool = false ∧
      Mem.SimpleVector.elems h (Mem.SimpleVector.ctor_move m).2 = []) :=
  ⟨⟨rfl, rfl, rfl, rfl, rfl, rfl, rfl, rfl, rfl⟩,
    ⟨rfl, rfl, rfl, rfl, rfl, rfl, rfl, rfl, rfl, rfl, rfl⟩⟩

/-- Move construction run on the vector `[1, 2, 3]` of capacity 4. -/
theorem ctor_move_runs :
    SimpleVector.ctor_move (⟨3, 4, ⟨some [1, 2, 3, 7]⟩⟩ : SimpleVector Nat)
      = (⟨3, 4, ⟨some [1, 2, 3, 7]⟩⟩, ⟨0, 0, ⟨none⟩⟩) ∧
    Mem.SimpleVector.ctor_move ⟨3, 4, ⟨1⟩⟩ = (⟨3, 4, ⟨1⟩⟩, ⟨0, 0, ⟨0⟩⟩) := by
  decide

/-- C16. The call `a.swap(b)` on two vectors, over block values and over the
free store: afterwards `a` has the size, the capacity and the block (hence the
live elements) that `b` had, and `b` those that `a` had; the blocks
themselves are not touched. -/
theorem C16_swap_exchanges {T : Type} (a b : SimpleVector T) (h : Mem.Heap T)
    (ma mb : Mem.SimpleVector) :
    ((SimpleVector.swap a b).1.GetSize = b.GetSize ∧
      (SimpleVector.swap a b).1.GetCapacity = b.GetCapacity ∧
      (SimpleVector.swap a b).1.data_ = b.data_ ∧
      SimpleVector.elems (SimpleVector.swap a b).1 = SimpleVector.elems b ∧
      (SimpleVector.swap a b).2.GetSize = a.GetSize ∧
      (SimpleVector.swap a b).2.GetCapacity = a.GetCapacity ∧
      (SimpleVector.swap a b).2.data_ = a.data_ ∧
      SimpleVector.elems (SimpleVector.swap a b).2 = SimpleVector.elems a ∧
      (SimpleVector.swap a b).1 = b ∧ (SimpleVector.swap a b).2 = a) ∧
    ((Mem.SimpleVector.swap ma mb).1.GetSize = mb.GetSize ∧
      (Mem.SimpleVector.swap ma mb).1.GetCapacity = mb.GetCapacity ∧
      (Mem.SimpleVector.swap ma mb).1.data_.Get = mb.data_.Get ∧
      Mem.SimpleVector.view h (Mem.SimpleVector.swap ma mb).1 = Mem.SimpleVector.view h mb ∧
      Mem.SimpleVector.elems h (Mem.SimpleVector.swap ma mb).1
        = Mem.SimpleVector.elems h mb ∧
      (Mem.SimpleVector.swap ma mb).2.GetSize = ma.GetSize ∧
      (Mem.SimpleVector.swap ma mb).2.GetCapacity = ma.GetCapacity ∧
      (Mem.SimpleVector.swap ma mb).2.data_.Get = ma.data_.Get ∧
      Mem.SimpleVector.view h (Mem.SimpleVector.swap ma mb).2 = Mem.SimpleVector.view h ma ∧
      Mem.SimpleVector.elems h (Mem.SimpleVector.swap ma mb).2
        = Mem.SimpleVector.elems h ma) :=
  ⟨⟨rfl, rfl, rfl, rfl, rfl, rfl, rfl, rfl, rfl, rfl⟩,
    ⟨rfl, rfl, rfl, rfl, rfl, rfl, rfl, rfl, rfl, rfl⟩⟩

/-- The call `a.swap(b)` run on `[1, 2, 3]` (capacity 4) and `[9]`. -/
theorem swap_runs :
    SimpleVector.swap (⟨3, 4, ⟨some [1, 2, 3, 7]⟩⟩ : SimpleVector Nat) ⟨1, 1, ⟨some [9]⟩⟩
      = (⟨1, 1, ⟨some [9]⟩⟩, ⟨3, 4, ⟨some [1, 2, 3, 7]⟩⟩) ∧
    Mem.SimpleVector.swap ⟨3, 4, ⟨1⟩⟩ ⟨1, 1, ⟨2⟩⟩ = (⟨1, 1, ⟨2⟩⟩, ⟨3, 4, ⟨1⟩⟩) := by
  decide

end SimpleVec
